import Mathlib

/-!
Verification development for the graph-algorithm core
(`undirected_graph.py` and `directed_graph.py`).

The Python classes are embedded shallowly:

* vertices are identified by their `vtx_id : Nat` (the source guarantees
  uniqueness through `add_vtx`); Python object-identity tests (`is`) are
  modelled as id equality;
* Python lists become `List`, Python sets of ids become `List Nat` with
  membership tests and duplicate-free insertion;
* edge costs / lengths are modelled as `Int` (all behaviour relevant to the
  claims is arithmetic comparison, which agrees with Python floats on the
  integer inputs appearing in the specification);
* mutation is threaded explicitly: graph-mutating operations return the new
  graph state, and operations that can raise return the state that is
  visible when the exception escapes (Python mutates objects in place, so a
  raise in the middle of a mutation sequence leaves the partial updates);
* Python `list` indexing raises `IndexError` out of range; reads and writes
  of the Bellman-Ford tables are therefore modelled with fallible `idx` /
  `setIdx` operations;
* unbounded recursion (the DFS of straightforward Kruskal, the push-based
  notification) is modelled with an explicit fuel argument, `none` meaning
  that the fuel was exhausted (the Python code would still be running, or
  would die with a `RecursionError`, which is in particular not one of the
  `IllegalArgumentError` exits).

`graph_basics.py` and `union_find.py` are not part of the sources; the
pieces of them that the embedded code needs (`_find_vtx`, `_INFINITY`, the
explored flag, the union-find structure) are modelled from the spec and
marked as such in their doc comments.
-/

set_option maxHeartbeats 1000000

namespace CourseraGraphs

/-! ## Undirected graphs (`undirected_graph.py`) -/

/-- Errors raised by the embedded code.  The Python code raises
`IllegalArgumentError` with distinct messages, plus built-in `IndexError`
for out-of-range list indexing; each distinct exit is a constructor. -/
inductive GErr where
  | notExist      -- "The endpoints don't both exist." / vertex not found
  | selfLoop      -- "The endpoints are the same (self-loop)."
  | dupEdge       -- "The edge to add already exists."
  | notInvolve    -- "The edge to add should involve this vertex."
  | dupVtx        -- "The input vertex is repeated."
  | invalidArg    -- "The number of clusters must be greater than 1."
  | negCycle      -- "The graph has negative cycles reachable from the ... vertex."
  | indexError    -- Python IndexError from list indexing
deriving DecidableEq, Repr

/-- `UndirectedEdge`: pair of endpoint ids plus a cost
(undirected_graph.py, class `UndirectedEdge`). -/
structure UndirectedEdge where
  end1 : Nat
  end2 : Nat
  cost : Int
deriving DecidableEq, Repr

/-- Undirected `Vertex`: its id, its incident edge list, its neighbor-id
set, and the transient DFS flag.  The `explored` flag and its
`set_as_explored` mutator live in the missing `graph_basics.py`;
modelled from the spec: a vertex-local transient boolean, initially
false, set by `set_as_explored` (spec section 3 "explored flag" and
section 4.2). -/
structure UVertex where
  vtx_id : Nat
  edges : List UndirectedEdge
  neighbors : List Nat
  explored : Bool
deriving DecidableEq, Repr

/-- Graph state: the vertex list and the edge list, in insertion order
(the storage provided by the missing `graph_basics.AbstractGraph`;
modelled from the spec, section 3 "Graph"). -/
structure UGraph where
  vtx_list : List UVertex
  edge_list : List UndirectedEdge
deriving DecidableEq, Repr

/-- Modelled from the spec: `AbstractGraph._find_vtx` of the missing
`graph_basics.py` — lookup of a vertex by id in the vertex list. -/
def UGraph.find_vtx (g : UGraph) (i : Nat) : Option UVertex :=
  g.vtx_list.find? (fun v => v.vtx_id == i)

/-- Replace the stored vertex carrying the given id (Python mutates the
vertex object in place; ids are unique for graphs built through the API). -/
def UGraph.update_vtx (g : UGraph) (v : UVertex) : UGraph :=
  { g with vtx_list := g.vtx_list.map (fun w => if w.vtx_id == v.vtx_id then v else w) }

/-- `Vertex.add_edge` (undirected_graph.py lines 91-115): validates, then
appends the edge and the neighbor id. -/
def UVertex.add_edge (v : UVertex) (e : UndirectedEdge) : Except GErr UVertex :=
  if e.end1 ≠ v.vtx_id ∧ e.end2 ≠ v.vtx_id then .error .notInvolve
  else
    let neighbor := if e.end1 == v.vtx_id then e.end2 else e.end1
    if neighbor ∈ v.neighbors then .error .dupEdge
    else .ok { v with edges := v.edges ++ [e], neighbors := v.neighbors ++ [neighbor] }

/-- `UndirectedGraph.add_vtx` (lines 241-247). -/
def UGraph.add_vtx (g : UGraph) (i : Nat) : Except GErr UGraph :=
  if (g.find_vtx i).isSome then .error .dupVtx
  else .ok { g with vtx_list := g.vtx_list ++ [⟨i, [], [], false⟩] }

/-- `UndirectedGraph.add_edge` + `_add_edge` (lines 257-275).  The result
pairs the raised error (if any) with the state visible after the call:
Python mutates in place, so `end1.add_edge` happening before a raise in
`end2.add_edge` would leave `end1` changed. -/
def UGraph.add_edge (g : UGraph) (end1_id end2_id : Nat) (cost : Int) :
    Option GErr × UGraph :=
  match g.find_vtx end1_id, g.find_vtx end2_id with
  | some end1, some end2 =>
    if end1_id = end2_id then (some .selfLoop, g)
    else
      let e : UndirectedEdge := ⟨end1_id, end2_id, cost⟩
      match end1.add_edge e with
      | .error er => (some er, g)
      | .ok end1x =>
        let g1 := g.update_vtx end1x
        match end2.add_edge e with
        | .error er => (some er, g1)
        | .ok end2x =>
          let g2 := g1.update_vtx end2x
          (none, { g2 with edge_list := g2.edge_list ++ [e] })
  | _, _ => (some .notExist, g)

/-- Build a graph through the public API, for concrete examples
(errors cannot occur on the inputs used; the state is threaded anyway). -/
def buildU (ids : List Nat) (es : List (Nat × Nat × Int)) : UGraph :=
  let g0 := ids.foldl (fun g i =>
    match g.add_vtx i with
    | .ok g2 => g2
    | .error _ => g) ⟨[], []⟩
  es.foldl (fun g t => (g.add_edge t.1 t.2.1 t.2.2).2) g0

/-! ### Python `heapq` on `UndirectedEdge`

`prim_mst_straightforward` pushes edges on a `heapq` heap;
`UndirectedEdge.__lt__` compares costs.  The CPython `heapq` sift
routines are reproduced verbatim on a `List`. -/

/-- Out-of-range reads cannot happen during the heap routines' real runs;
a default edge keeps the functions total. -/
def heapGet (h : List UndirectedEdge) (i : Nat) : UndirectedEdge :=
  h.getD i ⟨0, 0, 0⟩

def heapSet (h : List UndirectedEdge) (i : Nat) (x : UndirectedEdge) :
    List UndirectedEdge :=
  h.set i x

/-- CPython `heapq._siftdown(heap, startpos, pos)` with `newitem = heap[pos]`
passed explicitly.  The loop strictly decreases `pos`, so running it on
`pos + 1` fuel (as the callers do) reproduces it exactly; the fuel keeps
the recursion structural. -/
def siftdown (heap : List UndirectedEdge) (startpos pos : Nat)
    (newitem : UndirectedEdge) : Nat → List UndirectedEdge
  | 0 => heapSet heap pos newitem
  | fuel + 1 =>
    if startpos < pos then
      let parentpos := (pos - 1) / 2
      let parent := heapGet heap parentpos
      if newitem.cost < parent.cost then
        siftdown (heapSet heap pos parent) startpos parentpos newitem fuel
      else heapSet heap pos newitem
    else heapSet heap pos newitem

/-- CPython `heapq._siftup(heap, pos)` with `newitem = heap[pos]` passed
explicitly (`startpos` is the initial `pos`).  The loop strictly
increases `pos` below `len(heap)`, so `len(heap) + 1` fuel reproduces
it exactly. -/
def siftup (heap : List UndirectedEdge) (startpos pos : Nat)
    (newitem : UndirectedEdge) : Nat → List UndirectedEdge
  | 0 => heap
  | fuel + 1 =>
    let endpos := heap.length
    let childpos := 2 * pos + 1
    if childpos < endpos then
      let rightpos := childpos + 1
      let child :=
        if rightpos < endpos ∧
            ¬ (heapGet heap childpos).cost < (heapGet heap rightpos).cost then
          rightpos
        else childpos
      siftup (heapSet heap pos (heapGet heap child)) startpos child newitem fuel
    else siftdown (heapSet heap pos newitem) startpos pos newitem (pos + 1)

/-- CPython `heapq.heappush`. -/
def heappush (h : List UndirectedEdge) (x : UndirectedEdge) :
    List UndirectedEdge :=
  siftdown (h ++ [x]) 0 h.length x (h.length + 1)

/-- CPython `heapq.heappop`; `none` models the `IndexError` on an empty
heap. -/
def heappop (h : List UndirectedEdge) :
    Option (UndirectedEdge × List UndirectedEdge) :=
  match h.getLast? with
  | none => none
  | some lastelt =>
    let rest := h.dropLast
    match rest with
    | [] => some (lastelt, [])
    | _ :: _ =>
      some (heapGet rest 0, siftup (heapSet rest 0 lastelt) 0 0 lastelt
        (rest.length + 1))

/-! ### Prim's MST (`prim_mst_straightforward`, lines 296-345)

The source picks a random start vertex from `_vtx_list`; the start index
is a parameter here.  The `while` loop is run on fuel: `none` models a
run that is still looping (or has died popping an empty heap), which
does not happen on the concrete inputs below. -/

def primLoop (g : UGraph) (spanned : List Nat) (heap : List UndirectedEdge)
    (acc : Int) : Nat → Option Int
  | 0 => none
  | fuel + 1 =>
    if g.vtx_list.length ≤ spanned.length then some acc
    else
      match heappop heap with
      | none => none
      | some (cheapest, heap2) =>
        -- the popped edge is appended to the spanning tree unconditionally
        let w_id := if cheapest.end1 ∈ spanned then cheapest.end2 else cheapest.end1
        let spanned2 := if w_id ∈ spanned then spanned else spanned ++ [w_id]
        let wEdges := ((g.find_vtx w_id).map UVertex.edges).getD []
        let heap3 := wEdges.foldl (fun h we =>
          let nbr := if we.end1 == w_id then we.end2 else we.end1
          if nbr ∈ spanned2 then h else heappush h we) heap2
        primLoop g spanned2 heap3 (acc + cheapest.cost) fuel

def UGraph.prim_mst_straightforward (g : UGraph) (startIdx fuel : Nat) :
    Option Int :=
  match g.vtx_list.get? startIdx with
  | none => none
  | some src =>
    let crossing := src.edges.foldl (fun h e => heappush h e) []
    primLoop g [src.vtx_id] crossing 0 fuel

/-! ### Sorting edges

Python `sorted` is stable and `UndirectedEdge.__lt__` compares costs, so
the result is the unique stable ascending-by-cost reordering; a stable
insertion sort produces the same list. -/

def insertByCost (acc : List UndirectedEdge) (e : UndirectedEdge) :
    List UndirectedEdge :=
  match acc with
  | [] => [e]
  | x :: xs => if e.cost < x.cost then e :: x :: xs else x :: insertByCost xs e

def sortE (es : List UndirectedEdge) : List UndirectedEdge :=
  es.foldl insertByCost []

/-! ### Straightforward Kruskal (lines 347-437)

The DFS reads and sets the per-vertex `explored` flags on the graph
itself, and never clears them, so the graph state is threaded through and
returned.  The connection map built per check maps an id to its neighbor
ids; a key is present exactly when its list is nonempty. -/

def UGraph.explored_of (g : UGraph) (i : Nat) : Bool :=
  ((g.find_vtx i).map UVertex.explored).getD false

def UGraph.set_as_explored (g : UGraph) (i : Nat) : UGraph :=
  { g with vtx_list := g.vtx_list.map (fun v =>
      if v.vtx_id == i then { v with explored := true } else v) }

/-- `_add_neighbor` (lines 403-416): append to the key's list. -/
def add_neighbor (conns : Nat → List Nat) (v n : Nat) : Nat → List Nat :=
  fun x => if x = v then conns v ++ [n] else conns x

/-- `_construct_connections` (lines 388-401). -/
def construct_connections (es : List UndirectedEdge) : Nat → List Nat :=
  es.foldl (fun c e => add_neighbor (add_neighbor c e.end1 e.end2) e.end2 e.end1)
    (fun _ => [])

/-- `_dfs_and_check_path_helper` (lines 418-437), defunctionalized: a
stack frame is either a vertex about to be entered (`Sum.inl`, which
marks it explored and pushes its neighbor list) or the rest of a
neighbor list being scanned (`Sum.inr`).  Returning `True` from a nested
call returns `True` from every enclosing call, which here simply stops
the machine.  Each step consumes one fuel; the callers supply fuel
dominating the Python run's step count, so the runs coincide. -/
def dfsRun (conns : Nat → List Nat) (target : Nat) :
    Nat → UGraph → List (Sum Nat (List Nat)) → Bool × UGraph
  | _, g, [] => (false, g)
  | 0, g, _ :: _ => (false, g)
  | fuel + 1, g, Sum.inl curr :: k =>
    dfsRun conns target fuel (g.set_as_explored curr) (Sum.inr (conns curr) :: k)
  | fuel + 1, g, Sum.inr [] :: k => dfsRun conns target fuel g k
  | fuel + 1, g, Sum.inr (n :: rest) :: k =>
    if n == target then (true, g)
    else if g.explored_of n then dfsRun conns target fuel g (Sum.inr rest :: k)
    else dfsRun conns target fuel g (Sum.inl n :: Sum.inr rest :: k)

/-- `_dfs_and_check_path` (lines 371-386).  The helper enters a vertex at
most once per unexplored vertex and scans each connection list at most
once per entered vertex, so the supplied fuel dominates the run. -/
def UGraph.dfs_and_check_path (g : UGraph) (tree : List UndirectedEdge)
    (v w : Nat) : Bool × UGraph :=
  let conns := construct_connections tree
  if conns v = [] ∨ conns w = [] then (false, g)
  else
    dfsRun conns w ((g.vtx_list.length + 2) * (2 * g.edge_list.length + 3)) g
      [Sum.inl v]

def kruskalSGo (g : UGraph) (edges tree : List UndirectedEdge) :
    List UndirectedEdge × UGraph :=
  match edges with
  | [] => (tree, g)
  | e :: rest =>
    match g.dfs_and_check_path tree e.end1 e.end2 with
    | (true, g2) => kruskalSGo g2 rest tree
    | (false, g2) => kruskalSGo g2 rest (tree ++ [e])

/-- `kruskal_mst_straightforward` (lines 347-369); returns the total cost
together with the graph state (whose explored flags the call dirtied). -/
def UGraph.kruskal_mst_straightforward (g : UGraph) : Int × UGraph :=
  let p := kruskalSGo g (sortE g.edge_list) []
  ((p.1.map UndirectedEdge.cost).sum, p.2)

/-! ### Union-find

Modelled from the spec (section 4.1; `union_find.py` is not among the
sources): each object records its leader; `union` merges the smaller
group under the larger group's leader and eagerly re-parents every member
of the absorbed group, so everybody always points directly at its leader.
The structure is an association list `member id ↦ leader id`, one entry
per registered vertex. -/

abbrev UF := List (Nat × Nat)

def ufInit (ids : List Nat) : UF := ids.map (fun i => (i, i))

def ufLeader (uf : UF) (i : Nat) : Nat :=
  ((uf.find? (fun p => p.1 == i)).map Prod.snd).getD i

def ufSize (uf : UF) (l : Nat) : Nat :=
  (uf.filter (fun p => p.2 == l)).length

def ufNumGroups (uf : UF) : Nat :=
  (uf.filter (fun p => p.1 == p.2)).length

/-- The surviving leader of a merge-by-size union (ties attach the second
group under the first). -/
def ufWinner (uf : UF) (la lb : Nat) : Nat :=
  if ufSize uf lb ≤ ufSize uf la then la else lb

/-- The absorbed leader of a merge-by-size union. -/
def ufLoser (uf : UF) (la lb : Nat) : Nat :=
  if ufSize uf lb ≤ ufSize uf la then lb else la

/-- `union` on two current leaders (the callers in `undirected_graph.py`
always pass the two leaders' names): every member of the absorbed
group is re-parented to the surviving leader. -/
def ufUnion (uf : UF) (la lb : Nat) : UF :=
  if la = lb then uf
  else uf.map (fun p =>
    if p.2 == ufLoser uf la lb then (p.1, ufWinner uf la lb) else p)

/-! ### Improved Kruskal (lines 439-482) -/

def kruskalIGo (uf : UF) (edges tree : List UndirectedEdge) :
    List UndirectedEdge :=
  match edges with
  | [] => tree
  | e :: rest =>
    if ufLeader uf e.end1 ≠ ufLeader uf e.end2 then
      kruskalIGo (ufUnion uf (ufLeader uf e.end1) (ufLeader uf e.end2)) rest
        (tree ++ [e])
    else kruskalIGo uf rest tree

def UGraph.kruskal_mst_improved (g : UGraph) : Int :=
  ((kruskalIGo (ufInit (g.vtx_list.map UVertex.vtx_id)) (sortE g.edge_list) []).map
    UndirectedEdge.cost).sum

/-! ### Clustering with max spacing (lines 484-522) -/

def clusterGo (uf : UF) (k : Int) (stopped : Bool)
    (edges : List UndirectedEdge) : Int :=
  match edges with
  | [] => 0    -- the source's fallthrough `return 0.0`
  | e :: rest =>
    if ufLeader uf e.end1 ≠ ufLeader uf e.end2 then
      if stopped then e.cost
      else
        let uf2 := ufUnion uf (ufLeader uf e.end1) (ufLeader uf e.end2)
        clusterGo uf2 k (decide ((ufNumGroups uf2 : Int) = k)) rest
    else clusterGo uf k stopped rest

def UGraph.clustering_with_max_spacing (g : UGraph) (k : Int) :
    Except GErr Int :=
  if k ≤ 1 then .error .invalidArg
  else .ok (clusterGo (ufInit (g.vtx_list.map UVertex.vtx_id)) k false
    (sortE g.edge_list))

/-! ## Directed graphs (`directed_graph.py`) -/

/-- `DirectedEdge`: ordered pair of endpoint ids plus an integer length. -/
structure DirectedEdge where
  tail : Nat
  head : Nat
  length : Int
deriving DecidableEq, Repr

/-- Directed `Vertex`: emissive (outgoing) and incident (incoming) edge
lists with the two neighbor-id sets. -/
structure DVertex where
  vtx_id : Nat
  emissive_edges : List DirectedEdge
  emissive_neighbors : List Nat
  incident_edges : List DirectedEdge
  incident_neighbors : List Nat
deriving DecidableEq, Repr

structure DGraph where
  vtx_list : List DVertex
  edge_list : List DirectedEdge
deriving DecidableEq, Repr

/-- Modelled from the spec: `AbstractGraph._find_vtx` (missing
`graph_basics.py`) — lookup by id. -/
def DGraph.find_vtx (g : DGraph) (i : Nat) : Option DVertex :=
  g.vtx_list.find? (fun v => v.vtx_id == i)

def DGraph.update_vtx (g : DGraph) (v : DVertex) : DGraph :=
  { g with vtx_list := g.vtx_list.map (fun w => if w.vtx_id == v.vtx_id then v else w) }

/-- `Vertex.add_emissive_edge` (directed_graph.py lines 88-110). -/
def DVertex.add_emissive_edge (v : DVertex) (e : DirectedEdge) :
    Except GErr DVertex :=
  if e.tail ≠ v.vtx_id then .error .notInvolve
  else if e.head ∈ v.emissive_neighbors then .error .dupEdge
  else .ok { v with emissive_edges := v.emissive_edges ++ [e],
                    emissive_neighbors := v.emissive_neighbors ++ [e.head] }

/-- `Vertex.add_incident_edge` (lines 112-134). -/
def DVertex.add_incident_edge (v : DVertex) (e : DirectedEdge) :
    Except GErr DVertex :=
  if e.head ≠ v.vtx_id then .error .notInvolve
  else if e.tail ∈ v.incident_neighbors then .error .dupEdge
  else .ok { v with incident_edges := v.incident_edges ++ [e],
                    incident_neighbors := v.incident_neighbors ++ [e.tail] }

/-- `DirectedGraph.add_vtx` (lines 259-265). -/
def DGraph.add_vtx (g : DGraph) (i : Nat) : Except GErr DGraph :=
  if (g.find_vtx i).isSome then .error .dupVtx
  else .ok { g with vtx_list := g.vtx_list ++ [⟨i, [], [], [], []⟩] }

/-- `DirectedGraph.add_edge` + `_add_edge` (lines 277-295), with the state
visible at raise time (tail mutated first). -/
def DGraph.add_edge (g : DGraph) (tail_id head_id : Nat) (length : Int) :
    Option GErr × DGraph :=
  match g.find_vtx tail_id, g.find_vtx head_id with
  | some tail, some head =>
    if tail_id = head_id then (some .selfLoop, g)
    else
      let e : DirectedEdge := ⟨tail_id, head_id, length⟩
      match tail.add_emissive_edge e with
      | .error er => (some er, g)
      | .ok tailx =>
        let g1 := g.update_vtx tailx
        match head.add_incident_edge e with
        | .error er => (some er, g1)
        | .ok headx =>
          let g2 := g1.update_vtx headx
          (none, { g2 with edge_list := g2.edge_list ++ [e] })
  | _, _ => (some .notExist, g)

def buildD (ids : List Nat) (es : List (Nat × Nat × Int)) : DGraph :=
  let g0 := ids.foldl (fun g i =>
    match g.add_vtx i with
    | .ok g2 => g2
    | .error _ => g) ⟨[], []⟩
  es.foldl (fun g t => (g.add_edge t.1 t.2.1 t.2.2).2) g0

/-! ### Bellman-Ford family (lines 315-646)

Path-length values live in `WithTop ℤ`.  Modelled from the spec:
`AbstractGraph._INFINITY` (missing `graph_basics.py`) is the "+infinity"
of the DP base case (spec section 4.3), i.e. `⊤`.

Python list indexing raises `IndexError` out of range; the DP tables are
plain Python lists indexed by `vtx_id`, so every table access goes
through the fallible `idx` / `setIdx`.

The source- and destination-driven variants differ only in which
adjacency list a vertex contributes (`incident_edges` with the edge's
`tail` as the other endpoint, versus `emissive_edges` with the `head`)
and in which end of the path the reconstruction extends; the common core
is parametrised by the selectors `adj` and `oth` and the flag `atFront`,
and each public method instantiates them. -/

/-- Path-length values: integers extended with the `+infinity` of the DP
base case. -/
abbrev BFVal := WithTop ℤ

/-- Fallible list read, Python `l[i]`. -/
def idx (l : List α) (i : Nat) : Except GErr α :=
  match l.get? i with
  | some a => .ok a
  | none => .error .indexError

/-- Fallible list write, Python `l[i] = x`. -/
def setIdx (l : List α) (i : Nat) (x : α) : Except GErr (List α) :=
  if i < l.length then .ok (l.set i x) else .error .indexError

def idx2 (t : List (List α)) (i j : Nat) : Except GErr α := do
  idx (← idx t i) j

def setIdx2 (t : List (List α)) (i j : Nat) (x : α) :
    Except GErr (List (List α)) := do
  setIdx t i (← setIdx (← idx t i) j x)

/-- The adjacency list the Bellman-Ford code reads off a vertex object
reached through an edge (Python holds the object itself; here the id is
looked up). -/
def adjOf (g : DGraph) (adj : DVertex → List DirectedEdge) (i : Nat) :
    List DirectedEdge :=
  ((g.find_vtx i).map adj).getD []

/-- The `if vtx is not src_vtx: subproblems[vtx.vtx_id][0] = INFINITY`
initialization loop (lines 323-326 and its twins). -/
def bfInitGo (ep : Nat) (vs : List DVertex) (t : List (List BFVal)) :
    Except GErr (List (List BFVal)) :=
  match vs with
  | [] => .ok t
  | v :: rest =>
    if v.vtx_id = ep then bfInitGo ep rest t
    else do bfInitGo ep rest (← setIdx2 t v.vtx_id 0 ⊤)

/-- One-dimensional twin for the space-optimized and push-based variants
(lines 407-409 and 613-615). -/
def bfInit1Go (ep : Nat) (vs : List DVertex) (row : List BFVal) :
    Except GErr (List BFVal) :=
  match vs with
  | [] => .ok row
  | v :: rest =>
    if v.vtx_id = ep then bfInit1Go ep rest row
    else do bfInit1Go ep rest (← setIdx row v.vtx_id ⊤)

/-- The `for incident_edge in vtx.incident_edges: ... min(...)` scan of the
full-table fill (lines 335-341), over column `b1` of the table. -/
def relaxGo (oth : DirectedEdge → Nat) (t : List (List BFVal)) (b1 : Nat)
    (acc : BFVal) (es : List DirectedEdge) : Except GErr BFVal :=
  match es with
  | [] => .ok acc
  | e :: rest => do
    let dw ← idx2 t (oth e) b1
    relaxGo oth t b1 (min acc (dw + (e.length : BFVal))) rest

/-- One `for vtx in self._vtx_list` pass of the full-table fill at budget
`b` (lines 329-344). -/
def budgetPassGo (adj : DVertex → List DirectedEdge) (oth : DirectedEdge → Nat)
    (b : Nat) (vs : List DVertex) (t : List (List BFVal)) :
    Except GErr (List (List BFVal)) :=
  match vs with
  | [] => .ok t
  | v :: rest => do
    let init ← idx2 t v.vtx_id (b - 1)
    let m ← relaxGo oth t (b - 1) init (adj v)
    budgetPassGo adj oth b rest (← setIdx2 t v.vtx_id b m)

/-- The outer `for budget in range(1, n)` loop (line 328). -/
def bfBudgets (adj : DVertex → List DirectedEdge) (oth : DirectedEdge → Nat)
    (bs : List Nat) (vs : List DVertex) (t : List (List BFVal)) :
    Except GErr (List (List BFVal)) :=
  match bs with
  | [] => .ok t
  | b :: rest => do bfBudgets adj oth rest vs (← budgetPassGo adj oth b vs t)

/-- Edge scan of the extra negative-cycle pass (lines 353-359): tracks the
running minimum and sets the flag on strict improvement. -/
def extraVGo (oth : DirectedEdge → Nat) (t : List (List BFVal)) (n1 : Nat)
    (acc : BFVal) (flag : Bool) (es : List DirectedEdge) :
    Except GErr (BFVal × Bool) :=
  match es with
  | [] => .ok (acc, flag)
  | e :: rest => do
    let dw ← idx2 t (oth e) n1
    if dw + (e.length : BFVal) < acc then
      extraVGo oth t n1 (dw + (e.length : BFVal)) true rest
    else extraVGo oth t n1 acc flag rest

/-- Vertex loop of the extra negative-cycle pass (lines 350-359). -/
def extraGo (adj : DVertex → List DirectedEdge) (oth : DirectedEdge → Nat)
    (t : List (List BFVal)) (n1 : Nat) (flag : Bool) (vs : List DVertex) :
    Except GErr Bool :=
  match vs with
  | [] => .ok flag
  | v :: rest => do
    let init ← idx2 t v.vtx_id n1
    let r ← extraVGo oth t n1 init flag (adj v)
    extraGo adj oth t n1 r.2 rest

/-- Edge scan of `_reconstruct_shortest_paths` (lines 381-387): the running
minimum together with the vertex that last strictly improved it. -/
def reconScan (oth : DirectedEdge → Nat) (t : List (List BFVal)) (b1 : Nat)
    (prev : Nat) (acc : BFVal) (es : List DirectedEdge) :
    Except GErr (Nat × BFVal) :=
  match es with
  | [] => .ok (prev, acc)
  | e :: rest => do
    let dw ← idx2 t (oth e) b1
    if dw + (e.length : BFVal) < acc then
      reconScan oth t b1 (oth e) (dw + (e.length : BFVal)) rest
    else reconScan oth t b1 prev acc rest

/-- The `while budget >= 1` walk of `_reconstruct_shortest_paths`
(lines 377-391) and of its destination-driven twin (lines 523-537);
`atFront` tells whether the found vertex is inserted at the front
(source-driven `insert(0, ...)`) or appended (destination-driven). -/
def reconOne (g : DGraph) (adj : DVertex → List DirectedEdge)
    (oth : DirectedEdge → Nat) (atFront : Bool) (t : List (List BFVal))
    (path : List Nat) (curr : Nat) : Nat → Except GErr (List Nat × Nat)
  | 0 => .ok (path, curr)
  | b + 1 => do
    let init ← idx2 t curr b
    let r ← reconScan oth t b curr init (adjOf g adj curr)
    let prev := r.1
    let path2 := if prev ≠ curr then (if atFront then prev :: path else path ++ [prev])
                 else path
    reconOne g adj oth atFront t path2 prev b

/-- `_reconstruct_shortest_paths` / `_reconstruct_shortest_paths_dest_driven`
(lines 372-394 and 518-540). -/
def reconGo (g : DGraph) (adj : DVertex → List DirectedEdge)
    (oth : DirectedEdge → Nat) (atFront : Bool) (t : List (List BFVal))
    (vs : List DVertex) (acc : List (List Nat)) :
    Except GErr (List (List Nat)) :=
  match vs with
  | [] => .ok acc
  | v :: rest => do
    let r ← reconOne g adj oth atFront t [v.vtx_id] v.vtx_id
      (g.vtx_list.length - 1)
    reconGo g adj oth atFront t rest (acc ++ [r.1])

/-- Common core of `bellman_ford_shortest_paths` (lines 315-370) and
`bellman_ford_shortest_paths_dest_driven` (lines 461-516). -/
def bellmanFordCore (adj : DVertex → List DirectedEdge)
    (oth : DirectedEdge → Nat) (atFront : Bool) (g : DGraph) (ep_id : Nat) :
    Except GErr (List (List Nat)) :=
  match g.find_vtx ep_id with
  | none => .error .notExist
  | some ep => do
    let n := g.vtx_list.length
    let t0 := List.replicate n (List.replicate n (0 : BFVal))
    let t1 ← bfInitGo ep.vtx_id g.vtx_list t0
    let t2 ← bfBudgets adj oth ((List.range (n - 1)).map (· + 1)) g.vtx_list t1
    let flag ← extraGo adj oth t2 (n - 1) false g.vtx_list
    if flag then .error .negCycle
    else reconGo g adj oth atFront t2 g.vtx_list []

/-- `DirectedGraph.bellman_ford_shortest_paths` (lines 315-370). -/
def DGraph.bellman_ford_shortest_paths (g : DGraph) (src_vtx_id : Nat) :
    Except GErr (List (List Nat)) :=
  bellmanFordCore DVertex.incident_edges DirectedEdge.tail true g src_vtx_id

/-- `DirectedGraph.bellman_ford_shortest_paths_dest_driven`
(lines 461-516). -/
def DGraph.bellman_ford_shortest_paths_dest_driven (g : DGraph)
    (dest_vtx_id : Nat) : Except GErr (List (List Nat)) :=
  bellmanFordCore DVertex.emissive_edges DirectedEdge.head false g dest_vtx_id

/-- Edge scan of one space-optimized round (lines 426-432): running
minimum, penultimate/next pointer, and the `made_update_in_iter` flag. -/
def optScan (oth : DirectedEdge → Nat) (prev : List BFVal) (acc : BFVal)
    (pen : Option Nat) (made : Bool) (es : List DirectedEdge) :
    Except GErr (BFVal × Option Nat × Bool) :=
  match es with
  | [] => .ok (acc, pen, made)
  | e :: rest => do
    let dw ← idx prev (oth e)
    if dw + (e.length : BFVal) < acc then
      optScan oth prev (dw + (e.length : BFVal)) (some (oth e)) true rest
    else optScan oth prev acc pen made rest

/-- Vertex loop of one space-optimized round (lines 423-434). -/
def optRoundGo (adj : DVertex → List DirectedEdge) (oth : DirectedEdge → Nat)
    (prev : List BFVal) (prevPen : List (Option Nat)) (vs : List DVertex)
    (curr : List BFVal) (currPen : List (Option Nat)) (made : Bool) :
    Except GErr (List BFVal × List (Option Nat) × Bool) :=
  match vs with
  | [] => .ok (curr, currPen, made)
  | v :: rest => do
    let init ← idx prev v.vtx_id
    let pen0 ← idx prevPen v.vtx_id
    let r ← optScan oth prev init pen0 made (adj v)
    let curr2 ← setIdx curr v.vtx_id r.1
    let currPen2 ← setIdx currPen v.vtx_id r.2.1
    optRoundGo adj oth prev prevPen rest curr2 currPen2 r.2.2

/-- The `while budget <= n - 1 and made_update_in_iter` loop
(lines 421-437): after each round the current rows are copied into the
previous rows.  Returns the final previous rows (the code reads the
answers off `prev_iter_dp` / `prev_iter_penultimate_vtxs`). -/
def optLoop (adj : DVertex → List DirectedEdge) (oth : DirectedEdge → Nat)
    (vs : List DVertex) : Nat → Bool → List BFVal → List (Option Nat) →
    List BFVal → List (Option Nat) →
    Except GErr (List BFVal × List (Option Nat))
  | 0, _, prev, prevPen, _, _ => .ok (prev, prevPen)
  | rem + 1, made, prev, prevPen, curr, currPen =>
    if made then do
      let r ← optRoundGo adj oth prev prevPen vs curr currPen false
      optLoop adj oth vs rem r.2.2 r.1 r.2.1 r.1 r.2.1
    else .ok (prev, prevPen)

/-- Edge scan of the space-optimized extra pass (lines 441-446). -/
def extra1VGo (oth : DirectedEdge → Nat) (prev : List BFVal) (acc : BFVal)
    (flag : Bool) (es : List DirectedEdge) : Except GErr (BFVal × Bool) :=
  match es with
  | [] => .ok (acc, flag)
  | e :: rest => do
    let dw ← idx prev (oth e)
    if dw + (e.length : BFVal) < acc then
      extra1VGo oth prev (dw + (e.length : BFVal)) true rest
    else extra1VGo oth prev acc flag rest

/-- Vertex loop of the space-optimized extra pass (lines 438-446; the
destination-driven twin additionally stores the per-vertex minimum back
into its scratch row, line 591, which cannot affect any result and is
not modelled). -/
def extra1Go (adj : DVertex → List DirectedEdge) (oth : DirectedEdge → Nat)
    (prev : List BFVal) (flag : Bool) (vs : List DVertex) :
    Except GErr Bool :=
  match vs with
  | [] => .ok flag
  | v :: rest => do
    let init ← idx prev v.vtx_id
    let r ← extra1VGo oth prev init flag (adj v)
    extra1Go adj oth prev r.2 rest

/-- Modelled from the spec: `_reconstruct_shortest_paths_optimized` and
`_reconstruct_shortest_paths_dest_driven_optimized` are called by the
sources (lines 455-457, 598-600, 620-622) but are not among them.  Per
the spec (sections 4.3 and the glossary entry "penultimate/next
vertex"), each vertex's path is reconstructed by following the recorded
penultimate (source-driven: prepend) or next (destination-driven:
append) vertices until none is recorded; a reconstructed path visits at
most `n` vertices, so the walk is cut off after `pens.length` steps. -/
def reconPtrOne (pens : List (Option Nat)) (atFront : Bool)
    (path : List Nat) (curr : Nat) : Nat → Except GErr (List Nat)
  | 0 => .ok path
  | fuel + 1 => do
    match ← idx pens curr with
    | none => .ok path
    | some w =>
      reconPtrOne pens atFront (if atFront then w :: path else path ++ [w]) w fuel

/-- Modelled from the spec: vertex loop of the missing optimized
reconstruction helpers. -/
def reconPtrGo (pens : List (Option Nat)) (atFront : Bool)
    (vs : List DVertex) (acc : List (List Nat)) :
    Except GErr (List (List Nat)) :=
  match vs with
  | [] => .ok acc
  | v :: rest => do
    let p ← reconPtrOne pens atFront [v.vtx_id] v.vtx_id pens.length
    reconPtrGo pens atFront rest (acc ++ [p])

/-- Common core of the two space-optimized variants (lines 396-459 and
542-602). -/
def bellmanFordOptCore (adj : DVertex → List DirectedEdge)
    (oth : DirectedEdge → Nat) (atFront : Bool) (g : DGraph) (ep_id : Nat) :
    Except GErr (List (List Nat)) :=
  match g.find_vtx ep_id with
  | none => .error .notExist
  | some ep => do
    let n := g.vtx_list.length
    let prev0 ← bfInit1Go ep.vtx_id g.vtx_list (List.replicate n (0 : BFVal))
    let pens0 : List (Option Nat) := List.replicate n none
    let r ← optLoop adj oth g.vtx_list (n - 1) true prev0 pens0
      (List.replicate n (0 : BFVal)) pens0
    let flag ← extra1Go adj oth r.1 false g.vtx_list
    if flag then .error .negCycle
    else reconPtrGo r.2 atFront g.vtx_list []

/-- `DirectedGraph.bellman_ford_shortest_paths_optimized`
(lines 396-459). -/
def DGraph.bellman_ford_shortest_paths_optimized (g : DGraph)
    (src_vtx_id : Nat) : Except GErr (List (List Nat)) :=
  bellmanFordOptCore DVertex.incident_edges DirectedEdge.tail true g src_vtx_id

/-- `DirectedGraph.bellman_ford_shortest_paths_dest_driven_optimized`
(lines 542-602). -/
def DGraph.bellman_ford_shortest_paths_dest_driven_optimized (g : DGraph)
    (dest_vtx_id : Nat) : Except GErr (List (List Nat)) :=
  bellmanFordOptCore DVertex.emissive_edges DirectedEdge.head false g dest_vtx_id

/-! ### Push-based notification (lines 604-646)

`_notify_tail` recurses without any termination guarantee; the fuel
bounds the recursion depth, and exhausting it yields `.ok none` — the
Python call is still running (or has died with a `RecursionError`),
which in particular is not an `IllegalArgumentError` exit. -/

/-- `_notify_tail` (lines 625-646), defunctionalized: the stack holds the
unprocessed suffixes of the incident-edge lists of the calls in
progress.  Processing one edge performs the reads, on strict
improvement performs the writes and pushes the tail's incident-edge
list (the recursive notification), and then continues with the
enclosing suffixes.  Each processed edge consumes one fuel; exhausting
the fuel with work left yields `.ok none` — the Python call is still
running (or has died with a `RecursionError`), which in particular is
not an `IllegalArgumentError` exit. -/
def notifyRun (g : DGraph) : Nat → (List BFVal × List (Option Nat)) →
    List (List DirectedEdge) →
    Except GErr (Option (List BFVal × List (Option Nat)))
  | _, st, [] => .ok (some st)
  | 0, _, _ :: _ => .ok none
  | fuel + 1, st, [] :: k => notifyRun g fuel st k
  | fuel + 1, st, (e :: rest) :: k => do
    let upd ← idx st.1 e.head
    let cur ← idx st.1 e.tail
    if upd + (e.length : BFVal) < cur then
      let mp ← setIdx st.1 e.tail (upd + (e.length : BFVal))
      let nx ← setIdx st.2 e.tail (some e.head)
      notifyRun g fuel (mp, nx)
        (adjOf g DVertex.incident_edges e.tail :: rest :: k)
    else notifyRun g fuel st (rest :: k)

/-- `DirectedGraph.shortest_paths_dest_driven_push_based`
(lines 604-623); `.ok none` means the notification cascade outran the
fuel. -/
def DGraph.shortest_paths_dest_driven_push_based (g : DGraph)
    (dest_vtx_id : Nat) (fuel : Nat) :
    Except GErr (Option (List (List Nat))) :=
  match g.find_vtx dest_vtx_id with
  | none => .error .notExist
  | some dest => do
    let n := g.vtx_list.length
    let mp0 ← bfInit1Go dest.vtx_id g.vtx_list (List.replicate n (0 : BFVal))
    let nx0 : List (Option Nat) := List.replicate n none
    match ← notifyRun g fuel (mp0, nx0) [dest.incident_edges] with
    | none => .ok none
    | some st => do
      let paths ← reconPtrGo st.2 false g.vtx_list []
      .ok (some paths)

/-- The distance table the full-table variants compute before the extra
pass and the reconstruction: the initialization and fill of
`bellman_ford_shortest_paths` (lines 321-344) and of its
destination-driven twin (lines 467-490). -/
def bfTable (adj : DVertex → List DirectedEdge) (oth : DirectedEdge → Nat)
    (g : DGraph) (ep_id : Nat) : Except GErr (List (List BFVal)) :=
  match g.find_vtx ep_id with
  | none => .error .notExist
  | some ep => do
    let n := g.vtx_list.length
    let t0 := List.replicate n (List.replicate n (0 : BFVal))
    let t1 ← bfInitGo ep.vtx_id g.vtx_list t0
    bfBudgets adj oth ((List.range (n - 1)).map (· + 1)) g.vtx_list t1

/-- The final distance row (`prev_iter_dp`) the space-optimized variants
compute before the extra pass and the reconstruction: the
initialization and early-stopping loop of
`bellman_ford_shortest_paths_optimized` (lines 402-437) and of its
destination-driven twin (lines 548-583). -/
def bfOptRow (adj : DVertex → List DirectedEdge) (oth : DirectedEdge → Nat)
    (g : DGraph) (ep_id : Nat) : Except GErr (List BFVal) :=
  match g.find_vtx ep_id with
  | none => .error .notExist
  | some ep => do
    let n := g.vtx_list.length
    let prev0 ← bfInit1Go ep.vtx_id g.vtx_list (List.replicate n (0 : BFVal))
    let pens0 : List (Option Nat) := List.replicate n none
    let r ← optLoop adj oth g.vtx_list (n - 1) true prev0 pens0
      (List.replicate n (0 : BFVal)) pens0
    .ok r.1

/-! ## Claim-side definitions for the clustering claim (C4)

`clustering_with_max_spacing` according to the spec's words: scan the
edges in ascending cost order merging union-find groups (Kruskal logic)
until exactly `k` groups remain, then return the cost of the first
subsequently considered edge whose endpoints have different leaders. -/

/-- First edge of `edges` whose endpoints have different leaders in the
(now frozen) union-find state. -/
def specFindCross (uf : UF) (edges : List UndirectedEdge) : Option Int :=
  match edges with
  | [] => none
  | e :: rest =>
    if ufLeader uf e.end1 ≠ ufLeader uf e.end2 then some e.cost
    else specFindCross uf rest

/-- Merge along the ascending edge list until the group count has dropped
to exactly `k`, then hand over to `specFindCross`. -/
def specPhase1 (uf : UF) (k : Int) (edges : List UndirectedEdge) : Option Int :=
  match edges with
  | [] => none
  | e :: rest =>
    if ufLeader uf e.end1 ≠ ufLeader uf e.end2 then
      let uf2 := ufUnion uf (ufLeader uf e.end1) (ufLeader uf e.end2)
      if (ufNumGroups uf2 : Int) = k then specFindCross uf2 rest
      else specPhase1 uf2 k rest
    else specPhase1 uf k rest

/-- The cost the claim describes: of the first edge, scanning in ascending
cost order, considered after the union-find group count has dropped to
exactly `k`, whose endpoints have different leaders. -/
def UGraph.clustering_spec (g : UGraph) (k : Int) : Option Int :=
  specPhase1 (ufInit (g.vtx_list.map UVertex.vtx_id)) k (sortE g.edge_list)

/-! ### Undirected reachability (for the connectivity hypothesis) -/

/-- Reachability through a list of undirected edges (either direction). -/
inductive EReach (es : List UndirectedEdge) : Nat → Nat → Prop
  | refl (a : Nat) : EReach es a a
  | fwd {a b : Nat} {e : UndirectedEdge} :
      EReach es a b → e ∈ es → e.end1 = b → EReach es a e.end2
  | bwd {a b : Nat} {e : UndirectedEdge} :
      EReach es a b → e ∈ es → e.end2 = b → EReach es a e.end1

/-- One saturation step of the computable reachable set. -/
def ereachStep (es : List UndirectedEdge) (s : List Nat) : List Nat :=
  es.foldl (fun s e =>
    let s1 := if e.end1 ∈ s ∧ e.end2 ∉ s then s ++ [e.end2] else s
    if e.end2 ∈ s1 ∧ e.end1 ∉ s1 then s1 ++ [e.end1] else s1) s

def ereachIter (es : List UndirectedEdge) (s : List Nat) : Nat → List Nat
  | 0 => s
  | f + 1 => ereachIter es (ereachStep es s) f

/-- Computable connectivity: every vertex is reachable from the first one. -/
def UGraph.conn (g : UGraph) : Bool :=
  match g.vtx_list.map UVertex.vtx_id with
  | [] => true
  | a :: rest =>
    rest.all (· ∈ ereachIter g.edge_list [a] g.vtx_list.length)

/-- Basic wellformedness of an undirected graph state (holds for every
graph built through the API): distinct vertex ids and edge endpoints
registered as vertices. -/
def UWell (g : UGraph) : Prop :=
  (g.vtx_list.map UVertex.vtx_id).Nodup ∧
  ∀ e ∈ g.edge_list, e.end1 ∈ g.vtx_list.map UVertex.vtx_id ∧
    e.end2 ∈ g.vtx_list.map UVertex.vtx_id

instance (g : UGraph) : Decidable (UWell g) := by
  unfold UWell; infer_instance

/-! ## Pure value layer for the Bellman-Ford analysis

`bfD g adj oth ep b v` is the value the DP table holds at row `v` after
the pass for budget `b`, as a total function, for graphs whose vertex
ids enumerate `0 .. n-1` (the bridge lemmas below connect it to the
fallible embedded computation).  `adj`/`oth` are the selectors of the
source-driven (`incident_edges`/`tail`) or destination-driven
(`emissive_edges`/`head`) recurrences. -/

/-- The value the inner `for` loop of a budget pass computes for vertex
`v` from the previous column `f`. -/
def relaxPure (g : DGraph) (adj : DVertex → List DirectedEdge)
    (oth : DirectedEdge → Nat) (f : Nat → BFVal) (v : Nat) : BFVal :=
  (adjOf g adj v).foldl (fun acc e => min acc (f (oth e) + (e.length : BFVal)))
    (f v)

def bfD (g : DGraph) (adj : DVertex → List DirectedEdge)
    (oth : DirectedEdge → Nat) (ep : Nat) : Nat → Nat → BFVal
  | 0, v => if v = ep then 0 else ⊤
  | b + 1, v => relaxPure g adj oth (bfD g adj oth ep b) v

/-- Walks through the selected adjacency structure, recorded from the
endpoint `v` that owns the first edge down to `s`: with the
source-driven selectors `AWalk g _ _ v es s` is a path in the graph from
`s` to `v` listed backwards (each edge sits in its head's incident
list), with the destination-driven selectors it is a path from `v` to
`s` listed forwards. -/
inductive AWalk (g : DGraph) (adj : DVertex → List DirectedEdge)
    (oth : DirectedEdge → Nat) : Nat → List DirectedEdge → Nat → Prop
  | nil (a : Nat) : AWalk g adj oth a [] a
  | cons {v s : Nat} {e : DirectedEdge} {es : List DirectedEdge} :
      e ∈ adjOf g adj v → AWalk g adj oth (oth e) es s →
      AWalk g adj oth v (e :: es) s

/-- Total length of a walk. -/
def wlen (es : List DirectedEdge) : ℤ :=
  (es.map DirectedEdge.length).sum

/-- A negative cycle through a vertex `u` connected to the endpoint `ep`
by a walk: with the source-driven selectors this is a negative cycle
reachable from `ep`, with the destination-driven ones a negative cycle
from which `ep` can be reached. -/
def NegCycleVia (g : DGraph) (adj : DVertex → List DirectedEdge)
    (oth : DirectedEdge → Nat) (ep : Nat) : Prop :=
  ∃ u es1 es2, AWalk g adj oth u es1 ep ∧ AWalk g adj oth u es2 u ∧
    es2 ≠ [] ∧ wlen es2 < 0

/-- A negative cycle reachable from `s` along directed edges. -/
def NegCycleReachableFrom (g : DGraph) (s : Nat) : Prop :=
  NegCycleVia g DVertex.incident_edges DirectedEdge.tail s

/-- A negative cycle from which `d` can be reached along directed edges. -/
def NegCycleCanReach (g : DGraph) (d : Nat) : Prop :=
  NegCycleVia g DVertex.emissive_edges DirectedEdge.head d

/-- All `oth`-endpoints stored in the selected adjacency lists are valid
row indices. -/
def AdjBounded (g : DGraph) (adj : DVertex → List DirectedEdge)
    (oth : DirectedEdge → Nat) : Prop :=
  ∀ v ∈ g.vtx_list, ∀ e ∈ adj v, oth e < g.vtx_list.length

instance (g : DGraph) (adj : DVertex → List DirectedEdge)
    (oth : DirectedEdge → Nat) : Decidable (AdjBounded g adj oth) := by
  unfold AdjBounded; infer_instance

/-- Wellformedness making the Bellman-Ford tables total: the vertex ids
are distinct and below the vertex count (hence enumerate `0 .. n-1`),
and every stored edge endpoint is such an id.  Holds for every graph
built through the API whose ids are `0 .. n-1`, which is what the
DP-table indexing scheme requires (claim C9). -/
def BFWell (g : DGraph) : Prop :=
  (g.vtx_list.map DVertex.vtx_id).Nodup ∧
  (∀ v ∈ g.vtx_list, v.vtx_id < g.vtx_list.length) ∧
  AdjBounded g DVertex.incident_edges DirectedEdge.tail ∧
  AdjBounded g DVertex.emissive_edges DirectedEdge.head

instance (g : DGraph) : Decidable (BFWell g) := by
  unfold BFWell; infer_instance

/-! ## Concrete graphs used by the claims -/

/-- Connected undirected graph on which Prim's implementation pops a stale
crossing edge. -/
def gPrim : UGraph := buildU [0, 1, 2, 3] [(0,1,1), (0,2,2), (1,2,3), (2,3,10)]

/-- The spec's MST example graph (section 8). -/
def gMST : UGraph := buildU [0, 1, 2, 3]
  [(0,1,1), (1,2,2), (2,3,1), (0,3,4), (0,2,3)]

/-- Triangle graph for the explored-flag leak. -/
def gTri : UGraph := buildU [0, 1, 2] [(0,1,1), (1,2,2), (0,2,3)]

/-- The spec's Bellman-Ford example graph (section 8). -/
def gBF : DGraph := buildD [0, 1, 2] [(0,1,4), (0,2,1), (2,1,1)]

/-- Two-vertex negative cycle. -/
def gNeg : DGraph := buildD [0, 1] [(0,1,-5), (1,0,-5)]

/-- Negative cycle plus an isolated vertex whose id (3) is not below the
vertex count (3). -/
def gNegGap : DGraph := buildD [0, 1, 3] [(0,1,-5), (1,0,-5)]

/-- Two vertices with ids 0 and 5: the id 5 is not a valid DP row index. -/
def gGap : DGraph := buildD [0, 5] [(0,5,2)]

/-- A single directed edge; shortest paths from 0 and to 0 differ. -/
def gOneEdge : DGraph := buildD [0, 1] [(0,1,5)]

/-- Antiparallel pair already present in both directions. -/
def gBoth : DGraph := buildD [0, 1] [(0,1,5), (1,0,7)]

/-- The endpoints `a` and `b` are already connected in the undirected
graph, as recorded in `a`'s neighbor set (in every API-built graph the
record is symmetric). -/
def UGraph.connected_pair (g : UGraph) (a b : Nat) : Bool :=
  match g.find_vtx a with
  | some v => v.neighbors.contains b
  | none => false

/-- An edge `a → b` is recorded in `a`'s emissive neighbor set. -/
def DGraph.has_emissive (g : DGraph) (a b : Nat) : Bool :=
  match g.find_vtx a with
  | some v => v.emissive_neighbors.contains b
  | none => false

/-- An edge `b → a` is recorded in `a`'s incident neighbor set. -/
def DGraph.has_incident (g : DGraph) (a b : Nat) : Bool :=
  match g.find_vtx a with
  | some v => v.incident_neighbors.contains b
  | none => false

/-! ## Theorems -/

/-- C1: the claim says that on every non-empty connected undirected graph
the totals of `prim_mst_straightforward` (any start),
`kruskal_mst_straightforward` and `kruskal_mst_improved` coincide (and
equal the MST cost).  The code contradicts it: on the connected graph
`gPrim`, Prim's implementation pops the crossing edge (1,2) of cost 3
after both its endpoints are already spanned and still appends it to the
spanning tree (undirected_graph.py line 323 runs before any staleness
check), returning 16, while both Kruskal variants return the true MST
cost 13.  The spec (section 4.2) prescribes discarding such stale
entries, so this is a code bug. -/
theorem C1_prim_stale_edge_overcount :
    gPrim.prim_mst_straightforward 0 100 = some 16 ∧
    gPrim.kruskal_mst_improved = 13 ∧
    (gPrim.kruskal_mst_straightforward).1 = 13 := by decide

/-- C6: the claim says all three MST entry points return 4 on the spec's
example graph.  Prim's implementation does return 4 from every possible
start vertex (indices 0-3 of the vertex list) and so does improved
Kruskal, but `kruskal_mst_straightforward` returns 7: its DFS cycle
check never resets the per-vertex explored flags, so the check for edge
(0,2) sees vertex 1 still marked from the earlier check for edge (1,2),
misses the path 0-1-2 and wrongly accepts (0,2).  The spec (sections
4.2, 5, 8) requires the flags to be reset and the total to be 4, so
this is a code bug. -/
theorem C6_mst_example_totals :
    gMST.prim_mst_straightforward 0 100 = some 4 ∧
    gMST.prim_mst_straightforward 1 100 = some 4 ∧
    gMST.prim_mst_straightforward 2 100 = some 4 ∧
    gMST.prim_mst_straightforward 3 100 = some 4 ∧
    gMST.kruskal_mst_improved = 4 ∧
    (gMST.kruskal_mst_straightforward).1 = 7 := by decide

/-- C8: the claim says per-vertex scratch state does not leak between
invocations, so two successive runs of the same algorithm on an
unmodified graph agree.  The code contradicts it: on the triangle
`gTri`, `kruskal_mst_straightforward` returns 3, leaves the explored
flags of vertices 0 and 1 set, and a second run on the returned state
then misses the 0-1-2 path, accepts the cycle edge (0,2) and returns 6.
The spec (section 5) requires the flags to be reset, so this is a code
bug. -/
theorem C8_explored_flag_leak :
    (gTri.kruskal_mst_straightforward).1 = 3 ∧
    ((gTri.kruskal_mst_straightforward).2.kruskal_mst_straightforward).1 = 6 := by
  decide

/-- C7: on the spec's directed example, `bellman_ford_shortest_paths`
from source 0 reconstructs the paths [0], [0,2,1], [0,2] for vertices
0, 1, 2, and the DP distance (`bfD`, the value of
`subproblems[v][n-1]`) of vertex 1 is 2 and of vertex 2 is 1. -/
theorem C7_bellman_ford_example :
    gBF.bellman_ford_shortest_paths 0 = .ok [[0], [0, 2, 1], [0, 2]] ∧
    bfD gBF DVertex.incident_edges DirectedEdge.tail 0 2 1 = ((2 : ℤ) : BFVal) ∧
    bfD gBF DVertex.incident_edges DirectedEdge.tail 0 2 2 = ((1 : ℤ) : BFVal) :=
  ⟨rfl, by decide, by decide⟩

/-- C5: calling `add_edge` with a self-loop or with endpoints already
connected (in the given direction, for the directed graph) raises and
leaves the graph state — vertex list, edge list and every vertex's
adjacency structures — exactly as it was. -/
theorem C5_add_edge_failure_no_mutation :
    (∀ (g : UGraph) (a b : Nat) (c : Int),
      a = b ∨ g.connected_pair a b = true →
      ((g.add_edge a b c).1.isSome ∧ (g.add_edge a b c).2 = g)) ∧
    (∀ (g : DGraph) (a b : Nat) (c : Int),
      a = b ∨ g.has_emissive a b = true →
      ((g.add_edge a b c).1.isSome ∧ (g.add_edge a b c).2 = g)) := by
  constructor
  · intro g a b c h
    unfold UGraph.add_edge
    match hfa : g.find_vtx a, hfb : g.find_vtx b with
    | none, none => simp
    | none, some vb => simp
    | some va, none => simp
    | some va, some vb =>
      rcases h with h | h
      · simp [h]
      · by_cases hab : a = b
        · simp [hab]
        · have hva : va.vtx_id = a := by
            have := List.find?_some hfa
            simpa using this
          have hmem : b ∈ va.neighbors := by
            unfold UGraph.connected_pair at h
            rw [hfa] at h
            simpa using h
          simp only [if_neg hab]
          unfold UVertex.add_edge
          simp [hva, hmem]
  · intro g a b c h
    unfold DGraph.add_edge
    match hfa : g.find_vtx a, hfb : g.find_vtx b with
    | none, none => simp
    | none, some vb => simp
    | some va, none => simp
    | some va, some vb =>
      rcases h with h | h
      · simp [h]
      · by_cases hab : a = b
        · simp [hab]
        · have hva : va.vtx_id = a := by
            have := List.find?_some hfa
            simpa using this
          have hmem : b ∈ va.emissive_neighbors := by
            unfold DGraph.has_emissive at h
            rw [hfa] at h
            simpa using h
          simp only [if_neg hab]
          unfold DVertex.add_emissive_edge
          simp [hva, hmem]

/-- C5 witness: a duplicate undirected edge on the triangle and a
duplicate directed edge on the one-edge graph both fail and leave the
graphs untouched. -/
theorem C5_witness :
    ((gTri.add_edge 0 1 5).1.isSome ∧ (gTri.add_edge 0 1 5).2 = gTri) ∧
    ((gOneEdge.add_edge 0 1 9).1.isSome ∧ (gOneEdge.add_edge 0 1 9).2 = gOneEdge) :=
  ⟨C5_add_edge_failure_no_mutation.1 gTri 0 1 5 (Or.inr (by decide)),
   C5_add_edge_failure_no_mutation.2 gOneEdge 0 1 9 (Or.inr (by decide))⟩

/-- C10: the claim quantifies over every pair of distinct existing
vertices `a`, `b` with an edge `a → b` present and asserts that
`add_edge(b, a, length)` succeeds.  On `gBoth`, which carries the edge
0 → 1 (and also 1 → 0), the call `add_edge(1, 0, 3)` fails, so the
claim as stated is false: it overlooks that the reverse edge may
already be present. -/
theorem C10_counterexample :
    gBoth.has_emissive 0 1 = true ∧ 0 ≠ 1 ∧
    (gBoth.find_vtx 0).isSome ∧ (gBoth.find_vtx 1).isSome ∧
    (gBoth.add_edge 1 0 3).1 ≠ none := by decide

/-- C10 (amended): duplicate-edge detection in the directed graph is per
direction: if `a ≠ b` both exist, `a → b` is present and `b → a` is not
(in either adjacency record), then `add_edge(b, a, length)` succeeds
while a second `add_edge(a, b, length)` fails. -/
theorem C10_antiparallel_allowed :
    ∀ (g : DGraph) (a b : Nat) (len1 len2 : Int), a ≠ b →
    (g.find_vtx b).isSome →
    g.has_emissive a b = true →
    g.has_emissive b a = false →
    g.has_incident a b = false →
    (g.add_edge b a len1).1 = none ∧ (g.add_edge a b len2).1 ≠ none := by
  intro g a b len1 len2 hab hb hab1 hba hai
  have ha : (g.find_vtx a).isSome := by
    unfold DGraph.has_emissive at hab1
    cases hfa : g.find_vtx a with
    | none => rw [hfa] at hab1; simp at hab1
    | some v => simp
  match hfa : g.find_vtx a, hfb : g.find_vtx b with
  | none, _ => rw [hfa] at ha; simp at ha
  | some va, none => rw [hfb] at hb; simp at hb
  | some va, some vb =>
    have hva : va.vtx_id = a := by have := List.find?_some hfa; simpa using this
    have hvb : vb.vtx_id = b := by have := List.find?_some hfb; simpa using this
    have hmemab : b ∈ va.emissive_neighbors := by
      unfold DGraph.has_emissive at hab1; rw [hfa] at hab1; simpa using hab1
    have hmemba : a ∉ vb.emissive_neighbors := by
      unfold DGraph.has_emissive at hba; rw [hfb] at hba; simpa using hba
    have hmemai : b ∉ va.incident_neighbors := by
      unfold DGraph.has_incident at hai; rw [hfa] at hai; simpa using hai
    constructor
    · unfold DGraph.add_edge DVertex.add_emissive_edge DVertex.add_incident_edge
      rw [hfb, hfa]
      simp [hva, hvb, Ne.symm hab, hmemba, hmemai]
    · unfold DGraph.add_edge DVertex.add_emissive_edge
      rw [hfa, hfb]
      simp [hva, hab, hmemab]

/-- C10 witness: on the one-edge graph (0 → 1 present, 1 → 0 absent) the
reverse insertion succeeds and the repeated insertion fails. -/
theorem C10_witness :
    (gOneEdge.add_edge 1 0 3).1 = none ∧ (gOneEdge.add_edge 0 1 7).1 ≠ none :=
  C10_antiparallel_allowed gOneEdge 0 1 3 7 (by decide) (by decide) (by decide)
    (by decide) (by decide)

/-! ### Monadic plumbing for the Bellman-Ford analysis -/

theorem ok_bind (a : α) (f : α → Except GErr β) : (Except.ok a >>= f) = f a := rfl

theorem error_bind (e : GErr) (f : α → Except GErr β) :
    ((Except.error e : Except GErr α) >>= f) = Except.error e := rfl

theorem idx_ok_iff {l : List α} {i : Nat} {a : α} :
    idx l i = .ok a ↔ l.get? i = some a := by
  unfold idx; cases l.get? i <;> simp

theorem idx_cases (l : List α) (i : Nat) :
    (∃ a, idx l i = .ok a) ∨ idx l i = .error .indexError := by
  unfold idx; cases l.get? i <;> simp

theorem idx_ok_of_lt {l : List α} {i : Nat} (h : i < l.length) :
    ∃ a, idx l i = .ok a := by
  unfold idx
  cases hg : l.get? i with
  | none => rw [List.get?_eq_none] at hg; omega
  | some a => exact ⟨a, rfl⟩

theorem idx_err_of_ge {l : List α} {i : Nat} (h : l.length ≤ i) :
    idx l i = .error .indexError := by
  unfold idx
  rw [List.get?_eq_none.2 h]

theorem setIdx_cases (l : List α) (i : Nat) (x : α) :
    setIdx l i x = .ok (l.set i x) ∧ i < l.length ∨
      (setIdx l i x = .error .indexError ∧ l.length ≤ i) := by
  unfold setIdx; split <;> simp <;> omega

theorem setIdx_ok_iff {l : List α} {i : Nat} {x : α} {l2 : List α} :
    setIdx l i x = .ok l2 ↔ i < l.length ∧ l2 = l.set i x := by
  unfold setIdx
  split
  · simp only [Except.ok.injEq]
    constructor
    · intro h
      exact ⟨by assumption, h.symm⟩
    · intro h
      exact h.2.symm
  · simp
    omega

/-- Dimensions of a DP table: `n` rows of length `n`. -/
def TDims (t : List (List BFVal)) (n : Nat) : Prop :=
  t.length = n ∧ ∀ r ∈ t, r.length = n

theorem tdims_replicate (n : Nat) :
    TDims (List.replicate n (List.replicate n (0 : BFVal))) n := by
  constructor
  · simp
  · intro r hr
    rw [List.eq_of_mem_replicate hr]; simp

theorem setIdx2_cases (t : List (List BFVal)) (i j : Nat) (x : BFVal) (n : Nat)
    (ht : TDims t n) :
    (∃ t2, setIdx2 t i j x = .ok t2 ∧ TDims t2 n) ∨
      setIdx2 t i j x = .error .indexError := by
  unfold setIdx2
  rcases idx_cases t i with ⟨r, hr⟩ | hr
  · rw [hr, ok_bind]
    have hrmem : r ∈ t := by
      rw [idx_ok_iff] at hr; exact List.get?_mem hr
    rcases setIdx_cases r j x with ⟨h1, _⟩ | ⟨h1, _⟩
    · rw [h1, ok_bind]
      have hi : i < t.length := by
        rw [idx_ok_iff] at hr
        exact List.get?_eq_some.1 hr |>.choose
      rcases setIdx_cases t i (r.set j x) with ⟨h2, _⟩ | ⟨h2, h3⟩
      · rw [h2]
        refine Or.inl ⟨_, rfl, ?_, ?_⟩
        · simp [ht.1]
        · intro r2 hr2
          rcases List.mem_or_eq_of_mem_set hr2 with h | h
          · exact ht.2 r2 h
          · subst h; simp [ht.2 r hrmem]
      · omega
    · rw [h1, error_bind]; exact Or.inr rfl
  · rw [hr, error_bind]; exact Or.inr rfl

theorem bfInitGo_cases (ep : Nat) (vs : List DVertex) (t : List (List BFVal))
    (n : Nat) (ht : TDims t n) :
    (∃ t2, bfInitGo ep vs t = .ok t2 ∧ TDims t2 n) ∨
      bfInitGo ep vs t = .error .indexError := by
  induction vs generalizing t with
  | nil => exact Or.inl ⟨t, rfl, ht⟩
  | cons v rest ih =>
    unfold bfInitGo
    by_cases hv : v.vtx_id = ep
    · simp only [if_pos hv]; exact ih t ht
    · simp only [if_neg hv]
      rcases setIdx2_cases t v.vtx_id 0 ⊤ n ht with ⟨t2, h2, ht2⟩ | h2
      · rw [h2, ok_bind]; exact ih t2 ht2
      · rw [h2, error_bind]; exact Or.inr rfl

theorem relaxGo_cases (oth : DirectedEdge → Nat) (t : List (List BFVal))
    (b1 : Nat) (acc : BFVal) (es : List DirectedEdge) :
    (∃ a, relaxGo oth t b1 acc es = .ok a) ∨
      relaxGo oth t b1 acc es = .error .indexError := by
  induction es generalizing acc with
  | nil => exact Or.inl ⟨acc, rfl⟩
  | cons e rest ih =>
    unfold relaxGo idx2
    rcases idx_cases t (oth e) with ⟨r, hr⟩ | hr
    · rw [hr, ok_bind]
      rcases idx_cases r b1 with ⟨a, ha⟩ | ha
      · rw [ha, ok_bind]; exact ih _
      · rw [ha]; exact Or.inr rfl
    · rw [hr, error_bind]; exact Or.inr rfl

theorem budgetPassGo_cases (adj : DVertex → List DirectedEdge)
    (oth : DirectedEdge → Nat) (b : Nat) (vs : List DVertex)
    (t : List (List BFVal)) (n : Nat) (ht : TDims t n) :
    (∃ t2, budgetPassGo adj oth b vs t = .ok t2 ∧ TDims t2 n) ∨
      budgetPassGo adj oth b vs t = .error .indexError := by
  induction vs generalizing t with
  | nil => exact Or.inl ⟨t, rfl, ht⟩
  | cons v rest ih =>
    unfold budgetPassGo idx2
    rcases idx_cases t v.vtx_id with ⟨r, hr⟩ | hr
    · rw [hr, ok_bind]
      rcases idx_cases r (b - 1) with ⟨a, ha⟩ | ha
      · rw [ha, ok_bind]
        rcases relaxGo_cases oth t (b - 1) a (adj v) with ⟨m, hm⟩ | hm
        · rw [hm, ok_bind]
          rcases setIdx2_cases t v.vtx_id b m n ht with ⟨t2, h2, ht2⟩ | h2
          · rw [h2, ok_bind]; exact ih t2 ht2
          · rw [h2, error_bind]; exact Or.inr rfl
        · rw [hm, error_bind]; exact Or.inr rfl
      · rw [ha, error_bind]; exact Or.inr rfl
    · rw [hr, error_bind]; exact Or.inr rfl

theorem bfBudgets_cases (adj : DVertex → List DirectedEdge)
    (oth : DirectedEdge → Nat) (bs : List Nat) (vs : List DVertex)
    (t : List (List BFVal)) (n : Nat) (ht : TDims t n) :
    (∃ t2, bfBudgets adj oth bs vs t = .ok t2 ∧ TDims t2 n) ∨
      bfBudgets adj oth bs vs t = .error .indexError := by
  induction bs generalizing t with
  | nil => exact Or.inl ⟨t, rfl, ht⟩
  | cons b rest ih =>
    unfold bfBudgets
    rcases budgetPassGo_cases adj oth b vs t n ht with ⟨t2, h2, ht2⟩ | h2
    · rw [h2, ok_bind]; exact ih t2 ht2
    · rw [h2, error_bind]; exact Or.inr rfl

theorem extraVGo_cases (oth : DirectedEdge → Nat) (t : List (List BFVal))
    (n1 : Nat) (acc : BFVal) (flag : Bool) (es : List DirectedEdge) :
    (∃ r, extraVGo oth t n1 acc flag es = .ok r) ∨
      extraVGo oth t n1 acc flag es = .error .indexError := by
  induction es generalizing acc flag with
  | nil => exact Or.inl ⟨(acc, flag), rfl⟩
  | cons e rest ih =>
    unfold extraVGo idx2
    rcases idx_cases t (oth e) with ⟨r, hr⟩ | hr
    · rw [hr, ok_bind]
      rcases idx_cases r n1 with ⟨a, ha⟩ | ha
      · rw [ha, ok_bind]
        split
        · exact ih _ _
        · exact ih _ _
      · rw [ha, error_bind]; exact Or.inr rfl
    · rw [hr, error_bind]; exact Or.inr rfl

/-- With a vertex whose id is not a valid row index in the list, the
extra negative-cycle pass always dies with `IndexError`. -/
theorem extraGo_gap (adj : DVertex → List DirectedEdge)
    (oth : DirectedEdge → Nat) (t : List (List BFVal)) (n1 : Nat)
    (flag : Bool) (vs : List DVertex)
    (hbad : ∃ v ∈ vs, t.length ≤ v.vtx_id) :
    extraGo adj oth t n1 flag vs = .error .indexError := by
  induction vs generalizing flag with
  | nil => simp at hbad
  | cons v rest ih =>
    unfold extraGo idx2
    by_cases hv : t.length ≤ v.vtx_id
    · rw [idx_err_of_ge hv]; rfl
    · rcases hbad with ⟨w, hw, hwged⟩
      have hwrest : w ∈ rest := by
        rcases List.mem_cons.1 hw with h | h
        · subst h; omega
        · exact h
      rcases idx_cases t v.vtx_id with ⟨r, hr⟩ | hr
      · rw [hr, ok_bind]
        rcases idx_cases r n1 with ⟨a, ha⟩ | ha
        · rw [ha, ok_bind]
          rcases extraVGo_cases oth t n1 a flag (adj v) with ⟨p, hp⟩ | hp
          · rw [hp, ok_bind]; exact ih _ ⟨w, hwrest, hwged⟩
          · rw [hp, error_bind]
        · rw [ha]; rfl
      · rw [hr]; rfl

theorem find_vtx_d {g : DGraph} {i : Nat} {v : DVertex}
    (h : g.find_vtx i = some v) : v.vtx_id = i ∧ v ∈ g.vtx_list :=
  ⟨by have := List.find?_some h; simpa using this, List.mem_of_find?_eq_some h⟩

/-- With a vertex whose id is at least the vertex count, the full-table
Bellman-Ford core always dies with `IndexError`. -/
theorem bellmanFordCore_gap (adj : DVertex → List DirectedEdge)
    (oth : DirectedEdge → Nat) (atFront : Bool) (g : DGraph) (ep_id : Nat)
    (vep : DVertex) (hep : g.find_vtx ep_id = some vep)
    (hbad : ∃ v ∈ g.vtx_list, g.vtx_list.length ≤ v.vtx_id) :
    bellmanFordCore adj oth atFront g ep_id = .error .indexError := by
  unfold bellmanFordCore
  rw [hep]
  dsimp only
  rcases bfInitGo_cases vep.vtx_id g.vtx_list
      (List.replicate g.vtx_list.length (List.replicate g.vtx_list.length (0 : BFVal)))
      g.vtx_list.length (tdims_replicate _) with ⟨t1, h1, ht1⟩ | h1
  · rw [h1, ok_bind]
    rcases bfBudgets_cases adj oth _ g.vtx_list t1 g.vtx_list.length ht1 with
      ⟨t2, h2, ht2⟩ | h2
    · rw [h2, ok_bind]
      rw [extraGo_gap adj oth t2 (g.vtx_list.length - 1) false g.vtx_list ?_]
      · rfl
      · rcases hbad with ⟨w, hw, hwge⟩
        exact ⟨w, hw, by rw [ht2.1]; exact hwge⟩
    · rw [h2]; rfl
  · rw [h1]; rfl

theorem bfInit1Go_cases (ep : Nat) (vs : List DVertex) (row : List BFVal) :
    (∃ r2, bfInit1Go ep vs row = .ok r2 ∧ r2.length = row.length) ∨
      bfInit1Go ep vs row = .error .indexError := by
  induction vs generalizing row with
  | nil => exact Or.inl ⟨row, rfl, rfl⟩
  | cons v rest ih =>
    unfold bfInit1Go
    by_cases hv : v.vtx_id = ep
    · simp only [if_pos hv]; exact ih row
    · simp only [if_neg hv]
      rcases setIdx_cases row v.vtx_id ⊤ with ⟨h1, hlt⟩ | ⟨h1, _⟩
      · rw [h1, ok_bind]
        rcases ih (row.set v.vtx_id ⊤) with ⟨r2, h2, hl⟩ | h2
        · exact Or.inl ⟨r2, h2, by rw [hl]; simp⟩
        · exact Or.inr h2
      · rw [h1]; exact Or.inr rfl

theorem bfInit1Go_bad (ep : Nat) (vs : List DVertex) (row : List BFVal)
    (hbad : ∃ v ∈ vs, v.vtx_id ≠ ep ∧ row.length ≤ v.vtx_id) :
    bfInit1Go ep vs row = .error .indexError := by
  induction vs generalizing row with
  | nil => simp at hbad
  | cons v rest ih =>
    unfold bfInit1Go
    rcases hbad with ⟨w, hw, hwne, hwge⟩
    by_cases hv : v.vtx_id = ep
    · simp only [if_pos hv]
      refine ih row ⟨w, ?_, hwne, hwge⟩
      rcases List.mem_cons.1 hw with h | h
      · subst h; exact absurd hv hwne
      · exact h
    · simp only [if_neg hv]
      rcases setIdx_cases row v.vtx_id ⊤ with ⟨h1, hlt⟩ | ⟨h1, _⟩
      · rw [h1, ok_bind]
        have hwrest : w ∈ rest := by
          rcases List.mem_cons.1 hw with h | h
          · subst h; omega
          · exact h
        refine ih _ ⟨w, hwrest, hwne, by simpa using hwge⟩
      · rw [h1]; rfl

theorem bfInit1Go_good (ep : Nat) (vs : List DVertex) (row : List BFVal)
    (hgood : ∀ v ∈ vs, v.vtx_id = ep ∨ v.vtx_id < row.length) :
    ∃ r2, bfInit1Go ep vs row = .ok r2 ∧ r2.length = row.length := by
  induction vs generalizing row with
  | nil => exact ⟨row, rfl, rfl⟩
  | cons v rest ih =>
    unfold bfInit1Go
    by_cases hv : v.vtx_id = ep
    · simp only [if_pos hv]
      exact ih row (fun w hw => hgood w (List.mem_cons_of_mem v hw))
    · simp only [if_neg hv]
      have hlt : v.vtx_id < row.length := by
        rcases hgood v (List.mem_cons_self v rest) with h | h
        · exact absurd h hv
        · exact h
      rcases setIdx_cases row v.vtx_id ⊤ with ⟨h1, _⟩ | ⟨h1, hge⟩
      · rw [h1, ok_bind]
        rcases ih (row.set v.vtx_id ⊤) (by simpa using hgood · <| List.mem_cons_of_mem v ·)
          with ⟨r2, h2, hl⟩
        · exact ⟨r2, h2, by rw [hl]; simp⟩
      · omega

theorem optScan_cases (oth : DirectedEdge → Nat) (prev : List BFVal)
    (acc : BFVal) (pen : Option Nat) (made : Bool) (es : List DirectedEdge) :
    (∃ r, optScan oth prev acc pen made es = .ok r) ∨
      optScan oth prev acc pen made es = .error .indexError := by
  induction es generalizing acc pen made with
  | nil => exact Or.inl ⟨(acc, pen, made), rfl⟩
  | cons e rest ih =>
    unfold optScan
    rcases idx_cases prev (oth e) with ⟨a, ha⟩ | ha
    · rw [ha, ok_bind]
      split
      · exact ih _ _ _
      · exact ih _ _ _
    · rw [ha]; exact Or.inr rfl

theorem optRoundGo_cases (adj : DVertex → List DirectedEdge)
    (oth : DirectedEdge → Nat) (prev : List BFVal) (prevPen : List (Option Nat))
    (vs : List DVertex) (curr : List BFVal) (currPen : List (Option Nat))
    (made : Bool) :
    (∃ r, optRoundGo adj oth prev prevPen vs curr currPen made = .ok r ∧
      r.1.length = curr.length ∧ r.2.1.length = currPen.length) ∨
    optRoundGo adj oth prev prevPen vs curr currPen made = .error .indexError := by
  induction vs generalizing curr currPen made with
  | nil => exact Or.inl ⟨(curr, currPen, made), rfl, rfl, rfl⟩
  | cons v rest ih =>
    unfold optRoundGo
    rcases idx_cases prev v.vtx_id with ⟨a, ha⟩ | ha
    · rw [ha, ok_bind]
      rcases idx_cases prevPen v.vtx_id with ⟨p, hp⟩ | hp
      · rw [hp, ok_bind]
        rcases optScan_cases oth prev a p made (adj v) with ⟨r, hr⟩ | hr
        · rw [hr, ok_bind]
          rcases setIdx_cases curr v.vtx_id r.1 with ⟨h1, _⟩ | ⟨h1, _⟩
          · rw [h1, ok_bind]
            rcases setIdx_cases currPen v.vtx_id r.2.1 with ⟨h2, _⟩ | ⟨h2, _⟩
            · rw [h2, ok_bind]
              rcases ih (curr.set v.vtx_id r.1) (currPen.set v.vtx_id r.2.1) r.2.2
                with ⟨r2, h3, hl1, hl2⟩ | h3
              · exact Or.inl ⟨r2, h3, by simpa using hl1, by simpa using hl2⟩
              · exact Or.inr h3
            · rw [h2]; exact Or.inr rfl
          · rw [h1]; exact Or.inr rfl
        · rw [hr]; exact Or.inr rfl
      · rw [hp]; exact Or.inr rfl
    · rw [ha]; exact Or.inr rfl

theorem optLoop_cases (adj : DVertex → List DirectedEdge)
    (oth : DirectedEdge → Nat) (vs : List DVertex) (n : Nat) :
    ∀ (rem : Nat) (made : Bool) (prev : List BFVal) (prevPen : List (Option Nat))
      (curr : List BFVal) (currPen : List (Option Nat)),
      prev.length = n → curr.length = n → prevPen.length = n → currPen.length = n →
      (∃ r, optLoop adj oth vs rem made prev prevPen curr currPen = .ok r ∧
        r.1.length = n ∧ r.2.length = n) ∨
      optLoop adj oth vs rem made prev prevPen curr currPen =
        .error .indexError := by
  intro rem
  induction rem with
  | zero =>
    intro made prev prevPen curr currPen h1 h2 h3 h4
    exact Or.inl ⟨(prev, prevPen), rfl, h1, h3⟩
  | succ rem ih =>
    intro made prev prevPen curr currPen h1 h2 h3 h4
    unfold optLoop
    by_cases hm : made
    · simp only [if_pos hm]
      rcases optRoundGo_cases adj oth prev prevPen vs curr currPen false with
        ⟨r, hr, hl1, hl2⟩ | hr
      · rw [hr, ok_bind]
        exact ih r.2.2 r.1 r.2.1 r.1 r.2.1 (hl1.trans h2) (hl1.trans h2)
          (hl2.trans h4) (hl2.trans h4)
      · rw [hr]; exact Or.inr rfl
    · simp only [if_neg hm]
      exact Or.inl ⟨(prev, prevPen), rfl, h1, h3⟩

theorem extra1VGo_cases (oth : DirectedEdge → Nat) (prev : List BFVal)
    (acc : BFVal) (flag : Bool) (es : List DirectedEdge) :
    (∃ r, extra1VGo oth prev acc flag es = .ok r) ∨
      extra1VGo oth prev acc flag es = .error .indexError := by
  induction es generalizing acc flag with
  | nil => exact Or.inl ⟨(acc, flag), rfl⟩
  | cons e rest ih =>
    unfold extra1VGo
    rcases idx_cases prev (oth e) with ⟨a, ha⟩ | ha
    · rw [ha, ok_bind]
      split
      · exact ih _ _
      · exact ih _ _
    · rw [ha]; exact Or.inr rfl

theorem extra1Go_gap (adj : DVertex → List DirectedEdge)
    (oth : DirectedEdge → Nat) (prev : List BFVal) (flag : Bool)
    (vs : List DVertex) (hbad : ∃ v ∈ vs, prev.length ≤ v.vtx_id) :
    extra1Go adj oth prev flag vs = .error .indexError := by
  induction vs generalizing flag with
  | nil => simp at hbad
  | cons v rest ih =>
    unfold extra1Go
    by_cases hv : prev.length ≤ v.vtx_id
    · rw [idx_err_of_ge hv]; rfl
    · rcases hbad with ⟨w, hw, hwge⟩
      have hwrest : w ∈ rest := by
        rcases List.mem_cons.1 hw with h | h
        · subst h; omega
        · exact h
      rcases idx_cases prev v.vtx_id with ⟨a, ha⟩ | ha
      · rw [ha, ok_bind]
        rcases extra1VGo_cases oth prev a flag (adj v) with ⟨p, hp⟩ | hp
        · rw [hp, ok_bind]; exact ih _ ⟨w, hwrest, hwge⟩
        · rw [hp, error_bind]
      · rw [ha]; rfl

/-- With a vertex whose id is at least the vertex count, the
space-optimized Bellman-Ford core always dies with `IndexError`. -/
theorem bellmanFordOptCore_gap (adj : DVertex → List DirectedEdge)
    (oth : DirectedEdge → Nat) (atFront : Bool) (g : DGraph) (ep_id : Nat)
    (vep : DVertex) (hep : g.find_vtx ep_id = some vep)
    (hbad : ∃ v ∈ g.vtx_list, g.vtx_list.length ≤ v.vtx_id) :
    bellmanFordOptCore adj oth atFront g ep_id = .error .indexError := by
  unfold bellmanFordOptCore
  rw [hep]
  dsimp only
  rcases bfInit1Go_cases vep.vtx_id g.vtx_list
      (List.replicate g.vtx_list.length (0 : BFVal)) with ⟨row, h1, hl⟩ | h1
  · rw [h1, ok_bind]
    rcases optLoop_cases adj oth g.vtx_list g.vtx_list.length
        (g.vtx_list.length - 1) true row (List.replicate g.vtx_list.length none)
        (List.replicate g.vtx_list.length (0 : BFVal))
        (List.replicate g.vtx_list.length none)
        (by simpa using hl) (by simp) (by simp) (by simp) with
      ⟨r, hr, hl1, hl2⟩ | hr
    · rw [hr, ok_bind]
      rw [extra1Go_gap adj oth r.1 false g.vtx_list ?_]
      · rfl
      · rcases hbad with ⟨w, hw, hwge⟩
        exact ⟨w, hw, by rw [hl1]; exact hwge⟩
    · rw [hr]; rfl
  · rw [h1]; rfl

theorem reconPtrOne_err_of_ge (pens : List (Option Nat)) (atFront : Bool)
    (path : List Nat) (curr : Nat) (fuel : Nat) (h1 : 1 ≤ fuel)
    (hge : pens.length ≤ curr) :
    reconPtrOne pens atFront path curr fuel = .error .indexError := by
  match fuel with
  | f + 1 =>
    unfold reconPtrOne
    rw [idx_err_of_ge hge]
    rfl

theorem reconPtrOne_cases (pens : List (Option Nat)) (atFront : Bool)
    (path : List Nat) (curr : Nat) (fuel : Nat) :
    (∃ p, reconPtrOne pens atFront path curr fuel = .ok p) ∨
      reconPtrOne pens atFront path curr fuel = .error .indexError := by
  induction fuel generalizing path curr with
  | zero => exact Or.inl ⟨path, rfl⟩
  | succ f ih =>
    unfold reconPtrOne
    rcases idx_cases pens curr with ⟨a, ha⟩ | ha
    · rw [ha, ok_bind]
      cases a with
      | none => exact Or.inl ⟨path, rfl⟩
      | some w => exact ih _ _
    · rw [ha]; exact Or.inr rfl

theorem reconPtrGo_gap (pens : List (Option Nat)) (atFront : Bool)
    (vs : List DVertex) (acc : List (List Nat)) (h1 : 1 ≤ pens.length)
    (hbad : ∃ v ∈ vs, pens.length ≤ v.vtx_id) :
    reconPtrGo pens atFront vs acc = .error .indexError := by
  induction vs generalizing acc with
  | nil => simp at hbad
  | cons v rest ih =>
    unfold reconPtrGo
    by_cases hv : pens.length ≤ v.vtx_id
    · rw [reconPtrOne_err_of_ge pens atFront [v.vtx_id] v.vtx_id pens.length h1 hv]
      rfl
    · rcases hbad with ⟨w, hw, hwge⟩
      have hwrest : w ∈ rest := by
        rcases List.mem_cons.1 hw with h | h
        · subst h; omega
        · exact h
      rcases reconPtrOne_cases pens atFront [v.vtx_id] v.vtx_id pens.length with
        ⟨p, hp⟩ | hp
      · rw [hp, ok_bind]; exact ih _ ⟨w, hwrest, hwge⟩
      · rw [hp]; rfl

/-- With a vertex whose id is at least the vertex count, the push-based
variant always dies with `IndexError` (for any positive recursion
budget), given that incident edges are recorded at their head as the
API guarantees. -/
theorem pushBased_gap (g : DGraph) (ep_id : Nat) (vep : DVertex) (fuel : Nat)
    (hfuel : 1 ≤ fuel) (hep : g.find_vtx ep_id = some vep)
    (hbad : ∃ v ∈ g.vtx_list, g.vtx_list.length ≤ v.vtx_id)
    (hinc : ∀ v ∈ g.vtx_list, ∀ e ∈ v.incident_edges, e.head = v.vtx_id) :
    g.shortest_paths_dest_driven_push_based ep_id fuel = .error .indexError := by
  unfold DGraph.shortest_paths_dest_driven_push_based
  rw [hep]
  dsimp only
  by_cases hsplit : ∃ v ∈ g.vtx_list, v.vtx_id ≠ vep.vtx_id ∧
      g.vtx_list.length ≤ v.vtx_id
  · rcases hsplit with ⟨w, hw, hwne, hwge⟩
    rw [bfInit1Go_bad vep.vtx_id g.vtx_list _ ⟨w, hw, hwne, by simpa using hwge⟩]
    rfl
  · push_neg at hsplit
    have hgood : ∀ v ∈ g.vtx_list, v.vtx_id = vep.vtx_id ∨
        v.vtx_id < (List.replicate g.vtx_list.length (0 : BFVal)).length := by
      intro v hv
      by_cases h : v.vtx_id = vep.vtx_id
      · exact Or.inl h
      · have := hsplit v hv h
        simp only [List.length_replicate]
        omega
    rcases bfInit1Go_good vep.vtx_id g.vtx_list _ hgood with ⟨mp0, h1, hl⟩
    rw [h1, ok_bind]
    have hepbad : g.vtx_list.length ≤ vep.vtx_id := by
      rcases hbad with ⟨w, hw, hwge⟩
      by_cases h : w.vtx_id = vep.vtx_id
      · omega
      · exact absurd hwge (by have := hsplit w hw h; omega)
    have hmplen : mp0.length = g.vtx_list.length := by simpa using hl
    have hn1 : 1 ≤ g.vtx_list.length := by
      rcases hbad with ⟨w, hw, _⟩
      exact List.length_pos_of_mem hw
    cases hie : vep.incident_edges with
    | nil =>
      have hrun : notifyRun g fuel (mp0, List.replicate g.vtx_list.length none)
          [[]] = .ok (some (mp0, List.replicate g.vtx_list.length none)) := by
        match fuel with
        | f + 1 =>
          show notifyRun g f _ [] = _
          cases f <;> rfl
      rw [hrun, ok_bind]
      dsimp only
      rw [reconPtrGo_gap (List.replicate g.vtx_list.length none) false g.vtx_list
        [] (by simpa using hn1) ?_]
      · rfl
      · rcases find_vtx_d hep with ⟨_, hmem⟩
        exact ⟨vep, hmem, by simpa using hepbad⟩
    | cons e rest =>
      have hehead : e.head = vep.vtx_id := by
        rcases find_vtx_d hep with ⟨_, hmem⟩
        exact hinc vep hmem e (by rw [hie]; exact List.mem_cons_self e rest)
      have hrun : notifyRun g fuel (mp0, List.replicate g.vtx_list.length none)
          [e :: rest] = .error .indexError := by
        match fuel with
        | f + 1 =>
          show (idx mp0 e.head >>= _) = _
          rw [idx_err_of_ge (by rw [hmplen, hehead]; exact hepbad)]
          rfl
      rw [hrun]
      rfl

/-- C9: every Bellman-Ford variant indexes its DP rows directly by vertex
id into storage of size `n` (the vertex count), so on any graph that
contains a vertex whose id is at least `n` — which the data model
otherwise allows — a shortest-path call with an existing endpoint dies
with an out-of-range `IndexError` instead of returning a result.  (The
incident-edge lists are assumed to be recorded at their heads, as every
API-built graph guarantees; the push-based variant is given any positive
recursion budget.) -/
theorem C9_index_error_on_gap_ids (g : DGraph) (ep fuel : Nat)
    (hep : (g.find_vtx ep).isSome = true)
    (hbad : ∃ v ∈ g.vtx_list, g.vtx_list.length ≤ v.vtx_id)
    (hinc : ∀ v ∈ g.vtx_list, ∀ e ∈ v.incident_edges, e.head = v.vtx_id)
    (hfuel : 1 ≤ fuel) :
    g.bellman_ford_shortest_paths ep = .error .indexError ∧
    g.bellman_ford_shortest_paths_optimized ep = .error .indexError ∧
    g.bellman_ford_shortest_paths_dest_driven ep = .error .indexError ∧
    g.bellman_ford_shortest_paths_dest_driven_optimized ep = .error .indexError ∧
    g.shortest_paths_dest_driven_push_based ep fuel = .error .indexError := by
  obtain ⟨vep, hepeq⟩ := Option.isSome_iff_exists.1 hep
  exact ⟨bellmanFordCore_gap _ _ _ g ep vep hepeq hbad,
    bellmanFordOptCore_gap _ _ _ g ep vep hepeq hbad,
    bellmanFordCore_gap _ _ _ g ep vep hepeq hbad,
    bellmanFordOptCore_gap _ _ _ g ep vep hepeq hbad,
    pushBased_gap g ep vep fuel hfuel hepeq hbad hinc⟩

/-- C9 witness: on the two-vertex graph with ids 0 and 5 every variant
dies with `IndexError` for the existing endpoint 0. -/
theorem C9_witness :
    gGap.bellman_ford_shortest_paths 0 = .error .indexError ∧
    gGap.bellman_ford_shortest_paths_optimized 0 = .error .indexError ∧
    gGap.bellman_ford_shortest_paths_dest_driven 0 = .error .indexError ∧
    gGap.bellman_ford_shortest_paths_dest_driven_optimized 0 = .error .indexError ∧
    gGap.shortest_paths_dest_driven_push_based 0 1 = .error .indexError :=
  C9_index_error_on_gap_ids gGap 0 1 (by decide) (by decide) (by decide)
    (by decide)

/-! ### Union-find correctness (for the clustering claim) -/

/-- Structural invariant of the modelled union-find: its keys are exactly
the registered ids (distinct), and every recorded leader is itself
registered with a self-entry (the spec's eager one-hop flattening). -/
def KUF (uf : UF) (ids : List Nat) : Prop :=
  uf.map Prod.fst = ids ∧ ids.Nodup ∧ ∀ p ∈ uf, (p.2, p.2) ∈ uf

theorem ufInit_K {ids : List Nat} (h : ids.Nodup) : KUF (ufInit ids) ids := by
  refine ⟨?_, h, ?_⟩
  · unfold ufInit
    rw [List.map_map]
    exact List.map_id' ids
  intro p hp
  unfold ufInit at hp ⊢
  rcases List.mem_map.1 hp with ⟨i, hi, hpe⟩
  subst hpe
  exact List.mem_map.2 ⟨i, hi, rfl⟩

theorem uf_entry_unique {uf : UF} {ids : List Nat} (K : KUF uf ids)
    {p q : Nat × Nat} (hp : p ∈ uf) (hq : q ∈ uf) (h : p.1 = q.1) : p = q := by
  have hnd : (uf.map Prod.fst).Nodup := by rw [K.1]; exact K.2.1
  exact List.inj_on_of_nodup_map hnd hp hq h

theorem ufLeader_of_mem {uf : UF} {ids : List Nat} (K : KUF uf ids)
    {x l : Nat} (hm : (x, l) ∈ uf) : ufLeader uf x = l := by
  unfold ufLeader
  cases hfind : uf.find? (fun p => p.1 == x) with
  | none =>
    have := List.find?_eq_none.1 hfind (x, l) hm
    simp at this
  | some q =>
    have hq1 : q.1 = x := by have := List.find?_some hfind; simpa using this
    have hqm := List.mem_of_find?_eq_some hfind
    have : q = (x, l) := uf_entry_unique K hqm hm (by simp [hq1])
    subst this
    rfl

theorem ufLeader_not_key {uf : UF} {ids : List Nat} (K : KUF uf ids)
    {x : Nat} (hx : x ∉ ids) : ufLeader uf x = x := by
  unfold ufLeader
  cases hfind : uf.find? (fun p => p.1 == x) with
  | none => rfl
  | some q =>
    have hq1 : q.1 = x := by have := List.find?_some hfind; simpa using this
    have hqm := List.mem_of_find?_eq_some hfind
    exfalso
    exact hx (by rw [← K.1]; exact List.mem_map.2 ⟨q, hqm, hq1⟩)

theorem ufLeader_key {uf : UF} {ids : List Nat} (K : KUF uf ids)
    {x : Nat} (hx : x ∈ ids) :
    (x, ufLeader uf x) ∈ uf ∧ (ufLeader uf x, ufLeader uf x) ∈ uf := by
  rw [← K.1] at hx
  rcases List.mem_map.1 hx with ⟨p, hp, hp1⟩
  have hxl : (x, p.2) ∈ uf := by
    have : p = (x, p.2) := by
      cases p; simp at hp1 ⊢; exact hp1
    rw [← this]; exact hp
  rw [ufLeader_of_mem K hxl]
  exact ⟨hxl, K.2.2 p hp⟩

theorem find?_map_keys {uf : UF} (f : Nat × Nat → Nat × Nat)
    (hf : ∀ p, (f p).1 = p.1) (x : Nat) :
    (uf.map f).find? (fun p => p.1 == x) =
      (uf.find? (fun p => p.1 == x)).map f := by
  induction uf with
  | nil => rfl
  | cons p rest ih =>
    simp only [List.map_cons, List.find?]
    rw [hf p]
    cases h : (p.1 == x) <;> simp [h, ih]

theorem ufWinner_cases (uf : UF) (la lb : Nat) :
    ufWinner uf la lb = la ∨ ufWinner uf la lb = lb := by
  unfold ufWinner; split <;> simp

theorem ufLoser_cases (uf : UF) (la lb : Nat) :
    ufLoser uf la lb = la ∨ ufLoser uf la lb = lb := by
  unfold ufLoser; split <;> simp

theorem ufWinner_ne_loser {uf : UF} {la lb : Nat} (hne : la ≠ lb) :
    ufWinner uf la lb ≠ ufLoser uf la lb := by
  unfold ufWinner ufLoser; split
  · exact hne
  · exact Ne.symm hne

theorem ufWinner_self {uf : UF} {la lb : Nat} (hla : (la, la) ∈ uf)
    (hlb : (lb, lb) ∈ uf) :
    (ufWinner uf la lb, ufWinner uf la lb) ∈ uf := by
  rcases ufWinner_cases uf la lb with h | h <;> rw [h]
  · exact hla
  · exact hlb

theorem ufLoser_self {uf : UF} {la lb : Nat} (hla : (la, la) ∈ uf)
    (hlb : (lb, lb) ∈ uf) :
    (ufLoser uf la lb, ufLoser uf la lb) ∈ uf := by
  rcases ufLoser_cases uf la lb with h | h <;> rw [h]
  · exact hla
  · exact hlb

theorem key_mem_ids {uf : UF} {ids : List Nat} (K : KUF uf ids)
    {p : Nat × Nat} (hp : p ∈ uf) : p.1 ∈ ids := by
  rw [← K.1]; exact List.mem_map.2 ⟨p, hp, rfl⟩

/-- The union preserves the structural invariant. -/
theorem ufUnion_K {uf : UF} {ids : List Nat} (K : KUF uf ids)
    {la lb : Nat} (hla : (la, la) ∈ uf) (hlb : (lb, lb) ∈ uf)
    (hne : la ≠ lb) : KUF (ufUnion uf la lb) ids := by
  unfold ufUnion
  rw [if_neg hne]
  set f := fun p : Nat × Nat =>
    if p.2 == ufLoser uf la lb then (p.1, ufWinner uf la lb) else p with hfdef
  have hf : ∀ p, (f p).1 = p.1 := by
    intro p; rw [hfdef]; dsimp only; split <;> rfl
  refine ⟨?_, K.2.1, ?_⟩
  · rw [← K.1, List.map_map]
    congr 1
    funext p
    exact hf p
  · intro p hp
    rcases List.mem_map.1 hp with ⟨q, hq, hqe⟩
    subst hqe
    rw [hfdef]
    dsimp only
    split
    · refine List.mem_map.2 ⟨(ufWinner uf la lb, ufWinner uf la lb),
        ufWinner_self hla hlb, ?_⟩
      dsimp only
      rw [if_neg (by simp [ufWinner_ne_loser hne])]
    · next h =>
      refine List.mem_map.2 ⟨(q.2, q.2), K.2.2 q hq, ?_⟩
      dsimp only
      rw [if_neg (by simpa using h)]

/-- Effect of a union on every leader: members of the absorbed group now
point at the survivor, everything else is unchanged. -/
theorem ufUnion_leader {uf : UF} {ids : List Nat} (K : KUF uf ids)
    {la lb : Nat} (hla : (la, la) ∈ uf) (hlb : (lb, lb) ∈ uf)
    (hne : la ≠ lb) (x : Nat) :
    ufLeader (ufUnion uf la lb) x =
      (if ufLeader uf x = ufLoser uf la lb then ufWinner uf la lb
       else ufLeader uf x) := by
  have K2 := ufUnion_K K hla hlb hne
  by_cases hx : x ∈ ids
  · rcases ufLeader_key K hx with ⟨hxl, _⟩
    have hmem : (x, if ufLeader uf x = ufLoser uf la lb then ufWinner uf la lb
        else ufLeader uf x) ∈ ufUnion uf la lb := by
      unfold ufUnion
      rw [if_neg hne]
      refine List.mem_map.2 ⟨(x, ufLeader uf x), hxl, ?_⟩
      dsimp only
      by_cases h : ufLeader uf x = ufLoser uf la lb
      · rw [if_pos (by simpa using h), if_pos h]
      · rw [if_neg (by simpa using h), if_neg h]
    exact ufLeader_of_mem K2 hmem
  · have h1 : ufLeader uf x = x := ufLeader_not_key K hx
    have h2 : ufLeader (ufUnion uf la lb) x = x := ufLeader_not_key K2 hx
    rw [h1, h2, if_neg]
    intro hcontra
    exact hx (by rw [hcontra]; exact key_mem_ids K (ufLoser_self hla hlb))

/-- Same leaders stay same leaders across a union. -/
theorem ufUnion_preserves {uf : UF} {ids : List Nat} (K : KUF uf ids)
    {la lb : Nat} (hla : (la, la) ∈ uf) (hlb : (lb, lb) ∈ uf)
    (hne : la ≠ lb) {x y : Nat} (h : ufLeader uf x = ufLeader uf y) :
    ufLeader (ufUnion uf la lb) x = ufLeader (ufUnion uf la lb) y := by
  rw [ufUnion_leader K hla hlb hne x, ufUnion_leader K hla hlb hne y, h]

/-- The two endpoints whose leaders were united share a leader
afterwards. -/
theorem ufUnion_joins {uf : UF} {ids : List Nat} (K : KUF uf ids)
    {la lb : Nat} (hla : (la, la) ∈ uf) (hlb : (lb, lb) ∈ uf)
    (hne : la ≠ lb) {x y : Nat} (h1 : ufLeader uf x = la)
    (h2 : ufLeader uf y = lb) :
    ufLeader (ufUnion uf la lb) x = ufLeader (ufUnion uf la lb) y := by
  rw [ufUnion_leader K hla hlb hne x, ufUnion_leader K hla hlb hne y, h1, h2]
  unfold ufWinner ufLoser
  split
  · simp [hne]
  · simp [Ne.symm hne]

theorem filter_length_congr {l : List (Nat × Nat)}
    {f : Nat × Nat → Nat × Nat} {p q : Nat × Nat → Bool}
    (h : ∀ a ∈ l, q (f a) = p a) :
    ((l.map f).filter q).length = (l.filter p).length := by
  induction l with
  | nil => rfl
  | cons a rest ih =>
    simp only [List.map_cons, List.filter_cons]
    rw [h a (List.mem_cons_self a rest)]
    have hr := ih (fun b hb => h b (List.mem_cons_of_mem a hb))
    cases p a <;> simp [hr]

theorem nodup_mid {l1 l2 : List Nat} {a : Nat}
    (h : (l1 ++ a :: l2).Nodup) : a ∉ l1 ∧ a ∉ l2 := by
  rw [List.nodup_append] at h
  refine ⟨fun hc => ?_, fun hc => ?_⟩
  · exact h.2.2 hc (List.mem_cons_self a l2)
  · exact (List.nodup_cons.1 h.2.1).1 hc

/-- A union of two distinct current leaders decrements the group count by
exactly one. -/
theorem ufUnion_groups {uf : UF} {ids : List Nat} (K : KUF uf ids)
    {la lb : Nat} (hla : (la, la) ∈ uf) (hlb : (lb, lb) ∈ uf)
    (hne : la ≠ lb) :
    ufNumGroups (ufUnion uf la lb) = ufNumGroups uf - 1 ∧
      1 ≤ ufNumGroups uf := by
  obtain ⟨L, hL⟩ : ∃ x, x = ufLoser uf la lb := ⟨_, rfl⟩
  obtain ⟨W, hW⟩ : ∃ x, x = ufWinner uf la lb := ⟨_, rfl⟩
  have hWL : W ≠ L := by rw [hL, hW]; exact ufWinner_ne_loser hne
  have hLself : (L, L) ∈ uf := by rw [hL]; exact ufLoser_self hla hlb
  have hWself : (W, W) ∈ uf := by rw [hW]; exact ufWinner_self hla hlb
  obtain ⟨s, t, hst⟩ := List.append_of_mem hLself
  have hkeys : (List.map Prod.fst s ++ L :: List.map Prod.fst t).Nodup := by
    have h1 : (uf.map Prod.fst).Nodup := by rw [K.1]; exact K.2.1
    rw [hst] at h1
    simpa using h1
  obtain ⟨hLs, hLt⟩ := nodup_mid hkeys
  have hcongr : ∀ (l : List (Nat × Nat)), (∀ p ∈ l, p ∈ uf ∧ p.1 ≠ L) →
      ((l.map (fun p => if p.2 == L then (p.1, W) else p)).filter
        (fun p => p.1 == p.2)).length =
      (l.filter (fun p => p.1 == p.2)).length := by
    intro l hl
    refine filter_length_congr ?_
    intro p hp
    rcases hl p hp with ⟨hpu, hpne⟩
    by_cases h2 : p.2 = L
    · rw [if_pos (by simpa using h2)]
      dsimp only
      have hane : ¬ (p.1 = W) := by
        intro hc
        have hpe : p = (W, L) := by
          cases p
          simp only at hc h2
          rw [hc, h2]
        rw [hpe] at hpu
        have := uf_entry_unique K hpu hWself (by rfl)
        simp at this
        exact hWL this.symm
      have hane2 : ¬ (p.1 = p.2) := by rw [h2]; exact hpne
      simp [hane, hane2]
    · rw [if_neg (by simpa using h2)]
  have hfilter : ∀ p ∈ s, p ∈ uf ∧ p.1 ≠ L := by
    intro p hp
    refine ⟨by rw [hst]; exact List.mem_append_left _ hp, fun hc => ?_⟩
    exact hLs (List.mem_map.2 ⟨p, hp, hc⟩)
  have hfilter2 : ∀ p ∈ t, p ∈ uf ∧ p.1 ≠ L := by
    intro p hp
    refine ⟨by rw [hst]; exact List.mem_append_right _ (List.mem_cons_of_mem _ hp),
      fun hc => ?_⟩
    exact hLt (List.mem_map.2 ⟨p, hp, hc⟩)
  unfold ufNumGroups ufUnion
  rw [if_neg hne]
  rw [← hL, ← hW]
  rw [hst]
  simp only [List.map_append, List.map_cons, List.filter_append,
    List.length_append, List.filter_cons]
  rw [hcongr s hfilter]
  have h1 : ((L : Nat) == W) = false := by simpa using Ne.symm hWL
  simp only [beq_self_eq_true, if_true, h1, if_false, List.length_cons,
    Bool.false_eq_true, reduceIte]
  rw [hcongr t hfilter2]
  omega

theorem ufNumGroups_init (ids : List Nat) :
    ufNumGroups (ufInit ids) = ids.length := by
  unfold ufNumGroups ufInit
  induction ids with
  | nil => rfl
  | cons a rest ih => simpa using ih

theorem ufLeader_init (ids : List Nat) (hnd : ids.Nodup) (x : Nat) :
    ufLeader (ufInit ids) x = x := by
  by_cases hx : x ∈ ids
  · refine ufLeader_of_mem (ufInit_K hnd) ?_
    unfold ufInit
    exact List.mem_map.2 ⟨x, hx, rfl⟩
  · exact ufLeader_not_key (ufInit_K hnd) hx

/-! ### Edge sorting is a permutation -/

theorem insertByCost_perm (acc : List UndirectedEdge) (e : UndirectedEdge) :
    (insertByCost acc e).Perm (e :: acc) := by
  induction acc with
  | nil => exact List.Perm.refl _
  | cons x xs ih =>
    unfold insertByCost
    split
    · exact List.Perm.refl _
    · exact (List.Perm.cons x ih).trans (List.Perm.swap e x xs)

theorem sortE_perm (es : List UndirectedEdge) : (sortE es).Perm es := by
  have key : ∀ (l acc : List UndirectedEdge),
      (l.foldl insertByCost acc).Perm (acc ++ l) := by
    intro l
    induction l with
    | nil => intro acc; simp
    | cons e rest ih =>
      intro acc
      have h1 := ih (insertByCost acc e)
      have h2 : (insertByCost acc e ++ rest).Perm ((e :: acc) ++ rest) :=
        (insertByCost_perm acc e).append_right rest
      have h3 : ((e :: acc) ++ rest).Perm (acc ++ e :: rest) := by
        simpa using List.perm_middle.symm
      exact (h1.trans h2).trans h3
  simpa using key es []

/-! ### The embedded clustering loop follows the claim's description -/

theorem specFindCross_clusterGo {uf : UF} {k : Int} {es : List UndirectedEdge}
    {c : Int} (h : specFindCross uf es = some c) :
    clusterGo uf k true es = c := by
  induction es with
  | nil => simp [specFindCross] at h
  | cons e rest ih =>
    unfold specFindCross at h
    unfold clusterGo
    by_cases hd : ufLeader uf e.end1 ≠ ufLeader uf e.end2
    · rw [if_pos hd] at h
      rw [if_pos hd]
      exact (Option.some_inj.1 h)
    · rw [if_neg hd] at h
      rw [if_neg hd]
      exact ih h

theorem specPhase1_clusterGo {k : Int} :
    ∀ {es : List UndirectedEdge} {uf : UF} {c : Int},
    specPhase1 uf k es = some c → clusterGo uf k false es = c := by
  intro es
  induction es with
  | nil => intro uf c h; simp [specPhase1] at h
  | cons e rest ih =>
    intro uf c h
    unfold specPhase1 at h
    unfold clusterGo
    by_cases hd : ufLeader uf e.end1 ≠ ufLeader uf e.end2
    · rw [if_pos hd] at h
      rw [if_pos hd, if_neg (by simp)]
      dsimp only
      by_cases hk : (ufNumGroups (ufUnion uf (ufLeader uf e.end1)
          (ufLeader uf e.end2)) : Int) = k
      · rw [if_pos hk] at h
        rw [decide_eq_true hk]
        exact specFindCross_clusterGo h
      · rw [if_neg hk] at h
        rw [decide_eq_false hk]
        exact ih h
    · rw [if_neg hd] at h
      rw [if_neg hd]
      exact ih h

theorem specFindCross_none {uf : UF} :
    ∀ {es : List UndirectedEdge}, specFindCross uf es = none →
    ∀ e ∈ es, ufLeader uf e.end1 = ufLeader uf e.end2 := by
  intro es
  induction es with
  | nil => intro _ e he; simp at he
  | cons e rest ih =>
    intro h f hf
    unfold specFindCross at h
    by_cases hd : ufLeader uf e.end1 ≠ ufLeader uf e.end2
    · rw [if_pos hd] at h; simp at h
    · rw [if_neg hd] at h
      rcases List.mem_cons.1 hf with hfe | hfr
      · subst hfe; exact not_not.1 hd
      · exact ih h f hfr

/-! ### Connectivity: the computable check is sound for `EReach` -/

theorem EReach_leader {es : List UndirectedEdge} {uf : UF}
    (hall : ∀ e ∈ es, ufLeader uf e.end1 = ufLeader uf e.end2)
    {a b : Nat} (h : EReach es a b) : ufLeader uf a = ufLeader uf b := by
  induction h with
  | refl => rfl
  | fwd _ he h1 ihr =>
    subst h1
    exact ihr.trans (hall _ he)
  | bwd _ he h2 ihr =>
    subst h2
    exact ihr.trans (hall _ he).symm

theorem ereachStep_sound {es : List UndirectedEdge} {a : Nat}
    {s : List Nat} (hs : ∀ x ∈ s, EReach es a x) :
    ∀ x ∈ ereachStep es s, EReach es a x := by
  unfold ereachStep
  have key : ∀ (l : List UndirectedEdge), (∀ e ∈ l, e ∈ es) →
      ∀ (s0 : List Nat), (∀ x ∈ s0, EReach es a x) →
      ∀ x ∈ l.foldl (fun s e =>
        let s1 := if e.end1 ∈ s ∧ e.end2 ∉ s then s ++ [e.end2] else s
        if e.end2 ∈ s1 ∧ e.end1 ∉ s1 then s1 ++ [e.end1] else s1) s0,
      EReach es a x := by
    intro l
    induction l with
    | nil => intro _ s0 hs0 x hx; exact hs0 x hx
    | cons e rest ih =>
      intro hsub s0 hs0 x hx
      refine ih (fun f hf => hsub f (List.mem_cons_of_mem e hf)) _ ?_ x hx
      intro y hy
      dsimp only at hy
      have he : e ∈ es := hsub e (List.mem_cons_self e rest)
      by_cases h1 : e.end1 ∈ s0 ∧ e.end2 ∉ s0
      · rw [if_pos h1] at hy
        by_cases h2 : e.end2 ∈ s0 ++ [e.end2] ∧ e.end1 ∉ s0 ++ [e.end2]
        · rw [if_pos h2] at hy
          rcases List.mem_append.1 hy with hy1 | hy2
          · rcases List.mem_append.1 hy1 with hy3 | hy4
            · exact hs0 y hy3
            · rw [List.mem_singleton.1 hy4]
              exact EReach.fwd (hs0 e.end1 h1.1) he rfl
          · rw [List.mem_singleton.1 hy2]
            exact EReach.bwd (EReach.fwd (hs0 e.end1 h1.1) he rfl) he rfl
        · rw [if_neg h2] at hy
          rcases List.mem_append.1 hy with hy1 | hy2
          · exact hs0 y hy1
          · rw [List.mem_singleton.1 hy2]
            exact EReach.fwd (hs0 e.end1 h1.1) he rfl
      · rw [if_neg h1] at hy
        by_cases h2 : e.end2 ∈ s0 ∧ e.end1 ∉ s0
        · rw [if_pos h2] at hy
          rcases List.mem_append.1 hy with hy1 | hy2
          · exact hs0 y hy1
          · rw [List.mem_singleton.1 hy2]
            exact EReach.bwd (hs0 e.end2 h2.1) he rfl
        · rw [if_neg h2] at hy
          exact hs0 y hy
  exact key es (fun _ h => h) s hs

theorem ereachIter_sound {es : List UndirectedEdge} {a : Nat} :
    ∀ (f : Nat) (s : List Nat), (∀ x ∈ s, EReach es a x) →
    ∀ x ∈ ereachIter es s f, EReach es a x := by
  intro f
  induction f with
  | zero => intro s hs x hx; exact hs x hx
  | succ f ih =>
    intro s hs x hx
    exact ih (ereachStep es s) (ereachStep_sound hs) x hx

/-- The computable connectivity check certifies `EReach` from the first
vertex. -/
theorem conn_sound {g : UGraph} {a : Nat} {rest : List Nat}
    (hids : g.vtx_list.map UVertex.vtx_id = a :: rest)
    (hconn : g.conn = true) :
    ∀ b ∈ g.vtx_list.map UVertex.vtx_id, EReach g.edge_list a b := by
  intro b hb
  unfold UGraph.conn at hconn
  rw [hids] at hconn
  rw [hids] at hb
  rcases List.mem_cons.1 hb with hba | hbr
  · subst hba; exact EReach.refl b
  · have := List.all_eq_true.1 hconn b hbr
    refine ereachIter_sound g.vtx_list.length [a] ?_ b (by simpa using this)
    intro x hx
    rw [List.mem_singleton.1 hx]
    exact EReach.refl a

/-- A connected graph cannot have two or more union-find groups while
every edge joins vertices of the same group. -/
theorem two_groups_contradiction {g : UGraph} {uf : UF} {a : Nat}
    {restids : List Nat}
    (hids : g.vtx_list.map UVertex.vtx_id = a :: restids)
    (K : KUF uf (a :: restids)) (hconn : g.conn = true)
    (hgroups : 2 ≤ ufNumGroups uf)
    (hall : ∀ e ∈ g.edge_list, ufLeader uf e.end1 = ufLeader uf e.end2) :
    False := by
  have hnduf : uf.Nodup := by
    have h1 : (uf.map Prod.fst).Nodup := by rw [K.1]; exact K.2.1
    exact h1.of_map
  cases hsel : uf.filter (fun p => p.1 == p.2) with
  | nil => unfold ufNumGroups at hgroups; rw [hsel] at hgroups; simp at hgroups
  | cons p ptail =>
    cases ptail with
    | nil => unfold ufNumGroups at hgroups; rw [hsel] at hgroups; simp at hgroups
    | cons q qtail =>
      have hpin : p ∈ uf ∧ (p.1 == p.2) = true := by
        have : p ∈ uf.filter (fun p => p.1 == p.2) := by
          rw [hsel]; exact List.mem_cons_self _ _
        exact ⟨(List.mem_filter.1 this).1, (List.mem_filter.1 this).2⟩
      have hqin : q ∈ uf ∧ (q.1 == q.2) = true := by
        have : q ∈ uf.filter (fun p => p.1 == p.2) := by
          rw [hsel]; exact List.mem_cons_of_mem _ (List.mem_cons_self _ _)
        exact ⟨(List.mem_filter.1 this).1, (List.mem_filter.1 this).2⟩
      have hpq : p ≠ q := by
        have hndf : (uf.filter (fun p => p.1 == p.2)).Nodup := hnduf.filter _
        rw [hsel] at hndf
        exact (List.nodup_cons.1 hndf).1 ∘ (fun h => h ▸ List.mem_cons_self q qtail)
      have hkeyne : p.1 ≠ q.1 := fun hc =>
        hpq (uf_entry_unique K hpin.1 hqin.1 hc)
      have hlp : ufLeader uf p.1 = p.1 := by
        have : (p.1, p.1) ∈ uf := by
          have he : p = (p.1, p.1) := by
            have := eq_of_beq hpin.2
            cases p; simp at this ⊢; exact this.symm
          rw [← he]; exact hpin.1
        exact ufLeader_of_mem K this
      have hlq : ufLeader uf q.1 = q.1 := by
        have : (q.1, q.1) ∈ uf := by
          have he : q = (q.1, q.1) := by
            have := eq_of_beq hqin.2
            cases q; simp at this ⊢; exact this.symm
          rw [← he]; exact hqin.1
        exact ufLeader_of_mem K this
      have hpm : p.1 ∈ g.vtx_list.map UVertex.vtx_id := by
        rw [hids]; exact key_mem_ids K hpin.1
      have hqm : q.1 ∈ g.vtx_list.map UVertex.vtx_id := by
        rw [hids]; exact key_mem_ids K hqin.1
      have h1 := EReach_leader hall (conn_sound hids hconn p.1 hpm)
      have h2 := EReach_leader hall (conn_sound hids hconn q.1 hqm)
      rw [hlp] at h1
      rw [hlq] at h2
      exact hkeyne (h1.symm.trans h2)

/-- On a connected wellformed graph, the spec's description of the
clustering answer denotes an actual edge cost whenever merging stops at
`2 ≤ k` groups strictly below the current group count. -/
theorem specPhase1_some {g : UGraph} {a : Nat} {restids : List Nat}
    (hids : g.vtx_list.map UVertex.vtx_id = a :: restids)
    (hconn : g.conn = true)
    (hW : ∀ e ∈ g.edge_list, e.end1 ∈ a :: restids ∧ e.end2 ∈ a :: restids) :
    ∀ (remaining : List UndirectedEdge) (uf : UF) (k : Int),
    KUF uf (a :: restids) →
    (∀ e ∈ remaining, e ∈ g.edge_list) →
    (∀ e ∈ g.edge_list, e ∈ remaining ∨ ufLeader uf e.end1 = ufLeader uf e.end2) →
    2 ≤ k → k < (ufNumGroups uf : Int) →
    ∃ c, specPhase1 uf k remaining = some c := by
  intro remaining
  induction remaining with
  | nil =>
    intro uf k K hsub hcov hk2 hklt
    exfalso
    refine two_groups_contradiction hids K hconn (by omega) ?_
    intro e he
    rcases hcov e he with h | h
    · simp at h
    · exact h
  | cons e rem ih =>
    intro uf k K hsub hcov hk2 hklt
    unfold specPhase1
    by_cases hd : ufLeader uf e.end1 ≠ ufLeader uf e.end2
    · rw [if_pos hd]
      dsimp only
      have heg : e ∈ g.edge_list := hsub e (List.mem_cons_self e rem)
      obtain ⟨he1, he2⟩ := hW e heg
      obtain ⟨hm1, hs1⟩ := ufLeader_key K he1
      obtain ⟨hm2, hs2⟩ := ufLeader_key K he2
      have K2 := ufUnion_K K hs1 hs2 hd
      obtain ⟨hgdec, hgpos⟩ := ufUnion_groups K hs1 hs2 hd
      have hjoin : ∀ x y : Nat, ufLeader uf x = ufLeader uf e.end1 →
          ufLeader uf y = ufLeader uf e.end2 →
          ufLeader (ufUnion uf (ufLeader uf e.end1) (ufLeader uf e.end2)) x =
          ufLeader (ufUnion uf (ufLeader uf e.end1) (ufLeader uf e.end2)) y :=
        fun x y hx hy => ufUnion_joins K hs1 hs2 hd hx hy
      by_cases hk : (ufNumGroups (ufUnion uf (ufLeader uf e.end1)
          (ufLeader uf e.end2)) : Int) = k
      · rw [if_pos hk]
        cases hcross : specFindCross (ufUnion uf (ufLeader uf e.end1)
            (ufLeader uf e.end2)) rem with
        | some c => exact ⟨c, rfl⟩
        | none =>
          exfalso
          refine two_groups_contradiction hids K2 hconn (by omega) ?_
          intro f hf
          rcases hcov f hf with h | h
          · rcases List.mem_cons.1 h with hfe | hfr
            · subst hfe
              exact hjoin f.end1 f.end2 rfl rfl
            · exact specFindCross_none hcross f hfr
          · exact ufUnion_preserves K hs1 hs2 hd h
      · rw [if_neg hk]
        refine ih (ufUnion uf (ufLeader uf e.end1) (ufLeader uf e.end2)) k K2
          (fun f hf => hsub f (List.mem_cons_of_mem e hf)) ?_ hk2 (by omega)
        intro f hf
        rcases hcov f hf with h | h
        · rcases List.mem_cons.1 h with hfe | hfr
          · subst hfe
            exact Or.inr (hjoin f.end1 f.end2 rfl rfl)
          · exact Or.inl hfr
        · exact Or.inr (ufUnion_preserves K hs1 hs2 hd h)
    · rw [if_neg hd]
      refine ih uf k K (fun f hf => hsub f (List.mem_cons_of_mem e hf)) ?_ hk2 hklt
      intro f hf
      rcases hcov f hf with h | h
      · rcases List.mem_cons.1 h with hfe | hfr
        · subst hfe
          exact Or.inr (not_not.1 hd)
        · exact Or.inl hfr
      · exact Or.inr h

/-- C4: `clustering_with_max_spacing` raises `InvalidArgument` exactly for
`k ≤ 1`; and for `1 < k <` vertex count on a connected wellformed graph
it returns the cost the claim describes (`clustering_spec`): the cost of
the first edge, scanning in ascending cost order, considered after the
union-find group count has dropped to exactly `k` and whose endpoints
have different leaders. -/
theorem C4_clustering (g : UGraph) (k : Int) :
    (k ≤ 1 → g.clustering_with_max_spacing k = .error .invalidArg) ∧
    (2 ≤ k → k < (g.vtx_list.length : Int) → UWell g → g.conn = true →
      ∃ c, g.clustering_spec k = some c ∧
        g.clustering_with_max_spacing k = .ok c) := by
  constructor
  · intro hk
    unfold UGraph.clustering_with_max_spacing
    rw [if_pos hk]
  · intro hk2 hkn hwell hconn
    obtain ⟨hnd, hep⟩ := hwell
    cases hids : g.vtx_list.map UVertex.vtx_id with
    | nil =>
      exfalso
      have : g.vtx_list.length = 0 := by
        have := congrArg List.length hids
        simpa using this
      omega
    | cons a restids =>
      have hnd2 : (a :: restids).Nodup := by rw [← hids]; exact hnd
      have K0 := ufInit_K hnd2
      have hW2 : ∀ e ∈ g.edge_list, e.end1 ∈ a :: restids ∧
          e.end2 ∈ a :: restids := by
        intro e he
        rw [← hids]
        exact hep e he
      have hkg : k < (ufNumGroups (ufInit (a :: restids)) : Int) := by
        rw [ufNumGroups_init]
        have h2 : g.vtx_list.length = (a :: restids).length := by
          have := congrArg List.length hids
          simpa using this
        rw [h2] at hkn
        exact_mod_cast hkn
      obtain ⟨c, hc⟩ := specPhase1_some hids hconn hW2 (sortE g.edge_list)
        (ufInit (a :: restids)) k K0
        (fun f hf => (sortE_perm g.edge_list).mem_iff.1 hf)
        (fun f hf => Or.inl ((sortE_perm g.edge_list).mem_iff.2 hf))
        hk2 hkg
      refine ⟨c, ?_, ?_⟩
      · unfold UGraph.clustering_spec
        rw [hids]
        exact hc
      · unfold UGraph.clustering_with_max_spacing
        rw [if_neg (by omega), hids]
        rw [specPhase1_clusterGo hc]

set_option maxRecDepth 10000 in
/-- C4 witness: on the spec's example graph with `k = 2`, the answer
exists (it is the cost 2 of edge (1,2), the first edge considered after
two groups remain whose endpoints are still separate), and `k = 0`
raises. -/
theorem C4_witness :
    (gMST.clustering_with_max_spacing 0 = .error .invalidArg) ∧
    ∃ c, gMST.clustering_spec 2 = some c ∧
      gMST.clustering_with_max_spacing 2 = .ok c :=
  ⟨(C4_clustering gMST 0).1 (by decide),
   (C4_clustering gMST 2).2 (by decide) (by decide) (by decide) (by decide)⟩

/-! ### Bellman-Ford: the pure value recurrence `bfD`

`nn` abbreviates the vertex count throughout.  All statements are
parametric in the adjacency selectors, so each applies to the
source-driven (`incident_edges`/`tail`) and destination-driven
(`emissive_edges`/`head`) recurrences alike. -/

section BFMath

variable (g : DGraph) (adj : DVertex → List DirectedEdge)
  (oth : DirectedEdge → Nat) (ep : Nat)

theorem foldl_min_le_init {α : Type} (l : List α) (h : α → BFVal) (i : BFVal) :
    l.foldl (fun acc e => min acc (h e)) i ≤ i := by
  induction l generalizing i with
  | nil => exact le_refl i
  | cons e rest ih => exact (ih (min i (h e))).trans (min_le_left _ _)

theorem foldl_min_le_mem {α : Type} :
    ∀ (l : List α) (h : α → BFVal) (i : BFVal) (e : α), e ∈ l →
    l.foldl (fun acc x => min acc (h x)) i ≤ h e := by
  intro l h
  induction l with
  | nil => intro i e he; simp at he
  | cons x rest ih =>
    intro i e he
    rcases List.mem_cons.1 he with hex | her
    · subst hex
      exact (foldl_min_le_init rest h _).trans (min_le_right _ _)
    · exact ih _ e her

theorem foldl_min_cases {α : Type} (l : List α) (h : α → BFVal) (i : BFVal) :
    l.foldl (fun acc e => min acc (h e)) i = i ∨
      ∃ e ∈ l, l.foldl (fun acc e => min acc (h e)) i = h e := by
  induction l generalizing i with
  | nil => exact Or.inl rfl
  | cons x rest ih =>
    rcases ih (min i (h x)) with h1 | ⟨e, he, h1⟩
    · simp only [List.foldl_cons]
      rcases min_cases i (h x) with ⟨hm, _⟩ | ⟨hm, _⟩
      · exact Or.inl (h1.trans hm)
      · exact Or.inr ⟨x, List.mem_cons_self x rest, h1.trans hm⟩
    · exact Or.inr ⟨e, List.mem_cons_of_mem x he, h1⟩

theorem bfD_succ (b v : Nat) :
    bfD g adj oth ep (b + 1) v = relaxPure g adj oth (bfD g adj oth ep b) v := rfl

theorem bfD_mono (b v : Nat) :
    bfD g adj oth ep (b + 1) v ≤ bfD g adj oth ep b v :=
  foldl_min_le_init _ _ _

theorem bfD_mono_le {b b' : Nat} (h : b ≤ b') (v : Nat) :
    bfD g adj oth ep b' v ≤ bfD g adj oth ep b v := by
  induction b' with
  | zero =>
    have : b = 0 := Nat.le_zero.1 h
    subst this; exact le_refl _
  | succ b2 ih =>
    rcases Nat.lt_or_ge b (b2 + 1) with h1 | h1
    · exact (bfD_mono g adj oth ep b2 v).trans (ih (Nat.lt_succ_iff.1 h1))
    · have : b = b2 + 1 := le_antisymm h h1
      subst this; exact le_refl _

theorem relaxPure_le_cand (f : Nat → BFVal) {v : Nat} {e : DirectedEdge}
    (he : e ∈ adjOf g adj v) :
    relaxPure g adj oth f v ≤ f (oth e) + (e.length : BFVal) :=
  foldl_min_le_mem _ _ _ e he

/-- Every walk with at most `b` edges bounds the level-`b` value. -/
theorem bfD_le_walk : ∀ {es : List DirectedEdge} {v : Nat} {b : Nat},
    AWalk g adj oth v es ep → es.length ≤ b →
    bfD g adj oth ep b v ≤ ((wlen es : ℤ) : BFVal) := by
  intro es
  induction es with
  | nil =>
    intro v b hw _
    cases hw
    have h0 : bfD g adj oth ep 0 ep = 0 := by simp [bfD]
    have := bfD_mono_le g adj oth ep (Nat.zero_le b) ep
    rw [h0] at this
    simpa [wlen] using this
  | cons e rest ih =>
    intro v b hw hlen
    cases hw with
    | cons he hw2 =>
      match b, hlen with
      | b2 + 1, hlen =>
        have h1 : bfD g adj oth ep (b2 + 1) v ≤
            bfD g adj oth ep b2 (oth e) + (e.length : BFVal) :=
          relaxPure_le_cand g adj oth (bfD g adj oth ep b2) he
        have h2 : bfD g adj oth ep b2 (oth e) ≤ ((wlen rest : ℤ) : BFVal) :=
          ih hw2 (by simpa using hlen)
        refine h1.trans ?_
        have h3 : bfD g adj oth ep b2 (oth e) + (e.length : BFVal) ≤
            ((wlen rest : ℤ) : BFVal) + (e.length : BFVal) :=
          add_le_add_right h2 _
        have hsum : wlen (e :: rest) = wlen rest + e.length := by
          unfold wlen
          simp only [List.map_cons, List.sum_cons]
          ring
        rw [hsum]
        push_cast
        exact h3

/-- Every finite level value is attained by a walk of that many edges. -/
theorem bfD_attained : ∀ (b : Nat) (v : Nat), bfD g adj oth ep b v ≠ ⊤ →
    ∃ es, AWalk g adj oth v es ep ∧ es.length ≤ b ∧
      ((wlen es : ℤ) : BFVal) = bfD g adj oth ep b v := by
  intro b
  induction b with
  | zero =>
    intro v hne
    by_cases hv : v = ep
    · rw [hv]
      refine ⟨[], AWalk.nil ep, by simp, ?_⟩
      simp [wlen, bfD]
    · exfalso; apply hne; simp [bfD, hv]
  | succ b ih =>
    intro v hne
    rcases foldl_min_cases (adjOf g adj v)
        (fun e => bfD g adj oth ep b (oth e) + (e.length : BFVal))
        (bfD g adj oth ep b v) with h1 | ⟨e, he, h1⟩
    · have h2 : bfD g adj oth ep (b + 1) v = bfD g adj oth ep b v := h1
      rcases ih v (by rw [← h2]; exact hne) with ⟨es, hw, hl, hv⟩
      exact ⟨es, hw, hl.trans (Nat.le_succ b), by rw [hv, h2]⟩
    · have h2 : bfD g adj oth ep (b + 1) v =
          bfD g adj oth ep b (oth e) + (e.length : BFVal) := h1
      have hfin : bfD g adj oth ep b (oth e) ≠ ⊤ := by
        intro hc
        apply hne
        rw [h2, hc]
        exact top_add _
      rcases ih (oth e) hfin with ⟨es, hw, hl, hv⟩
      refine ⟨e :: es, AWalk.cons he hw, by simpa using hl, ?_⟩
      rw [h2, ← hv]
      unfold wlen
      simp only [List.map_cons, List.sum_cons]
      push_cast
      exact add_comm _ _

theorem relaxPure_congr {f h : Nat → BFVal} (hfh : ∀ x, f x = h x) (v : Nat) :
    relaxPure g adj oth f v = relaxPure g adj oth h v := by
  unfold relaxPure
  rw [hfh v]
  congr 1
  funext acc e
  rw [hfh (oth e)]

/-- A level at which nothing changes is a fixpoint forever. -/
theorem bfD_fixpoint {b : Nat}
    (hfix : ∀ v, bfD g adj oth ep (b + 1) v = bfD g adj oth ep b v) :
    ∀ m, b ≤ m → ∀ v, bfD g adj oth ep m v = bfD g adj oth ep b v := by
  intro m
  induction m with
  | zero =>
    intro hm v
    have : b = 0 := Nat.le_zero.1 hm
    subst this; rfl
  | succ m ih =>
    intro hm v
    rcases Nat.lt_or_ge b (m + 1) with h1 | h1
    · have hbm : b ≤ m := Nat.lt_succ_iff.1 h1
      calc bfD g adj oth ep (m + 1) v
          = relaxPure g adj oth (bfD g adj oth ep m) v := rfl
        _ = relaxPure g adj oth (bfD g adj oth ep b) v :=
            relaxPure_congr g adj oth (fun x => ih hbm x) v
        _ = bfD g adj oth ep (b + 1) v := rfl
        _ = bfD g adj oth ep b v := hfix v
    · have : b = m + 1 := le_antisymm hm h1
      subst this; rfl

theorem AWalk.append {v u s : Nat} {es es' : List DirectedEdge}
    (h1 : AWalk g adj oth v es u) (h2 : AWalk g adj oth u es' s) :
    AWalk g adj oth v (es ++ es') s := by
  induction h1 with
  | nil => exact h2
  | cons he _ ih => exact AWalk.cons he (ih h2)

theorem wlen_append (es es' : List DirectedEdge) :
    wlen (es ++ es') = wlen es + wlen es' := by
  unfold wlen
  simp

/-- Pumping a cycle. -/
theorem AWalk.pump {u : Nat} {cyc : List DirectedEdge}
    (hc : AWalk g adj oth u cyc u) :
    ∀ t : Nat, ∃ es, AWalk g adj oth u es u ∧
      es.length = t * cyc.length ∧ wlen es = t * wlen cyc := by
  intro t
  induction t with
  | zero => exact ⟨[], AWalk.nil u, by simp, by simp [wlen]⟩
  | succ t ih =>
    rcases ih with ⟨es, hw, hl, hv⟩
    refine ⟨cyc ++ es, AWalk.append g adj oth hc hw, ?_, ?_⟩
    · simp [hl]
      ring
    · rw [wlen_append, hv]
      push_cast
      ring

end BFMath

section BFDetect

variable (g : DGraph) (adj : DVertex → List DirectedEdge)
  (oth : DirectedEdge → Nat) (ep : Nat) (N : Nat)

/-- If the values are stable from level `N-1` to level `N`, no negative
cycle is connected to the endpoint. -/
theorem bfD_stable_no_negCycle (hN1 : 1 ≤ N)
    (hstab : ∀ v, bfD g adj oth ep N v = bfD g adj oth ep (N - 1) v) :
    ¬ NegCycleVia g adj oth ep := by
  rintro ⟨u, es1, es2, hw1, hw2, hne2, hneg⟩
  have hfix : ∀ m, N - 1 ≤ m → ∀ v,
      bfD g adj oth ep m v = bfD g adj oth ep (N - 1) v := by
    refine bfD_fixpoint g adj oth ep ?_
    intro v
    have : N - 1 + 1 = N := by omega
    rw [this]
    exact hstab v
  have hband : ∀ t : Nat, bfD g adj oth ep (N - 1) u ≤
      (((t : ℤ) * wlen es2 + wlen es1 : ℤ) : BFVal) := by
    intro t
    rcases AWalk.pump g adj oth hw2 t with ⟨esc, hwc, _, hvc⟩
    have hw : AWalk g adj oth u (esc ++ es1) ep :=
      AWalk.append g adj oth hwc hw1
    have h1 : bfD g adj oth ep (max (N - 1) (esc ++ es1).length) u ≤
        ((wlen (esc ++ es1) : ℤ) : BFVal) :=
      bfD_le_walk g adj oth ep hw (le_max_right _ _)
    rw [hfix _ (le_max_left _ _)] at h1
    rw [wlen_append, hvc] at h1
    exact h1
  cases hz : bfD g adj oth ep (N - 1) u with
  | none =>
    have h0 := hband 0
    rw [hz] at h0
    have h1 : ((0 : ℤ) * wlen es2 + wlen es1 : ℤ) = ((⊤ : BFVal) : BFVal) → False := by
      intro hc
      exact absurd hc (by simp)
    exact h1 (by exact_mod_cast top_le_iff.1 h0)
  | some z =>
    set L1 := wlen es1
    set W := wlen es2
    have hW1 : W ≤ -1 := by omega
    set t : Nat := (L1 - z).toNat + 1 with htdef
    have hge : (L1 - z + 1 : ℤ) ≤ (t : ℤ) := by
      rw [htdef]
      push_cast
      have := Int.self_le_toNat (L1 - z)
      omega
    have hb := hband t
    rw [hz] at hb
    have hb2 : z ≤ (t : ℤ) * W + L1 := WithTop.coe_le_coe.1 hb
    have hmul : (t : ℤ) * W ≤ (t : ℤ) * (-1) := by
      refine mul_le_mul_of_nonneg_left hW1 ?_
      positivity
    have : (t : ℤ) * (-1) = -(t : ℤ) := by ring
    rw [this] at hmul
    omega

theorem adjOf_sub {v : Nat} {e : DirectedEdge} (he : e ∈ adjOf g adj v) :
    ∃ w ∈ g.vtx_list, w.vtx_id = v ∧ e ∈ adj w := by
  unfold adjOf at he
  cases hf : g.find_vtx v with
  | none => rw [hf] at he; simp at he
  | some w =>
    rw [hf] at he
    rcases find_vtx_d hf with ⟨h1, h2⟩
    exact ⟨w, h2, h1, by simpa using he⟩

theorem awalk_verts_lt (hbound : ∀ v ∈ g.vtx_list, v.vtx_id < N)
    (hadj : ∀ v ∈ g.vtx_list, ∀ e ∈ adj v, oth e < N) (hepn : ep < N) :
    ∀ {es : List DirectedEdge} {v : Nat},
    AWalk g adj oth v es ep → ∀ x ∈ v :: es.map oth, x < N := by
  intro es
  induction es with
  | nil =>
    intro v hw x hx
    cases hw
    have : x = ep := by simpa using hx
    rw [this]; exact hepn
  | cons e rest ih =>
    intro v hw x hx
    cases hw with
    | cons he hw2 =>
      rcases List.mem_cons.1 hx with hxv | hxr
      · subst hxv
        rcases adjOf_sub g adj he with ⟨w, hwm, hwid, _⟩
        rw [← hwid]
        exact hbound w hwm
      · exact ih hw2 x (by simpa using hxr)

theorem awalk_reach_again : ∀ {es : List DirectedEdge} {v s u : Nat},
    AWalk g adj oth v es s → u ∈ v :: es.map oth →
    ∃ es1 es2, es = es1 ++ es2 ∧ AWalk g adj oth v es1 u ∧
      AWalk g adj oth u es2 s := by
  intro es
  induction es with
  | nil =>
    intro v s u hw hu
    have : u = v := by simpa using hu
    subst this
    exact ⟨[], [], rfl, AWalk.nil u, hw⟩
  | cons e rest ih =>
    intro v s u hw hu
    cases hw with
    | cons he hw2 =>
      rcases List.mem_cons.1 hu with huv | hur
      · subst huv
        exact ⟨[], e :: rest, rfl, AWalk.nil u, AWalk.cons he hw2⟩
      · have hur2 : u ∈ oth e :: rest.map oth := by simpa using hur
        rcases ih hw2 hur2 with ⟨f1, f2, hsplit, hw3, hw4⟩
        exact ⟨e :: f1, f2, by rw [hsplit]; rfl, AWalk.cons he hw3, hw4⟩

theorem awalk_split_dup : ∀ {es : List DirectedEdge} {v s : Nat},
    AWalk g adj oth v es s → ¬ (v :: es.map oth).Nodup →
    ∃ es1 es2 es3 u, es = es1 ++ es2 ++ es3 ∧ AWalk g adj oth v es1 u ∧
      AWalk g adj oth u es2 u ∧ es2 ≠ [] ∧ AWalk g adj oth u es3 s := by
  intro es
  induction es with
  | nil =>
    intro v s hw hnd
    exfalso; exact hnd (by simp)
  | cons e rest ih =>
    intro v s hw hnd
    cases hw with
    | cons he hw2 =>
      by_cases hv : v ∈ oth e :: rest.map oth
      · rcases awalk_reach_again g adj oth hw2 hv with ⟨f1, f2, hsplit, hw3, hw4⟩
        refine ⟨[], e :: f1, f2, v, by rw [hsplit]; rfl, AWalk.nil v,
          AWalk.cons he hw3, by simp, hw4⟩
      · have hnd2 : ¬ (oth e :: rest.map oth).Nodup := by
          intro hc
          exact hnd (by simpa using List.nodup_cons.2 ⟨by simpa using hv, hc⟩)
        rcases ih hw2 hnd2 with ⟨f1, f2, f3, u, hsplit, hw3, hw4, hne2, hw5⟩
        refine ⟨e :: f1, f2, f3, u, by rw [hsplit]; simp, AWalk.cons he hw3,
          hw4, hne2, hw5⟩

theorem awalk_pigeon (hbound : ∀ v ∈ g.vtx_list, v.vtx_id < N)
    (hadj : ∀ v ∈ g.vtx_list, ∀ e ∈ adj v, oth e < N) (hepn : ep < N)
    {es : List DirectedEdge} {v : Nat}
    (hw : AWalk g adj oth v es ep) (hlen : N ≤ es.length) :
    ¬ (v :: es.map oth).Nodup := by
  intro hnd
  have hsub : (v :: es.map oth) ⊆ List.range N := by
    intro x hx
    rw [List.mem_range]
    exact awalk_verts_lt g adj oth ep N hbound hadj hepn hw x hx
  have := (List.subperm_of_subset hnd hsub).length_le
  simp at this
  omega

theorem awalk_reduce (hbound : ∀ v ∈ g.vtx_list, v.vtx_id < N)
    (hadj : ∀ v ∈ g.vtx_list, ∀ e ∈ adj v, oth e < N) (hepn : ep < N)
    (hnoneg : ¬ NegCycleVia g adj oth ep)
    {es : List DirectedEdge} {v : Nat} (hw : AWalk g adj oth v es ep)
    (hlen : N ≤ es.length) :
    ∃ es', AWalk g adj oth v es' ep ∧ es'.length < es.length ∧
      wlen es' ≤ wlen es := by
  rcases awalk_split_dup g adj oth hw
      (awalk_pigeon g adj oth ep N hbound hadj hepn hw hlen) with
    ⟨es1, es2, es3, u, hsplit, hw1, hw2, hne2, hw3⟩
  have hnonneg : 0 ≤ wlen es2 := by
    by_contra hc
    exact hnoneg ⟨u, es3, es2, hw3, hw2, hne2, by omega⟩
  refine ⟨es1 ++ es3, AWalk.append g adj oth hw1 hw3, ?_, ?_⟩
  · rw [hsplit]
    have : 0 < es2.length := List.length_pos.2 hne2
    simp
    omega
  · rw [hsplit, wlen_append, wlen_append, wlen_append]
    omega

theorem awalk_bound (hbound : ∀ v ∈ g.vtx_list, v.vtx_id < N)
    (hadj : ∀ v ∈ g.vtx_list, ∀ e ∈ adj v, oth e < N) (hepn : ep < N)
    (hnoneg : ¬ NegCycleVia g adj oth ep) :
    ∀ (L : Nat) (es : List DirectedEdge) (v : Nat), es.length ≤ L →
    AWalk g adj oth v es ep →
    bfD g adj oth ep (N - 1) v ≤ ((wlen es : ℤ) : BFVal) := by
  intro L
  induction L with
  | zero =>
    intro es v hl hw
    exact bfD_le_walk g adj oth ep hw (by omega)
  | succ L ih =>
    intro es v hl hw
    by_cases hsmall : es.length ≤ N - 1
    · exact bfD_le_walk g adj oth ep hw hsmall
    · have hlen : N ≤ es.length := by omega
      rcases awalk_reduce g adj oth ep N hbound hadj hepn hnoneg hw hlen with
        ⟨es', hw', hl', hv'⟩
      have h1 := ih es' v (by omega) hw'
      refine h1.trans ?_
      exact_mod_cast hv'

/-- Without a connected negative cycle the values are stable from level
`N-1` to level `N`. -/
theorem no_negCycle_stable (hbound : ∀ v ∈ g.vtx_list, v.vtx_id < N)
    (hadj : ∀ v ∈ g.vtx_list, ∀ e ∈ adj v, oth e < N) (hepn : ep < N)
    (hN1 : 1 ≤ N)
    (hnoneg : ¬ NegCycleVia g adj oth ep) :
    ∀ v, bfD g adj oth ep N v = bfD g adj oth ep (N - 1) v := by
  intro v
  refine le_antisymm (bfD_mono_le g adj oth ep (by omega) v) ?_
  by_contra hc
  push_neg at hc
  have hlt : bfD g adj oth ep N v < bfD g adj oth ep (N - 1) v := hc
  have hne : bfD g adj oth ep N v ≠ ⊤ :=
    ne_top_of_lt (hlt.trans_le le_top)
  rcases bfD_attained g adj oth ep N v hne with ⟨es, hw, hl, hv⟩
  have := awalk_bound g adj oth ep N hbound hadj hepn hnoneg es.length es v
    (le_refl _) hw
  rw [hv] at this
  exact absurd (this.trans_lt hlt) (lt_irrefl _)

/-- A vertex whose value strictly improves has a nonempty adjacency list
and is hence a listed vertex. -/
theorem bfD_strict_listed {b v : Nat}
    (h : bfD g adj oth ep (b + 1) v < bfD g adj oth ep b v) :
    ∃ w ∈ g.vtx_list, w.vtx_id = v := by
  by_cases hf : (g.find_vtx v).isSome
  · obtain ⟨w, hw⟩ := Option.isSome_iff_exists.1 hf
    rcases find_vtx_d hw with ⟨h1, h2⟩
    exact ⟨w, h2, h1⟩
  · exfalso
    have hempty : adjOf g adj v = [] := by
      unfold adjOf
      cases hfv : g.find_vtx v with
      | none => rfl
      | some w => rw [hfv] at hf; simp at hf
    have : bfD g adj oth ep (b + 1) v = bfD g adj oth ep b v := by
      show relaxPure g adj oth _ v = _
      unfold relaxPure
      rw [hempty]
      rfl
    rw [this] at h
    exact lt_irrefl _ h

end BFDetect

section BFBridge

/-! ## Bridge: the embedded monadic code computes the pure recurrence

Under the wellformedness the DP indexing scheme needs (distinct vertex
ids below the vertex count, every stored edge endpoint likewise) each
table access succeeds and the tables hold exactly the `bfD` values. -/

theorem get?_set_self {α : Type} (l : List α) (i : Nat) (x : α)
    (h : i < l.length) : (l.set i x).get? i = some x := by
  simp [List.get?_eq_getElem?, List.getElem?_set, h]

theorem get?_set_other {α : Type} (l : List α) {i i' : Nat} (x : α)
    (h : i ≠ i') : (l.set i x).get? i' = l.get? i' := by
  simp [List.get?_eq_getElem?, List.getElem?_set, h]

theorem idx_congr {α : Type} {l l' : List α} {i i' : Nat}
    (h : l.get? i = l'.get? i') : idx l i = idx l' i' := by
  unfold idx
  rw [h]

theorem idx_ok_of_get? {α : Type} {l : List α} {i : Nat} {a : α}
    (h : l.get? i = some a) : idx l i = .ok a := idx_ok_iff.2 h

theorem idx2_congr_row {t t' : List (List BFVal)} {i : Nat} (j : Nat)
    (h : t.get? i = t'.get? i) : idx2 t i j = idx2 t' i j := by
  unfold idx2
  rw [idx_congr h]

theorem idx2_ok_of_get? {t : List (List BFVal)} {i j : Nat}
    {r : List BFVal} {a : BFVal} (hr : t.get? i = some r)
    (ha : r.get? j = some a) : idx2 t i j = .ok a := by
  unfold idx2
  rw [idx_ok_of_get? hr, ok_bind]
  exact idx_ok_of_get? ha

theorem get?_lt_length {α : Type} {l : List α} {i : Nat} {a : α}
    (h : l.get? i = some a) : i < l.length := by
  rcases List.get?_eq_some.1 h with ⟨hh, _⟩
  exact hh

theorem setIdx2_ok_char {t : List (List BFVal)} {i j : Nat} {x : BFVal}
    {r : List BFVal} (hr : t.get? i = some r) (hj : j < r.length) :
    setIdx2 t i j x = .ok (t.set i (r.set j x)) := by
  unfold setIdx2
  rw [idx_ok_of_get? hr, ok_bind]
  rw [(setIdx_ok_iff.2 ⟨hj, rfl⟩ : setIdx r j x = .ok (r.set j x)), ok_bind]
  exact setIdx_ok_iff.2 ⟨get?_lt_length hr, rfl⟩

theorem idx2_set2_same {t : List (List BFVal)} {i j : Nat} {x : BFVal}
    {r : List BFVal} (hr : t.get? i = some r) (hj : j < r.length) :
    idx2 (t.set i (r.set j x)) i j = .ok x :=
  idx2_ok_of_get? (get?_set_self t i (r.set j x) (get?_lt_length hr))
    (get?_set_self r j x hj)

theorem idx2_set2_other {t : List (List BFVal)} {i j : Nat} {x : BFVal}
    {r : List BFVal} (hr : t.get? i = some r) {i' j' : Nat}
    (hne : i' ≠ i ∨ j' ≠ j) :
    idx2 (t.set i (r.set j x)) i' j' = idx2 t i' j' := by
  by_cases hii : i' = i
  · subst hii
    rcases hne with h | h
    · exact absurd rfl h
    · unfold idx2
      rw [idx_ok_of_get? (get?_set_self t i' (r.set j x) (get?_lt_length hr)),
        ok_bind, idx_ok_of_get? hr, ok_bind]
      exact idx_congr (get?_set_other r x (fun hc => h hc.symm))
  · exact idx2_congr_row j'
      (get?_set_other t (r.set j x) (fun hc => hii hc.symm))

theorem tdims_set (t : List (List BFVal)) {n : Nat} (ht : TDims t n)
    {i : Nat} {r : List BFVal} (hr : t.get? i = some r) (j : Nat)
    (x : BFVal) : TDims (t.set i (r.set j x)) n := by
  constructor
  · simp [ht.1]
  · intro r2 hr2
    rcases List.mem_or_eq_of_mem_set hr2 with h | h
    · exact ht.2 r2 h
    · subst h
      simp [ht.2 r (List.get?_mem hr)]

theorem idx2_total {t : List (List BFVal)} {n : Nat} (ht : TDims t n)
    {i j : Nat} (hi : i < n) (hj : j < n) :
    ∃ r a, t.get? i = some r ∧ r.get? j = some a ∧ idx2 t i j = .ok a := by
  have hi' : i < t.length := by rw [ht.1]; exact hi
  cases hg : t.get? i with
  | none => rw [List.get?_eq_none] at hg; omega
  | some r =>
    have hj' : j < r.length := by
      rw [ht.2 r (List.get?_mem hg)]
      exact hj
    cases hg2 : r.get? j with
    | none => rw [List.get?_eq_none] at hg2; omega
    | some a => exact ⟨r, a, rfl, hg2, idx2_ok_of_get? hg hg2⟩

theorem idx2_replicate {n i j : Nat} (hi : i < n) (hj : j < n) :
    idx2 (List.replicate n (List.replicate n (0 : BFVal))) i j = .ok 0 := by
  have h1 : (List.replicate n (List.replicate n (0 : BFVal))).get? i =
      some (List.replicate n (0 : BFVal)) := by
    simp [List.get?_eq_getElem?, List.getElem?_replicate, hi]
  have h2 : (List.replicate n (0 : BFVal)).get? j = some (0 : BFVal) := by
    simp [List.get?_eq_getElem?, List.getElem?_replicate, hj]
  exact idx2_ok_of_get? h1 h2

/-- With distinct ids, lookup of a listed vertex's id returns that very
vertex. -/
theorem find_vtx_self {g : DGraph}
    (hnd : (g.vtx_list.map DVertex.vtx_id).Nodup) {v : DVertex}
    (hv : v ∈ g.vtx_list) : g.find_vtx v.vtx_id = some v := by
  cases hf : g.find_vtx v.vtx_id with
  | none =>
    unfold DGraph.find_vtx at hf
    rw [List.find?_eq_none] at hf
    exact absurd (by simp) (hf v hv)
  | some w =>
    rcases find_vtx_d hf with ⟨hid, hmem⟩
    have : w = v := List.inj_on_of_nodup_map hnd hmem hv (by rw [hid])
    rw [this]

theorem adjOf_self {g : DGraph} (adj : DVertex → List DirectedEdge)
    (hnd : (g.vtx_list.map DVertex.vtx_id).Nodup) {v : DVertex}
    (hv : v ∈ g.vtx_list) : adjOf g adj v.vtx_id = adj v := by
  unfold adjOf
  rw [find_vtx_self hnd hv]
  rfl

theorem adjOf_unlisted {g : DGraph} (adj : DVertex → List DirectedEdge)
    {i : Nat} (hf : g.find_vtx i = none) : adjOf g adj i = [] := by
  unfold adjOf
  rw [hf]
  rfl

/-- An id without a vertex object is a fixpoint of the recurrence at
every level. -/
theorem bfD_unlisted_stable (g : DGraph) (adj : DVertex → List DirectedEdge)
    (oth : DirectedEdge → Nat) (ep : Nat) {i : Nat}
    (hf : g.find_vtx i = none) (b : Nat) :
    bfD g adj oth ep (b + 1) i = bfD g adj oth ep b i := by
  rw [bfD_succ g adj oth ep b i]
  unfold relaxPure
  rw [adjOf_unlisted adj hf]
  rfl

/-- Distinct bounded ids over a list of that very length enumerate all of
`0 .. n-1`. -/
theorem ids_surj {g : DGraph}
    (hnd : (g.vtx_list.map DVertex.vtx_id).Nodup)
    (hbound : ∀ v ∈ g.vtx_list, v.vtx_id < g.vtx_list.length) :
    ∀ i < g.vtx_list.length, ∃ v ∈ g.vtx_list, v.vtx_id = i := by
  intro i hi
  have hsub : (g.vtx_list.map DVertex.vtx_id).toFinset ⊆
      Finset.range g.vtx_list.length := by
    intro x hx
    rw [Finset.mem_range]
    rw [List.mem_toFinset] at hx
    rcases List.mem_map.1 hx with ⟨v, hv, hvx⟩
    rw [← hvx]
    exact hbound v hv
  have hcard : (Finset.range g.vtx_list.length).card ≤
      (g.vtx_list.map DVertex.vtx_id).toFinset.card := by
    rw [Finset.card_range, List.toFinset_card_of_nodup hnd]
    simp
  have heq := Finset.eq_of_subset_of_card_le hsub hcard
  have hmem : i ∈ (g.vtx_list.map DVertex.vtx_id).toFinset := by
    rw [heq, Finset.mem_range]
    exact hi
  rw [List.mem_toFinset] at hmem
  rcases List.mem_map.1 hmem with ⟨v, hv, hvx⟩
  exact ⟨v, hv, hvx⟩

/-- When every read of the previous column succeeds with the values of
`f`, the inner edge scan computes the running minimum purely. -/
theorem relaxGo_pure (oth : DirectedEdge → Nat) (t : List (List BFVal))
    (b1 : Nat) (f : Nat → BFVal) :
    ∀ (es : List DirectedEdge) (acc : BFVal),
    (∀ e ∈ es, idx2 t (oth e) b1 = .ok (f (oth e))) →
    relaxGo oth t b1 acc es =
      .ok (es.foldl (fun a e => min a (f (oth e) + (e.length : BFVal))) acc) := by
  intro es
  induction es with
  | nil => intro acc _; rfl
  | cons e rest ih =>
    intro acc hread
    unfold relaxGo
    rw [hread e (List.mem_cons_self e rest), ok_bind]
    exact ih _ (fun e2 he2 => hread e2 (List.mem_cons_of_mem e he2))

/-- The extra-pass edge scan computes the running minimum purely and sets
the flag exactly when the final minimum strictly beats the start. -/
theorem extraVGo_pure (oth : DirectedEdge → Nat) (t : List (List BFVal))
    (n1 : Nat) (f : Nat → BFVal) :
    ∀ (es : List DirectedEdge) (acc : BFVal) (flag : Bool),
    (∀ e ∈ es, idx2 t (oth e) n1 = .ok (f (oth e))) →
    extraVGo oth t n1 acc flag es =
      .ok (es.foldl (fun a e => min a (f (oth e) + (e.length : BFVal))) acc,
        flag ||
          decide (es.foldl (fun a e => min a (f (oth e) + (e.length : BFVal)))
            acc < acc)) := by
  intro es
  induction es with
  | nil =>
    intro acc flag _
    simp [extraVGo]
  | cons e rest ih =>
    intro acc flag hread
    unfold extraVGo
    rw [hread e (List.mem_cons_self e rest), ok_bind]
    by_cases h : f (oth e) + (e.length : BFVal) < acc
    · rw [if_pos h,
        ih _ _ (fun e2 he2 => hread e2 (List.mem_cons_of_mem e he2))]
      have hmin : min acc (f (oth e) + (e.length : BFVal)) =
          f (oth e) + (e.length : BFVal) := min_eq_right (le_of_lt h)
      have hle := foldl_min_le_init rest
        (fun e => f (oth e) + (e.length : BFVal))
        (f (oth e) + (e.length : BFVal))
      have hlt : rest.foldl (fun a e => min a (f (oth e) + (e.length : BFVal)))
          (f (oth e) + (e.length : BFVal)) < acc := lt_of_le_of_lt hle h
      simp only [List.foldl_cons, hmin]
      rw [decide_eq_true hlt, Bool.or_true, Bool.true_or]
    · rw [if_neg h,
        ih _ _ (fun e2 he2 => hread e2 (List.mem_cons_of_mem e he2))]
      have hmin : min acc (f (oth e) + (e.length : BFVal)) = acc :=
        min_eq_left (le_of_not_lt h)
      simp only [List.foldl_cons, hmin]

/-- The extra pass returns its flag OR-ed with "some listed vertex's value
strictly improves under one more relaxation". -/
theorem extraGo_pure (g : DGraph) (adj : DVertex → List DirectedEdge)
    (oth : DirectedEdge → Nat) (t : List (List BFVal)) (n1 : Nat)
    (f : Nat → BFVal)
    (hnd : (g.vtx_list.map DVertex.vtx_id).Nodup) :
    ∀ (vs : List DVertex) (flag : Bool),
    (∀ v ∈ vs, v ∈ g.vtx_list) →
    (∀ v ∈ vs, idx2 t v.vtx_id n1 = .ok (f v.vtx_id)) →
    (∀ v ∈ vs, ∀ e ∈ adj v, idx2 t (oth e) n1 = .ok (f (oth e))) →
    extraGo adj oth t n1 flag vs =
      .ok (flag || vs.any
        (fun v => decide (relaxPure g adj oth f v.vtx_id < f v.vtx_id))) := by
  intro vs
  induction vs with
  | nil =>
    intro flag _ _ _
    simp [extraGo]
  | cons v rest ih =>
    intro flag hsub hinit hreads
    unfold extraGo
    rw [hinit v (List.mem_cons_self v rest), ok_bind]
    rw [extraVGo_pure oth t n1 f (adj v) (f v.vtx_id) flag
      (hreads v (List.mem_cons_self v rest)), ok_bind]
    have hrelax : (adj v).foldl
        (fun a e => min a (f (oth e) + (e.length : BFVal))) (f v.vtx_id) =
        relaxPure g adj oth f v.vtx_id := by
      unfold relaxPure
      rw [adjOf_self adj hnd (hsub v (List.mem_cons_self v rest))]
    dsimp only
    rw [ih _ (fun w hw => hsub w (List.mem_cons_of_mem v hw))
      (fun w hw => hinit w (List.mem_cons_of_mem v hw))
      (fun w hw => hreads w (List.mem_cons_of_mem v hw))]
    rw [hrelax, List.any_cons, Bool.or_assoc]

/-- The column-0 initialization succeeds on bounded ids and leaves exactly
the base case of the recurrence in column 0. -/
theorem bfInitGo_bridge {n : Nat} (ep : Nat) :
    ∀ (vs : List DVertex) (t : List (List BFVal)),
    TDims t n →
    (∀ v ∈ vs, v.vtx_id < n) →
    ∃ t1, bfInitGo ep vs t = .ok t1 ∧ TDims t1 n ∧
      (∀ v ∈ vs, v.vtx_id ≠ ep → idx2 t1 v.vtx_id 0 = .ok ⊤) ∧
      (∀ i j, (j ≠ 0 ∨ ∀ v ∈ vs, v.vtx_id = i → v.vtx_id = ep) →
        idx2 t1 i j = idx2 t i j) := by
  intro vs
  induction vs with
  | nil =>
    intro t ht _
    exact ⟨t, rfl, ht, by simp, fun i j _ => rfl⟩
  | cons v rest ih =>
    intro t ht hlt
    unfold bfInitGo
    by_cases hv : v.vtx_id = ep
    · simp only [if_pos hv]
      rcases ih t ht (fun w hw => hlt w (List.mem_cons_of_mem v hw)) with
        ⟨t1, h1, ht1, htop, hkeep⟩
      refine ⟨t1, h1, ht1, ?_, ?_⟩
      · intro w hw hwne
        rcases List.mem_cons.1 hw with h | h
        · rw [h] at hwne; exact absurd hv hwne
        · exact htop w h hwne
      · intro i j hcond
        refine hkeep i j ?_
        rcases hcond with h | h
        · exact Or.inl h
        · exact Or.inr (fun w hw => h w (List.mem_cons_of_mem v hw))
    · simp only [if_neg hv]
      have hvn : v.vtx_id < n := hlt v (List.mem_cons_self v rest)
      obtain ⟨r, hr⟩ : ∃ r, t.get? v.vtx_id = some r := by
        cases hg : t.get? v.vtx_id with
        | none =>
          rw [List.get?_eq_none] at hg
          rw [ht.1] at hg
          omega
        | some r => exact ⟨r, rfl⟩
      have hr0 : 0 < r.length := by
        rw [ht.2 r (List.get?_mem hr)]
        omega
      rw [setIdx2_ok_char hr hr0, ok_bind]
      rcases ih (t.set v.vtx_id (r.set 0 ⊤)) (tdims_set t ht hr 0 ⊤)
        (fun w hw => hlt w (List.mem_cons_of_mem v hw)) with
        ⟨t1, h1, ht1, htop, hkeep⟩
      refine ⟨t1, h1, ht1, ?_, ?_⟩
      · intro w hw hwne
        rcases List.mem_cons.1 hw with h | h
        · rw [h]
          by_cases hc : ∀ u ∈ rest, u.vtx_id = v.vtx_id → u.vtx_id = ep
          · rw [hkeep v.vtx_id 0 (Or.inr hc)]
            exact idx2_set2_same hr hr0
          · push_neg at hc
            rcases hc with ⟨u, hu, hueq, hune⟩
            rw [← hueq]
            exact htop u hu hune
        · exact htop w h hwne
      · intro i j hcond
        have hrest : j ≠ 0 ∨ ∀ u ∈ rest, u.vtx_id = i → u.vtx_id = ep := by
          rcases hcond with h | h
          · exact Or.inl h
          · exact Or.inr (fun u hu => h u (List.mem_cons_of_mem v hu))
        rw [hkeep i j hrest]
        refine idx2_set2_other hr ?_
        rcases hcond with h | h
        · exact Or.inr h
        · by_cases hii : i = v.vtx_id
          · exact absurd (h v (List.mem_cons_self v rest) (by rw [hii])) hv
          · exact Or.inl hii

/-- One budget pass succeeds on a wellformed graph and fills column `b`
with one relaxation of the values `f` read off column `b - 1`; no other
column changes. -/
theorem budgetPassGo_bridge (g : DGraph) (adj : DVertex → List DirectedEdge)
    (oth : DirectedEdge → Nat) {n : Nat} (b : Nat) (f : Nat → BFVal)
    (hnd : (g.vtx_list.map DVertex.vtx_id).Nodup)
    (hadj : AdjBounded g adj oth)
    (hn : g.vtx_list.length = n)
    (hb1 : 1 ≤ b) (hbn : b < n) :
    ∀ (vs : List DVertex) (t : List (List BFVal)),
    TDims t n →
    (∀ v ∈ vs, v ∈ g.vtx_list) →
    (vs.map DVertex.vtx_id).Nodup →
    (∀ v ∈ vs, v.vtx_id < n) →
    (∀ i < n, idx2 t i (b - 1) = .ok (f i)) →
    ∃ t2, budgetPassGo adj oth b vs t = .ok t2 ∧ TDims t2 n ∧
      (∀ i j, j ≠ b → idx2 t2 i j = idx2 t i j) ∧
      (∀ v ∈ vs, idx2 t2 v.vtx_id b = .ok (relaxPure g adj oth f v.vtx_id)) ∧
      (∀ i, (∀ v ∈ vs, v.vtx_id ≠ i) → idx2 t2 i b = idx2 t i b) := by
  intro vs
  induction vs with
  | nil =>
    intro t ht _ _ _ _
    exact ⟨t, rfl, ht, fun i j _ => rfl, by simp, fun i _ => rfl⟩
  | cons v rest ih =>
    intro t ht hsub hvnd hvlt hreads
    unfold budgetPassGo
    have hvg : v ∈ g.vtx_list := hsub v (List.mem_cons_self v rest)
    have hvn : v.vtx_id < n := hvlt v (List.mem_cons_self v rest)
    rw [hreads v.vtx_id hvn, ok_bind]
    have hescan : ∀ e ∈ adj v, idx2 t (oth e) (b - 1) = .ok (f (oth e)) := by
      intro e he
      refine hreads (oth e) ?_
      have := hadj v hvg e he
      omega
    rw [relaxGo_pure oth t (b - 1) f (adj v) (f v.vtx_id) hescan, ok_bind]
    have hrelax : (adj v).foldl
        (fun a e => min a (f (oth e) + (e.length : BFVal))) (f v.vtx_id) =
        relaxPure g adj oth f v.vtx_id := by
      unfold relaxPure
      rw [adjOf_self adj hnd hvg]
    rw [hrelax]
    obtain ⟨r, hr⟩ : ∃ r, t.get? v.vtx_id = some r := by
      cases hg : t.get? v.vtx_id with
      | none =>
        rw [List.get?_eq_none] at hg
        rw [ht.1] at hg
        omega
      | some r => exact ⟨r, rfl⟩
    have hrb : b < r.length := by
      rw [ht.2 r (List.get?_mem hr)]
      exact hbn
    rw [setIdx2_ok_char hr hrb, ok_bind]
    have hvnd2 : v.vtx_id ∉ rest.map DVertex.vtx_id ∧
        (rest.map DVertex.vtx_id).Nodup := by
      rw [List.map_cons, List.nodup_cons] at hvnd
      exact hvnd
    have hreads2 : ∀ i < n,
        idx2 (t.set v.vtx_id (r.set b (relaxPure g adj oth f v.vtx_id))) i
          (b - 1) = .ok (f i) := by
      intro i hi
      rw [idx2_set2_other hr (Or.inr (by omega))]
      exact hreads i hi
    rcases ih (t.set v.vtx_id (r.set b (relaxPure g adj oth f v.vtx_id)))
      (tdims_set t ht hr b _)
      (fun w hw => hsub w (List.mem_cons_of_mem v hw)) hvnd2.2
      (fun w hw => hvlt w (List.mem_cons_of_mem v hw)) hreads2 with
      ⟨t2, h2, ht2, hother, hwritten, huntouched⟩
    refine ⟨t2, h2, ht2, ?_, ?_, ?_⟩
    · intro i j hj
      rw [hother i j hj]
      exact idx2_set2_other hr (Or.inr hj)
    · intro w hw
      rcases List.mem_cons.1 hw with h | h
      · rw [h]
        have hnone : ∀ u ∈ rest, u.vtx_id ≠ v.vtx_id := by
          intro u hu hc
          exact hvnd2.1 (hc ▸ List.mem_map_of_mem DVertex.vtx_id hu)
        rw [huntouched v.vtx_id hnone]
        exact idx2_set2_same hr hrb
      · exact hwritten w h
    · intro i hni
      rw [huntouched i (fun u hu => hni u (List.mem_cons_of_mem v hu))]
      exact idx2_set2_other hr
        (Or.inl (fun hc => (hni v (List.mem_cons_self v rest)) hc.symm))

theorem range_map_add_one (m : Nat) :
    (List.range m).map (· + 1) = List.range' 1 m := by
  rw [List.range'_eq_map_range]
  exact List.map_congr_left (fun a _ => Nat.add_comm a 1)

/-- The outer budget loop fills every column `b ≤ n - 1` with `bfD b`. -/
theorem bfBudgets_bridge (g : DGraph) (adj : DVertex → List DirectedEdge)
    (oth : DirectedEdge → Nat) (ep : Nat) {n : Nat}
    (hnd : (g.vtx_list.map DVertex.vtx_id).Nodup)
    (hbound : ∀ v ∈ g.vtx_list, v.vtx_id < g.vtx_list.length)
    (hadj : AdjBounded g adj oth)
    (hn : g.vtx_list.length = n) :
    ∀ (k s : Nat) (t : List (List BFVal)),
    s + k = n - 1 →
    TDims t n →
    (∀ b ≤ s, ∀ i < n, idx2 t i b = .ok (bfD g adj oth ep b i)) →
    ∃ t2, bfBudgets adj oth (List.range' (s + 1) k) g.vtx_list t = .ok t2 ∧
      TDims t2 n ∧
      ∀ b ≤ n - 1, ∀ i < n, idx2 t2 i b = .ok (bfD g adj oth ep b i) := by
  intro k
  induction k with
  | zero =>
    intro s t hs ht hcols
    refine ⟨t, rfl, ht, ?_⟩
    intro b hb i hi
    exact hcols b (by omega) i hi
  | succ k ihk =>
    intro s t hs ht hcols
    rw [List.range'_succ (s + 1) k 1]
    unfold bfBudgets
    rcases budgetPassGo_bridge g adj oth (s + 1) (bfD g adj oth ep s) hnd hadj
      hn (by omega) (by omega) g.vtx_list t ht (fun v hv => hv) hnd
      (fun v hv => by rw [← hn]; exact hbound v hv)
      (fun i hi => hcols s (le_refl s) i hi) with
      ⟨t2, h2, ht2, hother, hwritten, _⟩
    rw [h2, ok_bind]
    have hcols2 : ∀ b ≤ s + 1, ∀ i < n,
        idx2 t2 i b = .ok (bfD g adj oth ep b i) := by
      intro b hb i hi
      by_cases hbs : b = s + 1
      · rw [hbs]
        rcases ids_surj hnd hbound i (by rw [hn]; exact hi) with ⟨v, hv, hvi⟩
        rw [← hvi, hwritten v hv, bfD_succ g adj oth ep s v.vtx_id]
      · rw [hother i b hbs]
        exact hcols b (by omega) i hi
    exact ihk (s + 1) t2 (by omega) ht2 hcols2

theorem reconScan_cases (oth : DirectedEdge → Nat) (t : List (List BFVal))
    (b1 : Nat) :
    ∀ (es : List DirectedEdge) (prev : Nat) (acc : BFVal),
    (∃ r, reconScan oth t b1 prev acc es = .ok r) ∨
      reconScan oth t b1 prev acc es = .error .indexError := by
  intro es
  induction es with
  | nil =>
    intro prev acc
    exact Or.inl ⟨(prev, acc), rfl⟩
  | cons e rest ih =>
    intro prev acc
    unfold reconScan idx2
    rcases idx_cases t (oth e) with ⟨row, hrow⟩ | hrow
    · rw [hrow, ok_bind]
      rcases idx_cases row b1 with ⟨a, ha⟩ | ha
      · rw [ha, ok_bind]
        split
        · exact ih _ _
        · exact ih _ _
      · rw [ha, error_bind]
        exact Or.inr rfl
    · rw [hrow, error_bind]
      exact Or.inr rfl

theorem reconOne_cases (g : DGraph) (adj : DVertex → List DirectedEdge)
    (oth : DirectedEdge → Nat) (atFront : Bool) (t : List (List BFVal)) :
    ∀ (fuel : Nat) (path : List Nat) (curr : Nat),
    (∃ r, reconOne g adj oth atFront t path curr fuel = .ok r) ∨
      reconOne g adj oth atFront t path curr fuel = .error .indexError := by
  intro fuel
  induction fuel with
  | zero =>
    intro path curr
    exact Or.inl ⟨(path, curr), rfl⟩
  | succ b ih =>
    intro path curr
    unfold reconOne idx2
    rcases idx_cases t curr with ⟨row, hrow⟩ | hrow
    · rw [hrow, ok_bind]
      rcases idx_cases row b with ⟨a, ha⟩ | ha
      · rw [ha, ok_bind]
        rcases reconScan_cases oth t b (adjOf g adj curr) curr a with
          ⟨r, hr⟩ | hr
        · rw [hr, ok_bind]
          exact ih _ _
        · rw [hr, error_bind]
          exact Or.inr rfl
      · rw [ha, error_bind]
        exact Or.inr rfl
    · rw [hrow, error_bind]
      exact Or.inr rfl

theorem reconGo_cases (g : DGraph) (adj : DVertex → List DirectedEdge)
    (oth : DirectedEdge → Nat) (atFront : Bool) (t : List (List BFVal)) :
    ∀ (vs : List DVertex) (acc : List (List Nat)),
    (∃ r, reconGo g adj oth atFront t vs acc = .ok r) ∨
      reconGo g adj oth atFront t vs acc = .error .indexError := by
  intro vs
  induction vs with
  | nil =>
    intro acc
    exact Or.inl ⟨acc, rfl⟩
  | cons v rest ih =>
    intro acc
    unfold reconGo
    rcases reconOne_cases g adj oth atFront t (g.vtx_list.length - 1)
      [v.vtx_id] v.vtx_id with ⟨r, hr⟩ | hr
    · rw [hr, ok_bind]
      exact ih _
    · rw [hr, error_bind]
      exact Or.inr rfl

/-- The extra-pass condition over the exact level-`N` values holds exactly
when a negative cycle is connected to the endpoint. -/
theorem any_strict_iff_negCycle (g : DGraph) (adj : DVertex → List DirectedEdge)
    (oth : DirectedEdge → Nat) (ep : Nat)
    (hnd : (g.vtx_list.map DVertex.vtx_id).Nodup)
    (hbound : ∀ v ∈ g.vtx_list, v.vtx_id < g.vtx_list.length)
    (hadj : AdjBounded g adj oth)
    (hepn : ep < g.vtx_list.length) (N : Nat)
    (hN : g.vtx_list.length = N + 1) :
    (g.vtx_list.any (fun v =>
        decide (relaxPure g adj oth (bfD g adj oth ep N) v.vtx_id <
          bfD g adj oth ep N v.vtx_id)) = true) ↔
      NegCycleVia g adj oth ep := by
  have hbound2 : ∀ v ∈ g.vtx_list, v.vtx_id < N + 1 := by
    intro v hv
    rw [← hN]
    exact hbound v hv
  have hadj2 : ∀ v ∈ g.vtx_list, ∀ e ∈ adj v, oth e < N + 1 := by
    intro v hv e he
    rw [← hN]
    exact hadj v hv e he
  have hepn2 : ep < N + 1 := by omega
  constructor
  · intro hany
    rcases List.any_eq_true.1 hany with ⟨v, hv, hdec⟩
    have hlt : relaxPure g adj oth (bfD g adj oth ep N) v.vtx_id <
        bfD g adj oth ep N v.vtx_id := of_decide_eq_true hdec
    by_contra hnoneg
    have hstab := no_negCycle_stable g adj oth ep (N + 1) hbound2 hadj2 hepn2
      (by omega) hnoneg
    have hsv := hstab v.vtx_id
    rw [bfD_succ g adj oth ep N v.vtx_id] at hsv
    rw [hsv] at hlt
    exact lt_irrefl _ hlt
  · intro hneg
    by_contra hany
    have hforall : ∀ v ∈ g.vtx_list,
        ¬ (relaxPure g adj oth (bfD g adj oth ep N) v.vtx_id <
          bfD g adj oth ep N v.vtx_id) := by
      intro v hv hlt
      exact hany (List.any_eq_true.2 ⟨v, hv, decide_eq_true hlt⟩)
    have hstab : ∀ x, bfD g adj oth ep (N + 1) x = bfD g adj oth ep N x := by
      intro x
      cases hf : g.find_vtx x with
      | none => exact bfD_unlisted_stable g adj oth ep hf N
      | some w =>
        rcases find_vtx_d hf with ⟨hid2, hmem2⟩
        refine le_antisymm (bfD_mono g adj oth ep N x) ?_
        rw [bfD_succ g adj oth ep N x]
        have hnl := hforall w hmem2
        rw [hid2] at hnl
        exact le_of_not_lt hnl
    exact absurd hneg
      (bfD_stable_no_negCycle g adj oth ep (N + 1) (by omega) hstab)

/-- The full-table core raises the negative-cycle error exactly when a
negative cycle is connected to the endpoint. -/
theorem bellmanFordCore_negCycle_iff (adj : DVertex → List DirectedEdge)
    (oth : DirectedEdge → Nat) (atFront : Bool) (g : DGraph) (ep_id : Nat)
    (vep : DVertex) (hep : g.find_vtx ep_id = some vep)
    (hnd : (g.vtx_list.map DVertex.vtx_id).Nodup)
    (hbound : ∀ v ∈ g.vtx_list, v.vtx_id < g.vtx_list.length)
    (hadj : AdjBounded g adj oth) :
    (bellmanFordCore adj oth atFront g ep_id = .error .negCycle ↔
      NegCycleVia g adj oth ep_id) := by
  rcases find_vtx_d hep with ⟨hid, hmem⟩
  have hepn : ep_id < g.vtx_list.length := by
    rw [← hid]
    exact hbound vep hmem
  unfold bellmanFordCore
  rw [hep]
  dsimp only
  rcases bfInitGo_bridge vep.vtx_id g.vtx_list
    (List.replicate g.vtx_list.length
      (List.replicate g.vtx_list.length (0 : BFVal)))
    (tdims_replicate _) hbound with ⟨t1, h1, ht1, htop, hkeep⟩
  rw [h1, ok_bind]
  have hcol0 : ∀ i < g.vtx_list.length,
      idx2 t1 i 0 = .ok (bfD g adj oth ep_id 0 i) := by
    intro i hi
    by_cases hie : i = ep_id
    · rw [hie]
      have hk : idx2 t1 ep_id 0 = idx2 (List.replicate g.vtx_list.length
          (List.replicate g.vtx_list.length (0 : BFVal))) ep_id 0 := by
        refine hkeep ep_id 0 (Or.inr ?_)
        intro w _ hwe
        rw [hid]
        exact hwe
      rw [hk, idx2_replicate hepn (show 0 < g.vtx_list.length by omega)]
      have hb : bfD g adj oth ep_id 0 ep_id = 0 := by simp [bfD]
      rw [hb]
    · rcases ids_surj hnd hbound i hi with ⟨w, hw, hwi⟩
      have hwe : w.vtx_id ≠ vep.vtx_id := by
        rw [hid, hwi]
        exact hie
      have hwt := htop w hw hwe
      rw [hwi] at hwt
      rw [hwt]
      have hb : bfD g adj oth ep_id 0 i = ⊤ := by simp [bfD, hie]
      rw [hb]
  have hinv0 : ∀ b ≤ 0, ∀ i < g.vtx_list.length,
      idx2 t1 i b = .ok (bfD g adj oth ep_id b i) := by
    intro b hb i hi
    have hb0 : b = 0 := by omega
    rw [hb0]
    exact hcol0 i hi
  rw [range_map_add_one]
  rcases bfBudgets_bridge g adj oth ep_id hnd hbound hadj rfl
    (g.vtx_list.length - 1) 0 t1 (by omega) ht1 hinv0 with ⟨t2, h2, ht2, hcols⟩
  rw [show (0 : Nat) + 1 = 1 from rfl] at h2
  rw [h2, ok_bind]
  have hflag := extraGo_pure g adj oth t2 (g.vtx_list.length - 1)
    (bfD g adj oth ep_id (g.vtx_list.length - 1)) hnd g.vtx_list false
    (fun v hv => hv)
    (fun v hv => hcols (g.vtx_list.length - 1) (le_refl _) v.vtx_id
      (hbound v hv))
    (fun v hv e he => hcols (g.vtx_list.length - 1) (le_refl _) (oth e)
      (hadj v hv e he))
  rw [hflag, ok_bind, Bool.false_or]
  have hiff := any_strict_iff_negCycle g adj oth ep_id hnd hbound hadj hepn
    (g.vtx_list.length - 1) (by omega)
  by_cases hany : g.vtx_list.any (fun v =>
      decide (relaxPure g adj oth
          (bfD g adj oth ep_id (g.vtx_list.length - 1)) v.vtx_id <
        bfD g adj oth ep_id (g.vtx_list.length - 1) v.vtx_id)) = true
  · rw [if_pos hany]
    constructor
    · intro _
      exact hiff.1 hany
    · intro _
      rfl
  · rw [if_neg hany]
    constructor
    · intro hrg
      exfalso
      rcases reconGo_cases g adj oth atFront t2 g.vtx_list [] with
        ⟨r, hr⟩ | hr
      · rw [hr] at hrg
        simp at hrg
      · rw [hr] at hrg
        simp at hrg
    · intro hneg
      exact absurd (hiff.2 hneg) hany

/-- The one-row initialization succeeds on bounded ids and leaves exactly
the base case of the recurrence in the row. -/
theorem bfInit1Go_bridge {n : Nat} (ep : Nat) :
    ∀ (vs : List DVertex) (row : List BFVal),
    row.length = n →
    (∀ v ∈ vs, v.vtx_id < n) →
    ∃ r1, bfInit1Go ep vs row = .ok r1 ∧ r1.length = n ∧
      (∀ v ∈ vs, v.vtx_id ≠ ep → r1.get? v.vtx_id = some ⊤) ∧
      (∀ i, (∀ v ∈ vs, v.vtx_id = i → v.vtx_id = ep) →
        r1.get? i = row.get? i) := by
  intro vs
  induction vs with
  | nil =>
    intro row hl _
    exact ⟨row, rfl, hl, by simp, fun i _ => rfl⟩
  | cons v rest ih =>
    intro row hl hlt
    unfold bfInit1Go
    by_cases hv : v.vtx_id = ep
    · simp only [if_pos hv]
      rcases ih row hl (fun w hw => hlt w (List.mem_cons_of_mem v hw)) with
        ⟨r1, h1, hl1, htop, hkeep⟩
      refine ⟨r1, h1, hl1, ?_, ?_⟩
      · intro w hw hwne
        rcases List.mem_cons.1 hw with h | h
        · rw [h] at hwne
          exact absurd hv hwne
        · exact htop w h hwne
      · intro i hcond
        exact hkeep i (fun w hw => hcond w (List.mem_cons_of_mem v hw))
    · simp only [if_neg hv]
      have hvn : v.vtx_id < row.length := by
        rw [hl]
        exact hlt v (List.mem_cons_self v rest)
      rw [(setIdx_ok_iff.2 ⟨hvn, rfl⟩ :
        setIdx row v.vtx_id ⊤ = .ok (row.set v.vtx_id ⊤)), ok_bind]
      rcases ih (row.set v.vtx_id ⊤) (by simp [hl])
        (fun w hw => hlt w (List.mem_cons_of_mem v hw)) with
        ⟨r1, h1, hl1, htop, hkeep⟩
      refine ⟨r1, h1, hl1, ?_, ?_⟩
      · intro w hw hwne
        rcases List.mem_cons.1 hw with h | h
        · rw [h]
          by_cases hc : ∀ u ∈ rest, u.vtx_id = v.vtx_id → u.vtx_id = ep
          · rw [hkeep v.vtx_id hc]
            exact get?_set_self row v.vtx_id ⊤ hvn
          · push_neg at hc
            rcases hc with ⟨u, hu, hueq, hune⟩
            rw [← hueq]
            exact htop u hu hune
        · exact htop w h hwne
      · intro i hcond
        rw [hkeep i (fun u hu => hcond u (List.mem_cons_of_mem v hu))]
        exact get?_set_other row ⊤
          (fun hc => hv (hcond v (List.mem_cons_self v rest) hc))

/-- The round edge scan of the space-optimized variant computes the
running minimum purely and ORs the flag with "strict improvement". -/
theorem optScan_pure (oth : DirectedEdge → Nat) (prev : List BFVal)
    (f : Nat → BFVal) :
    ∀ (es : List DirectedEdge) (acc : BFVal) (pen : Option Nat) (made : Bool),
    (∀ e ∈ es, idx prev (oth e) = .ok (f (oth e))) →
    ∃ p, optScan oth prev acc pen made es =
      .ok (es.foldl (fun a e => min a (f (oth e) + (e.length : BFVal))) acc, p,
        made ||
          decide (es.foldl (fun a e => min a (f (oth e) + (e.length : BFVal)))
            acc < acc)) := by
  intro es
  induction es with
  | nil =>
    intro acc pen made _
    refine ⟨pen, ?_⟩
    simp [optScan]
  | cons e rest ih =>
    intro acc pen made hread
    unfold optScan
    rw [hread e (List.mem_cons_self e rest), ok_bind]
    by_cases h : f (oth e) + (e.length : BFVal) < acc
    · rw [if_pos h]
      rcases ih (f (oth e) + (e.length : BFVal)) (some (oth e)) true
        (fun e2 he2 => hread e2 (List.mem_cons_of_mem e he2)) with ⟨p, hp⟩
      refine ⟨p, ?_⟩
      rw [hp]
      have hmin : min acc (f (oth e) + (e.length : BFVal)) =
          f (oth e) + (e.length : BFVal) := min_eq_right (le_of_lt h)
      have hle := foldl_min_le_init rest
        (fun e => f (oth e) + (e.length : BFVal))
        (f (oth e) + (e.length : BFVal))
      have hlt : rest.foldl (fun a e => min a (f (oth e) + (e.length : BFVal)))
          (f (oth e) + (e.length : BFVal)) < acc := lt_of_le_of_lt hle h
      simp only [List.foldl_cons, hmin]
      rw [decide_eq_true hlt, Bool.or_true, Bool.true_or]
    · rw [if_neg h]
      rcases ih acc pen made
        (fun e2 he2 => hread e2 (List.mem_cons_of_mem e he2)) with ⟨p, hp⟩
      refine ⟨p, ?_⟩
      rw [hp]
      have hmin : min acc (f (oth e) + (e.length : BFVal)) = acc :=
        min_eq_left (le_of_not_lt h)
      simp only [List.foldl_cons, hmin]

/-- One round of the space-optimized loop writes one relaxation of `f`
into the current row and reports exactly whether some listed vertex
strictly improved. -/
theorem optRoundGo_bridge (g : DGraph) (adj : DVertex → List DirectedEdge)
    (oth : DirectedEdge → Nat) {n : Nat} (f : Nat → BFVal)
    (hnd : (g.vtx_list.map DVertex.vtx_id).Nodup)
    (hadj : AdjBounded g adj oth)
    (prev : List BFVal) (prevPen : List (Option Nat))
    (hpplen : prevPen.length = n)
    (hreads : ∀ i < n, idx prev i = .ok (f i)) :
    ∀ (vs : List DVertex) (curr : List BFVal) (currPen : List (Option Nat))
      (made : Bool),
    (∀ v ∈ vs, v ∈ g.vtx_list) →
    (vs.map DVertex.vtx_id).Nodup →
    (∀ v ∈ vs, v.vtx_id < n) →
    (∀ v ∈ vs, ∀ e ∈ adj v, oth e < n) →
    curr.length = n → currPen.length = n →
    ∃ curr2 currPen2,
      optRoundGo adj oth prev prevPen vs curr currPen made =
        .ok (curr2, currPen2, made || vs.any
          (fun v => decide (relaxPure g adj oth f v.vtx_id < f v.vtx_id))) ∧
      curr2.length = n ∧ currPen2.length = n ∧
      (∀ v ∈ vs, curr2.get? v.vtx_id = some (relaxPure g adj oth f v.vtx_id)) ∧
      (∀ i, (∀ v ∈ vs, v.vtx_id ≠ i) → curr2.get? i = curr.get? i) := by
  intro vs
  induction vs with
  | nil =>
    intro curr currPen made _ _ _ _ hcl hcpl
    refine ⟨curr, currPen, ?_, hcl, hcpl, by simp, fun i _ => rfl⟩
    simp [optRoundGo]
  | cons v rest ih =>
    intro curr currPen made hsub hvnd hvlt hadjlt hcl hcpl
    unfold optRoundGo
    have hvg : v ∈ g.vtx_list := hsub v (List.mem_cons_self v rest)
    have hvn : v.vtx_id < n := hvlt v (List.mem_cons_self v rest)
    rw [hreads v.vtx_id hvn, ok_bind]
    obtain ⟨p0, hp0⟩ : ∃ p0, idx prevPen v.vtx_id = .ok p0 :=
      idx_ok_of_lt (by rw [hpplen]; exact hvn)
    rw [hp0, ok_bind]
    have hescan : ∀ e ∈ adj v, idx prev (oth e) = .ok (f (oth e)) := by
      intro e he
      exact hreads (oth e) (hadjlt v (List.mem_cons_self v rest) e he)
    rcases optScan_pure oth prev f (adj v) (f v.vtx_id) p0 made hescan with
      ⟨p, hp⟩
    rw [hp, ok_bind]
    have hrelax : (adj v).foldl
        (fun a e => min a (f (oth e) + (e.length : BFVal))) (f v.vtx_id) =
        relaxPure g adj oth f v.vtx_id := by
      unfold relaxPure
      rw [adjOf_self adj hnd hvg]
    dsimp only
    rw [hrelax]
    rw [(setIdx_ok_iff.2 ⟨by rw [hcl]; exact hvn, rfl⟩ :
      setIdx curr v.vtx_id (relaxPure g adj oth f v.vtx_id) =
        .ok (curr.set v.vtx_id (relaxPure g adj oth f v.vtx_id))), ok_bind]
    rw [(setIdx_ok_iff.2 ⟨by rw [hcpl]; exact hvn, rfl⟩ :
      setIdx currPen v.vtx_id p = .ok (currPen.set v.vtx_id p)), ok_bind]
    have hvnd2 : v.vtx_id ∉ rest.map DVertex.vtx_id ∧
        (rest.map DVertex.vtx_id).Nodup := by
      rw [List.map_cons, List.nodup_cons] at hvnd
      exact hvnd
    rcases ih (curr.set v.vtx_id (relaxPure g adj oth f v.vtx_id))
      (currPen.set v.vtx_id p)
      (made || decide (relaxPure g adj oth f v.vtx_id < f v.vtx_id))
      (fun w hw => hsub w (List.mem_cons_of_mem v hw)) hvnd2.2
      (fun w hw => hvlt w (List.mem_cons_of_mem v hw))
      (fun w hw => hadjlt w (List.mem_cons_of_mem v hw))
      (by simp [hcl]) (by simp [hcpl]) with
      ⟨curr2, currPen2, h2, hl2, hpl2, hwritten, huntouched⟩
    refine ⟨curr2, currPen2, ?_, hl2, hpl2, ?_, ?_⟩
    · rw [h2, List.any_cons, Bool.or_assoc]
    · intro w hw
      rcases List.mem_cons.1 hw with h | h
      · rw [h]
        have hnone : ∀ u ∈ rest, u.vtx_id ≠ v.vtx_id := by
          intro u hu hc
          exact hvnd2.1 (hc ▸ List.mem_map_of_mem DVertex.vtx_id hu)
        rw [huntouched v.vtx_id hnone]
        exact get?_set_self curr v.vtx_id _ (by rw [hcl]; exact hvn)
      · exact hwritten w h
    · intro i hni
      rw [huntouched i (fun u hu => hni u (List.mem_cons_of_mem v hu))]
      exact get?_set_other curr _ (hni v (List.mem_cons_self v rest))

/-- The early-stopping loop always ends (normally or early) with the
previous row holding exactly the level-`n-1` values. -/
theorem optLoop_bridge (g : DGraph) (adj : DVertex → List DirectedEdge)
    (oth : DirectedEdge → Nat) (ep : Nat) {n : Nat}
    (hnd : (g.vtx_list.map DVertex.vtx_id).Nodup)
    (hbound : ∀ v ∈ g.vtx_list, v.vtx_id < g.vtx_list.length)
    (hadj : AdjBounded g adj oth)
    (hn : g.vtx_list.length = n) :
    ∀ (rem B : Nat) (made : Bool) (prev : List BFVal)
      (prevPen : List (Option Nat)) (curr : List BFVal)
      (currPen : List (Option Nat)),
    B + rem = n - 1 →
    prev.length = n → prevPen.length = n → curr.length = n →
    currPen.length = n →
    (∀ i < n, idx prev i = .ok (bfD g adj oth ep B i)) →
    (made = false → ∀ x, bfD g adj oth ep (B + 1) x = bfD g adj oth ep B x) →
    ∃ fin finPen,
      optLoop adj oth g.vtx_list rem made prev prevPen curr currPen =
        .ok (fin, finPen) ∧
      fin.length = n ∧ finPen.length = n ∧
      (∀ i < n, idx fin i = .ok (bfD g adj oth ep (n - 1) i)) := by
  intro rem
  induction rem with
  | zero =>
    intro B made prev prevPen curr currPen hB hpl hppl hcl hcpl hreads hmade
    have hBn : B = n - 1 := by omega
    refine ⟨prev, prevPen, rfl, hpl, hppl, ?_⟩
    rw [← hBn]
    exact hreads
  | succ rem ih =>
    intro B made prev prevPen curr currPen hB hpl hppl hcl hcpl hreads hmade
    unfold optLoop
    by_cases hm : made
    · simp only [if_pos hm]
      rcases optRoundGo_bridge g adj oth (bfD g adj oth ep B) hnd hadj prev
        prevPen hppl hreads g.vtx_list curr currPen false
        (fun v hv => hv) hnd (fun v hv => by rw [← hn]; exact hbound v hv)
        (fun v hv e he => by rw [← hn]; exact hadj v hv e he)
        hcl hcpl with
        ⟨curr2, currPen2, h2, hl2, hpl2, hwritten, huntouched⟩
      rw [h2, ok_bind]
      dsimp only
      rw [Bool.false_or]
      have hreads2 : ∀ i < n,
          idx curr2 i = .ok (bfD g adj oth ep (B + 1) i) := by
        intro i hi
        rcases ids_surj hnd hbound i (by rw [hn]; exact hi) with ⟨v, hv, hvi⟩
        rw [← hvi, idx_ok_of_get? (hwritten v hv),
          bfD_succ g adj oth ep B v.vtx_id]
      have hmade2 : (g.vtx_list.any (fun v =>
          decide (relaxPure g adj oth (bfD g adj oth ep B) v.vtx_id <
            bfD g adj oth ep B v.vtx_id))) = false →
          ∀ x, bfD g adj oth ep (B + 1 + 1) x = bfD g adj oth ep (B + 1) x := by
        intro hfalse x
        have hfix : ∀ y, bfD g adj oth ep (B + 1) y = bfD g adj oth ep B y := by
          intro y
          cases hf : g.find_vtx y with
          | none => exact bfD_unlisted_stable g adj oth ep hf B
          | some w =>
            rcases find_vtx_d hf with ⟨hid2, hmem2⟩
            refine le_antisymm (bfD_mono g adj oth ep B y) ?_
            rw [bfD_succ g adj oth ep B y]
            have hnl : ¬ (relaxPure g adj oth (bfD g adj oth ep B) w.vtx_id <
                bfD g adj oth ep B w.vtx_id) := by
              intro hlt
              have htrue : (g.vtx_list.any (fun v =>
                  decide (relaxPure g adj oth (bfD g adj oth ep B) v.vtx_id <
                    bfD g adj oth ep B v.vtx_id))) = true :=
                List.any_eq_true.2 ⟨w, hmem2, decide_eq_true hlt⟩
              rw [hfalse] at htrue
              exact Bool.false_ne_true htrue
            rw [hid2] at hnl
            exact le_of_not_lt hnl
        have hall := bfD_fixpoint g adj oth ep hfix
        rw [hall (B + 1 + 1) (by omega) x, hall (B + 1) (by omega) x]
      exact ih (B + 1) _ curr2 currPen2 curr2 currPen2 (by omega) hl2 hpl2
        hl2 hpl2 hreads2 hmade2
    · simp only [if_neg hm]
      have hmf : made = false := by
        cases made
        · rfl
        · exact absurd rfl hm
      have hall := bfD_fixpoint g adj oth ep (hmade hmf)
      refine ⟨prev, prevPen, rfl, hpl, hppl, ?_⟩
      intro i hi
      rw [hreads i hi, hall (n - 1) (by omega) i]

/-- The space-optimized extra-pass edge scan, purely. -/
theorem extra1VGo_pure (oth : DirectedEdge → Nat) (prev : List BFVal)
    (f : Nat → BFVal) :
    ∀ (es : List DirectedEdge) (acc : BFVal) (flag : Bool),
    (∀ e ∈ es, idx prev (oth e) = .ok (f (oth e))) →
    extra1VGo oth prev acc flag es =
      .ok (es.foldl (fun a e => min a (f (oth e) + (e.length : BFVal))) acc,
        flag ||
          decide (es.foldl (fun a e => min a (f (oth e) + (e.length : BFVal)))
            acc < acc)) := by
  intro es
  induction es with
  | nil =>
    intro acc flag _
    simp [extra1VGo]
  | cons e rest ih =>
    intro acc flag hread
    unfold extra1VGo
    rw [hread e (List.mem_cons_self e rest), ok_bind]
    by_cases h : f (oth e) + (e.length : BFVal) < acc
    · rw [if_pos h,
        ih _ _ (fun e2 he2 => hread e2 (List.mem_cons_of_mem e he2))]
      have hmin : min acc (f (oth e) + (e.length : BFVal)) =
          f (oth e) + (e.length : BFVal) := min_eq_right (le_of_lt h)
      have hle := foldl_min_le_init rest
        (fun e => f (oth e) + (e.length : BFVal))
        (f (oth e) + (e.length : BFVal))
      have hlt : rest.foldl (fun a e => min a (f (oth e) + (e.length : BFVal)))
          (f (oth e) + (e.length : BFVal)) < acc := lt_of_le_of_lt hle h
      simp only [List.foldl_cons, hmin]
      rw [decide_eq_true hlt, Bool.or_true, Bool.true_or]
    · rw [if_neg h,
        ih _ _ (fun e2 he2 => hread e2 (List.mem_cons_of_mem e he2))]
      have hmin : min acc (f (oth e) + (e.length : BFVal)) = acc :=
        min_eq_left (le_of_not_lt h)
      simp only [List.foldl_cons, hmin]

/-- The space-optimized extra pass, purely. -/
theorem extra1Go_pure (g : DGraph) (adj : DVertex → List DirectedEdge)
    (oth : DirectedEdge → Nat) (prev : List BFVal) (f : Nat → BFVal)
    (hnd : (g.vtx_list.map DVertex.vtx_id).Nodup) :
    ∀ (vs : List DVertex) (flag : Bool),
    (∀ v ∈ vs, v ∈ g.vtx_list) →
    (∀ v ∈ vs, idx prev v.vtx_id = .ok (f v.vtx_id)) →
    (∀ v ∈ vs, ∀ e ∈ adj v, idx prev (oth e) = .ok (f (oth e))) →
    extra1Go adj oth prev flag vs =
      .ok (flag || vs.any
        (fun v => decide (relaxPure g adj oth f v.vtx_id < f v.vtx_id))) := by
  intro vs
  induction vs with
  | nil =>
    intro flag _ _ _
    simp [extra1Go]
  | cons v rest ih =>
    intro flag hsub hinit hreads
    unfold extra1Go
    rw [hinit v (List.mem_cons_self v rest), ok_bind]
    rw [extra1VGo_pure oth prev f (adj v) (f v.vtx_id) flag
      (hreads v (List.mem_cons_self v rest)), ok_bind]
    have hrelax : (adj v).foldl
        (fun a e => min a (f (oth e) + (e.length : BFVal))) (f v.vtx_id) =
        relaxPure g adj oth f v.vtx_id := by
      unfold relaxPure
      rw [adjOf_self adj hnd (hsub v (List.mem_cons_self v rest))]
    dsimp only
    rw [ih _ (fun w hw => hsub w (List.mem_cons_of_mem v hw))
      (fun w hw => hinit w (List.mem_cons_of_mem v hw))
      (fun w hw => hreads w (List.mem_cons_of_mem v hw))]
    rw [hrelax, List.any_cons, Bool.or_assoc]

theorem reconPtrGo_cases (pens : List (Option Nat)) (atFront : Bool) :
    ∀ (vs : List DVertex) (acc : List (List Nat)),
    (∃ r, reconPtrGo pens atFront vs acc = .ok r) ∨
      reconPtrGo pens atFront vs acc = .error .indexError := by
  intro vs
  induction vs with
  | nil =>
    intro acc
    exact Or.inl ⟨acc, rfl⟩
  | cons v rest ih =>
    intro acc
    unfold reconPtrGo
    rcases reconPtrOne_cases pens atFront [v.vtx_id] v.vtx_id pens.length with
      ⟨p, hp⟩ | hp
    · rw [hp, ok_bind]
      exact ih _
    · rw [hp, error_bind]
      exact Or.inr rfl

/-- The space-optimized core raises the negative-cycle error exactly when
a negative cycle is connected to the endpoint. -/
theorem bellmanFordOptCore_negCycle_iff (adj : DVertex → List DirectedEdge)
    (oth : DirectedEdge → Nat) (atFront : Bool) (g : DGraph) (ep_id : Nat)
    (vep : DVertex) (hep : g.find_vtx ep_id = some vep)
    (hnd : (g.vtx_list.map DVertex.vtx_id).Nodup)
    (hbound : ∀ v ∈ g.vtx_list, v.vtx_id < g.vtx_list.length)
    (hadj : AdjBounded g adj oth) :
    (bellmanFordOptCore adj oth atFront g ep_id = .error .negCycle ↔
      NegCycleVia g adj oth ep_id) := by
  rcases find_vtx_d hep with ⟨hid, hmem⟩
  have hepn : ep_id < g.vtx_list.length := by
    rw [← hid]
    exact hbound vep hmem
  unfold bellmanFordOptCore
  rw [hep]
  dsimp only
  rcases bfInit1Go_bridge vep.vtx_id g.vtx_list
    (List.replicate g.vtx_list.length (0 : BFVal)) (by simp) hbound with
    ⟨prev0, h1, hl1, htop, hkeep⟩
  rw [h1, ok_bind]
  have hrow0 : ∀ i < g.vtx_list.length,
      idx prev0 i = .ok (bfD g adj oth ep_id 0 i) := by
    intro i hi
    by_cases hie : i = ep_id
    · rw [hie]
      have hk := hkeep ep_id (fun w _ hwe => by rw [hid]; exact hwe)
      have hrep : (List.replicate g.vtx_list.length (0 : BFVal)).get? ep_id =
          some 0 := by
        simp [List.get?_eq_getElem?, List.getElem?_replicate, hepn]
      rw [idx_ok_of_get? (hk.trans hrep)]
      have hb : bfD g adj oth ep_id 0 ep_id = 0 := by simp [bfD]
      rw [hb]
    · rcases ids_surj hnd hbound i hi with ⟨w, hw, hwi⟩
      have hwe : w.vtx_id ≠ vep.vtx_id := by
        rw [hid, hwi]
        exact hie
      have hwt := htop w hw hwe
      rw [hwi] at hwt
      rw [idx_ok_of_get? hwt]
      have hb : bfD g adj oth ep_id 0 i = ⊤ := by simp [bfD, hie]
      rw [hb]
  rcases optLoop_bridge g adj oth ep_id hnd hbound hadj rfl
    (g.vtx_list.length - 1) 0 true prev0
    (List.replicate g.vtx_list.length none)
    (List.replicate g.vtx_list.length (0 : BFVal))
    (List.replicate g.vtx_list.length none)
    (by omega) hl1 (by simp) (by simp) (by simp) hrow0
    (fun hc => absurd hc (by simp)) with
    ⟨fin, finPen, h2, hfl, hfpl, hreads⟩
  rw [h2, ok_bind]
  dsimp only
  have hflag := extra1Go_pure g adj oth fin
    (bfD g adj oth ep_id (g.vtx_list.length - 1)) hnd g.vtx_list false
    (fun v hv => hv)
    (fun v hv => hreads v.vtx_id (hbound v hv))
    (fun v hv e he => hreads (oth e) (hadj v hv e he))
  rw [hflag, ok_bind, Bool.false_or]
  have hiff := any_strict_iff_negCycle g adj oth ep_id hnd hbound hadj hepn
    (g.vtx_list.length - 1) (by omega)
  by_cases hany : g.vtx_list.any (fun v =>
      decide (relaxPure g adj oth
          (bfD g adj oth ep_id (g.vtx_list.length - 1)) v.vtx_id <
        bfD g adj oth ep_id (g.vtx_list.length - 1) v.vtx_id)) = true
  · rw [if_pos hany]
    exact ⟨fun _ => hiff.1 hany, fun _ => rfl⟩
  · rw [if_neg hany]
    constructor
    · intro hrg
      exfalso
      rcases reconPtrGo_cases finPen atFront g.vtx_list [] with ⟨r, hr⟩ | hr
      · rw [hr] at hrg
        simp at hrg
      · rw [hr] at hrg
        simp at hrg
    · intro hneg
      exact absurd (hiff.2 hneg) hany

/-- The notification cascade can only return a state, run out of fuel, or
die indexing; it never raises any other error. -/
theorem notifyRun_shape (g : DGraph) :
    ∀ (fuel : Nat) (st : List BFVal × List (Option Nat))
      (stk : List (List DirectedEdge)),
    (∃ r, notifyRun g fuel st stk = .ok r) ∨
      notifyRun g fuel st stk = .error .indexError := by
  intro fuel
  induction fuel with
  | zero =>
    intro st stk
    cases stk with
    | nil => exact Or.inl ⟨some st, rfl⟩
    | cons frame k => exact Or.inl ⟨none, rfl⟩
  | succ f ih =>
    intro st stk
    cases stk with
    | nil => exact Or.inl ⟨some st, rfl⟩
    | cons frame k =>
      cases frame with
      | nil => exact ih st k
      | cons e rest =>
        unfold notifyRun
        rcases idx_cases st.1 e.head with ⟨upd, hupd⟩ | hupd
        · rw [hupd, ok_bind]
          rcases idx_cases st.1 e.tail with ⟨cur, hcur⟩ | hcur
          · rw [hcur, ok_bind]
            split
            · rcases setIdx_cases st.1 e.tail (upd + (e.length : BFVal)) with
                ⟨h1, _⟩ | ⟨h1, _⟩
              · rw [h1, ok_bind]
                rcases setIdx_cases st.2 e.tail (some e.head) with
                  ⟨h2, _⟩ | ⟨h2, _⟩
                · rw [h2, ok_bind]
                  exact ih _ _
                · rw [h2, error_bind]
                  exact Or.inr rfl
              · rw [h1, error_bind]
                exact Or.inr rfl
            · exact ih _ _
          · rw [hcur, error_bind]
            exact Or.inr rfl
        · rw [hupd, error_bind]
          exact Or.inr rfl

/-- The push-based variant can fail with the unknown-vertex or the
indexing error or run out of recursion budget, but it never raises the
negative-cycle error. -/
theorem pushBased_no_negCycle (g : DGraph) (dest_vtx_id fuel : Nat) :
    g.shortest_paths_dest_driven_push_based dest_vtx_id fuel ≠
      .error .negCycle := by
  unfold DGraph.shortest_paths_dest_driven_push_based
  cases hf : g.find_vtx dest_vtx_id with
  | none => simp
  | some dest =>
    dsimp only
    rcases bfInit1Go_cases dest.vtx_id g.vtx_list
      (List.replicate g.vtx_list.length (0 : BFVal)) with ⟨mp0, h1, _⟩ | h1
    · rw [h1, ok_bind]
      rcases notifyRun_shape g fuel (mp0, List.replicate g.vtx_list.length none)
        [dest.incident_edges] with ⟨r, hr⟩ | hr
      · rw [hr, ok_bind]
        cases r with
        | none => simp
        | some st =>
          dsimp only
          rcases reconPtrGo_cases st.2 false g.vtx_list [] with ⟨p, hp⟩ | hp
          · rw [hp, ok_bind]
            simp
          · rw [hp, error_bind]
            simp
      · rw [hr, error_bind]
        simp
    · rw [h1, error_bind]
      simp

/-- The full table is exact: entry `(i, b)` holds `bfD b i`. -/
theorem bfTable_exact (adj : DVertex → List DirectedEdge)
    (oth : DirectedEdge → Nat) (g : DGraph) (ep_id : Nat) (vep : DVertex)
    (hep : g.find_vtx ep_id = some vep)
    (hnd : (g.vtx_list.map DVertex.vtx_id).Nodup)
    (hbound : ∀ v ∈ g.vtx_list, v.vtx_id < g.vtx_list.length)
    (hadj : AdjBounded g adj oth) :
    ∃ t, bfTable adj oth g ep_id = .ok t ∧ TDims t g.vtx_list.length ∧
      ∀ b ≤ g.vtx_list.length - 1, ∀ i < g.vtx_list.length,
        idx2 t i b = .ok (bfD g adj oth ep_id b i) := by
  rcases find_vtx_d hep with ⟨hid, hmem⟩
  have hepn : ep_id < g.vtx_list.length := by
    rw [← hid]
    exact hbound vep hmem
  unfold bfTable
  rw [hep]
  dsimp only
  rcases bfInitGo_bridge vep.vtx_id g.vtx_list
    (List.replicate g.vtx_list.length
      (List.replicate g.vtx_list.length (0 : BFVal)))
    (tdims_replicate _) hbound with ⟨t1, h1, ht1, htop, hkeep⟩
  rw [h1, ok_bind]
  have hcol0 : ∀ i < g.vtx_list.length,
      idx2 t1 i 0 = .ok (bfD g adj oth ep_id 0 i) := by
    intro i hi
    by_cases hie : i = ep_id
    · rw [hie]
      have hk : idx2 t1 ep_id 0 = idx2 (List.replicate g.vtx_list.length
          (List.replicate g.vtx_list.length (0 : BFVal))) ep_id 0 := by
        refine hkeep ep_id 0 (Or.inr ?_)
        intro w _ hwe
        rw [hid]
        exact hwe
      rw [hk, idx2_replicate hepn (show 0 < g.vtx_list.length by omega)]
      have hb : bfD g adj oth ep_id 0 ep_id = 0 := by simp [bfD]
      rw [hb]
    · rcases ids_surj hnd hbound i hi with ⟨w, hw, hwi⟩
      have hwe : w.vtx_id ≠ vep.vtx_id := by
        rw [hid, hwi]
        exact hie
      have hwt := htop w hw hwe
      rw [hwi] at hwt
      rw [hwt]
      have hb : bfD g adj oth ep_id 0 i = ⊤ := by simp [bfD, hie]
      rw [hb]
  have hinv0 : ∀ b ≤ 0, ∀ i < g.vtx_list.length,
      idx2 t1 i b = .ok (bfD g adj oth ep_id b i) := by
    intro b hb i hi
    have hb0 : b = 0 := by omega
    rw [hb0]
    exact hcol0 i hi
  rw [range_map_add_one]
  rcases bfBudgets_bridge g adj oth ep_id hnd hbound hadj rfl
    (g.vtx_list.length - 1) 0 t1 (by omega) ht1 hinv0 with ⟨t2, h2, ht2, hcols⟩
  rw [show (0 : Nat) + 1 = 1 from rfl] at h2
  exact ⟨t2, h2, ht2, hcols⟩

/-- The final row of the space-optimized loop is exact: entry `i` holds
`bfD (n-1) i`. -/
theorem bfOptRow_exact (adj : DVertex → List DirectedEdge)
    (oth : DirectedEdge → Nat) (g : DGraph) (ep_id : Nat) (vep : DVertex)
    (hep : g.find_vtx ep_id = some vep)
    (hnd : (g.vtx_list.map DVertex.vtx_id).Nodup)
    (hbound : ∀ v ∈ g.vtx_list, v.vtx_id < g.vtx_list.length)
    (hadj : AdjBounded g adj oth) :
    ∃ row, bfOptRow adj oth g ep_id = .ok row ∧
      row.length = g.vtx_list.length ∧
      ∀ i < g.vtx_list.length,
        idx row i = .ok (bfD g adj oth ep_id (g.vtx_list.length - 1) i) := by
  rcases find_vtx_d hep with ⟨hid, hmem⟩
  have hepn : ep_id < g.vtx_list.length := by
    rw [← hid]
    exact hbound vep hmem
  unfold bfOptRow
  rw [hep]
  dsimp only
  rcases bfInit1Go_bridge vep.vtx_id g.vtx_list
    (List.replicate g.vtx_list.length (0 : BFVal)) (by simp) hbound with
    ⟨prev0, h1, hl1, htop, hkeep⟩
  rw [h1, ok_bind]
  have hrow0 : ∀ i < g.vtx_list.length,
      idx prev0 i = .ok (bfD g adj oth ep_id 0 i) := by
    intro i hi
    by_cases hie : i = ep_id
    · rw [hie]
      have hk := hkeep ep_id (fun w _ hwe => by rw [hid]; exact hwe)
      have hrep : (List.replicate g.vtx_list.length (0 : BFVal)).get? ep_id =
          some 0 := by
        simp [List.get?_eq_getElem?, List.getElem?_replicate, hepn]
      rw [idx_ok_of_get? (hk.trans hrep)]
      have hb : bfD g adj oth ep_id 0 ep_id = 0 := by simp [bfD]
      rw [hb]
    · rcases ids_surj hnd hbound i hi with ⟨w, hw, hwi⟩
      have hwe : w.vtx_id ≠ vep.vtx_id := by
        rw [hid, hwi]
        exact hie
      have hwt := htop w hw hwe
      rw [hwi] at hwt
      rw [idx_ok_of_get? hwt]
      have hb : bfD g adj oth ep_id 0 i = ⊤ := by simp [bfD, hie]
      rw [hb]
  rcases optLoop_bridge g adj oth ep_id hnd hbound hadj rfl
    (g.vtx_list.length - 1) 0 true prev0
    (List.replicate g.vtx_list.length none)
    (List.replicate g.vtx_list.length (0 : BFVal))
    (List.replicate g.vtx_list.length none)
    (by omega) hl1 (by simp) (by simp) (by simp) hrow0
    (fun hc => absurd hc (by simp)) with
    ⟨fin, finPen, h2, hfl, hfpl, hreads⟩
  rw [h2, ok_bind]
  exact ⟨fin, rfl, hfl, hreads⟩

end BFBridge

set_option maxRecDepth 10000 in
/-- C2 (counterexample to the claim as stated): on the graph with vertex
ids `{0, 1, 3}` and the negative cycle `0 → 1 → 0` (both lengths `-5`),
a negative cycle is reachable from the existing source `0`, yet
`bellman_ford_shortest_paths(0)` dies with `IndexError` instead of
raising `NegativeCycleDetected`; and on the two-vertex negative cycle
the push-based variant (unlike the four DP variants, of which the
source-driven one is shown) never raises `NegativeCycleDetected` — it
recurses without end (here: is still running after 100 steps). -/
theorem C2_counterexample :
    (NegCycleReachableFrom gNegGap 0 ∧
      gNegGap.bellman_ford_shortest_paths 0 = .error .indexError) ∧
    (NegCycleCanReach gNeg 0 ∧
      gNeg.shortest_paths_dest_driven_push_based 0 100 = .ok none ∧
      gNeg.bellman_ford_shortest_paths 0 = .error .negCycle) := by
  refine ⟨⟨?_, by rfl⟩, ?_, by rfl, by rfl⟩
  · exact ⟨0, [], [⟨1, 0, -5⟩, ⟨0, 1, -5⟩], AWalk.nil 0,
      AWalk.cons (by decide) (AWalk.cons (by decide) (AWalk.nil 0)),
      by simp, by decide⟩
  · exact ⟨0, [], [⟨0, 1, -5⟩, ⟨1, 0, -5⟩], AWalk.nil 0,
      AWalk.cons (by decide) (AWalk.cons (by decide) (AWalk.nil 0)),
      by simp, by decide⟩

/-- C2 (amended): on a directed graph whose vertex ids are distinct and
below the vertex count and whose stored edge endpoints are likewise
(`BFWell` — what the id-indexed DP tables require), with an existing
endpoint, each of the four DP Bellman-Ford variants raises
`NegativeCycleDetected` if and only if a negative cycle is reachable
from the source (source-driven variants) respectively can reach the
destination (destination-driven variants); the push-based variant never
raises it, at any recursion budget. -/
theorem C2_negcycle_error_iff (g : DGraph) (ep : Nat)
    (hw : BFWell g) (hs : (g.find_vtx ep).isSome) :
    (g.bellman_ford_shortest_paths ep = .error .negCycle ↔
      NegCycleReachableFrom g ep) ∧
    (g.bellman_ford_shortest_paths_optimized ep = .error .negCycle ↔
      NegCycleReachableFrom g ep) ∧
    (g.bellman_ford_shortest_paths_dest_driven ep = .error .negCycle ↔
      NegCycleCanReach g ep) ∧
    (g.bellman_ford_shortest_paths_dest_driven_optimized ep =
        .error .negCycle ↔ NegCycleCanReach g ep) ∧
    (∀ fuel, g.shortest_paths_dest_driven_push_based ep fuel ≠
      .error .negCycle) := by
  obtain ⟨vep, hep⟩ := Option.isSome_iff_exists.1 hs
  obtain ⟨hnd, hbound, hadjI, hadjE⟩ := hw
  exact ⟨bellmanFordCore_negCycle_iff _ _ true g ep vep hep hnd hbound hadjI,
    bellmanFordOptCore_negCycle_iff _ _ true g ep vep hep hnd hbound hadjI,
    bellmanFordCore_negCycle_iff _ _ false g ep vep hep hnd hbound hadjE,
    bellmanFordOptCore_negCycle_iff _ _ false g ep vep hep hnd hbound hadjE,
    fun fuel => pushBased_no_negCycle g ep fuel⟩

/-- C2 (witness): the amended equivalence applies to the two-vertex
negative cycle with endpoint `0`. -/
theorem C2_witness :
    BFWell gNeg ∧ (gNeg.find_vtx 0).isSome ∧
    ((gNeg.bellman_ford_shortest_paths 0 = .error .negCycle ↔
        NegCycleReachableFrom gNeg 0) ∧
      (gNeg.bellman_ford_shortest_paths_optimized 0 = .error .negCycle ↔
        NegCycleReachableFrom gNeg 0) ∧
      (gNeg.bellman_ford_shortest_paths_dest_driven 0 = .error .negCycle ↔
        NegCycleCanReach gNeg 0) ∧
      (gNeg.bellman_ford_shortest_paths_dest_driven_optimized 0 =
          .error .negCycle ↔ NegCycleCanReach gNeg 0) ∧
      (∀ fuel, gNeg.shortest_paths_dest_driven_push_based 0 fuel ≠
        .error .negCycle)) :=
  ⟨by decide, by decide, C2_negcycle_error_iff gNeg 0 (by decide) (by decide)⟩

/-- C3 (counterexample to the claim as stated): on the single-edge graph
`0 → 1` of length `5` (no negative cycle, endpoint `0` present), the
source-driven variant reconstructs the path `[0, 1]` for vertex 1 (a
shortest path of length 5) while the destination-driven variant
reconstructs `[1]` (vertex 1 cannot reach destination 0 at all — its DP
length is `+infinity`, against `5` in the source-driven direction), so
the variants do not compute identical shortest-path lengths across
orientations. -/
theorem C3_counterexample :
    gOneEdge.bellman_ford_shortest_paths 0 = .ok [[0], [0, 1]] ∧
    gOneEdge.bellman_ford_shortest_paths_dest_driven 0 = .ok [[0], [1]] ∧
    bfD gOneEdge DVertex.incident_edges DirectedEdge.tail 0 1 1 =
      ((5 : ℤ) : BFVal) ∧
    bfD gOneEdge DVertex.emissive_edges DirectedEdge.head 0 1 1 = ⊤ :=
  ⟨rfl, rfl, by decide, by decide⟩

/-- C3 (amended): within each orientation the implementations do compute
identical shortest-path lengths: on a `BFWell` graph with an existing
endpoint, the full-table variant's final distance column (budget `n-1`)
and the space-optimized variant's final distance row agree entry for
entry, both holding exactly the Bellman-Ford recurrence values — for
the source-driven pair and for the destination-driven pair.  Across
orientations the lengths differ (see the counterexample). -/
theorem C3_lengths_agree_within_orientation (g : DGraph) (ep : Nat)
    (hw : BFWell g) (hs : (g.find_vtx ep).isSome) :
    (∃ t row,
      bfTable DVertex.incident_edges DirectedEdge.tail g ep = .ok t ∧
      bfOptRow DVertex.incident_edges DirectedEdge.tail g ep = .ok row ∧
      ∀ i < g.vtx_list.length,
        idx2 t i (g.vtx_list.length - 1) = idx row i ∧
        idx row i = .ok (bfD g DVertex.incident_edges DirectedEdge.tail ep
          (g.vtx_list.length - 1) i)) ∧
    (∃ t row,
      bfTable DVertex.emissive_edges DirectedEdge.head g ep = .ok t ∧
      bfOptRow DVertex.emissive_edges DirectedEdge.head g ep = .ok row ∧
      ∀ i < g.vtx_list.length,
        idx2 t i (g.vtx_list.length - 1) = idx row i ∧
        idx row i = .ok (bfD g DVertex.emissive_edges DirectedEdge.head ep
          (g.vtx_list.length - 1) i)) := by
  obtain ⟨vep, hep⟩ := Option.isSome_iff_exists.1 hs
  obtain ⟨hnd, hbound, hadjI, hadjE⟩ := hw
  constructor
  · rcases bfTable_exact _ _ g ep vep hep hnd hbound hadjI with
      ⟨t, ht, _, hcols⟩
    rcases bfOptRow_exact _ _ g ep vep hep hnd hbound hadjI with
      ⟨row, hrow, _, hreads⟩
    refine ⟨t, row, ht, hrow, ?_⟩
    intro i hi
    refine ⟨?_, hreads i hi⟩
    rw [hcols (g.vtx_list.length - 1) (le_refl _) i hi, hreads i hi]
  · rcases bfTable_exact _ _ g ep vep hep hnd hbound hadjE with
      ⟨t, ht, _, hcols⟩
    rcases bfOptRow_exact _ _ g ep vep hep hnd hbound hadjE with
      ⟨row, hrow, _, hreads⟩
    refine ⟨t, row, ht, hrow, ?_⟩
    intro i hi
    refine ⟨?_, hreads i hi⟩
    rw [hcols (g.vtx_list.length - 1) (le_refl _) i hi, hreads i hi]

/-- C3 (witness): the amended agreement applies to the spec's three-vertex
Bellman-Ford example with endpoint `0`. -/
theorem C3_witness :
    BFWell gBF ∧ (gBF.find_vtx 0).isSome ∧
    ((∃ t row,
      bfTable DVertex.incident_edges DirectedEdge.tail gBF 0 = .ok t ∧
      bfOptRow DVertex.incident_edges DirectedEdge.tail gBF 0 = .ok row ∧
      ∀ i < gBF.vtx_list.length,
        idx2 t i (gBF.vtx_list.length - 1) = idx row i ∧
        idx row i = .ok (bfD gBF DVertex.incident_edges DirectedEdge.tail 0
          (gBF.vtx_list.length - 1) i)) ∧
    (∃ t row,
      bfTable DVertex.emissive_edges DirectedEdge.head gBF 0 = .ok t ∧
      bfOptRow DVertex.emissive_edges DirectedEdge.head gBF 0 = .ok row ∧
      ∀ i < gBF.vtx_list.length,
        idx2 t i (gBF.vtx_list.length - 1) = idx row i ∧
        idx row i = .ok (bfD gBF DVertex.emissive_edges DirectedEdge.head 0
          (gBF.vtx_list.length - 1) i))) :=
  ⟨by decide, by decide,
    C3_lengths_agree_within_orientation gBF 0 (by decide) (by decide)⟩

end CourseraGraphs
